import Mathlib

/-!
# GoatCounter: referrer classification and hit ingestion

A shallow embedding of `hit.go` and `refgroups.go` together with the parts of the Go
standard library (`strings`, `path`, `net/url`, as of Go 1.12) that these files call.

Conventions.
* A Go `string` is a sequence of bytes.  It is carried by a `List Char` in which the
  character with code `b` stands for the byte `b`.
* A Go run-time panic (slice bounds out of range, nil dereference) is the value `none`.
* `strings.Index` returns `none` for `-1` and `some i` for the index `i`.
* A Go error return is `none` too, where the function cannot panic (`url.Parse`,
  `unescape`); `Hit.Insert` keeps the two apart in `InsertResult`.
* What the two files use and do not declare is a parameter: `pkgRefURL`, the name `refURL`
  that the Lobsters rule of `groupings` reads instead of its argument; `blacklist`, the keys
  of the map of that name; `now`, the clock; `exec`, the insert statement on the database.
-/

set_option autoImplicit false

namespace GoatCounter

/-- Go `string`: a sequence of bytes, one character per byte. -/
abbrev Str := List Char

/-! ## Package `strings` and slicing -/

/-- `strings.Index(s, sep)`: index of the first occurrence of `sep` in `s`, `none` for -1. -/
def stringsIndex : Str → Str → Option Nat
  | [], sep => if sep.isEmpty then some 0 else none
  | c :: t, sep =>
    if sep.isPrefixOf (c :: t) then some 0
    else (stringsIndex t sep).map (fun i => i + 1)

/-- `strings.LastIndex(s, sep)`: index of the last occurrence of `sep` in `s`. -/
def stringsLastIndex : Str → Str → Option Nat
  | [], sep => if sep.isEmpty then some 0 else none
  | c :: t, sep =>
    match stringsLastIndex t sep with
    | some i => some (i + 1)
    | none => if sep.isPrefixOf (c :: t) then some 0 else none

/-- `strings.Count(s, sep)` for a one-byte separator. -/
def stringsCountByte (s : Str) (c : Char) : Nat := s.count c

/-- `strings.TrimLeft(s, cutset)`. -/
def stringsTrimLeft (s cutset : Str) : Str := s.dropWhile (fun c => cutset.contains c)

/-- `strings.TrimRight(s, cutset)`. -/
def stringsTrimRight (s cutset : Str) : Str :=
  (s.reverse.dropWhile (fun c => cutset.contains c)).reverse

/-- `strings.Trim(s, cutset)`. -/
def stringsTrim (s cutset : Str) : Str := stringsTrimRight (stringsTrimLeft s cutset) cutset

/-- `strings.TrimSpace(s)` on ASCII white space (tab, newline, vertical tab, form feed,
carriage return, space). -/
def stringsTrimSpace (s : Str) : Str :=
  stringsTrim s [Char.ofNat 9, Char.ofNat 10, Char.ofNat 11, Char.ofNat 12, Char.ofNat 13, ' ']

/-- `strings.ToLower(s)` on ASCII letters. -/
def stringsToLower (s : Str) : Str :=
  s.map (fun c => if 'A' ≤ c ∧ c ≤ 'Z' then Char.ofNat (c.toNat + 32) else c)

/-- Go slice expression `s[a:]`; panics when `a > len(s)`. -/
def sliceFrom (s : Str) (a : Nat) : Option Str :=
  if a ≤ s.length then some (s.drop a) else none

/-- Go slice expression `s[:b]`; panics when `b > len(s)`. -/
def sliceTo (s : Str) (b : Nat) : Option Str :=
  if b ≤ s.length then some (s.take b) else none

/-! ## Package `path` -/

/-- State of the `lazybuf` of `path.Clean` together with its loop variables: the bytes
written so far and the index `dotdot` up to which `..` may not backtrack. -/
structure CleanState where
  out : Str
  dotdot : Nat

/-- The backtracking loop of `path.Clean` on a `..` element, entered after `out.w--`:
`for out.w > dotdot && out.index(out.w) != '/' { out.w-- }`.
The first argument is the buffer `out[0:w]` reversed, the second the byte `out[w]`. -/
def cleanBacktrack (dotdot : Nat) : Str → Char → Str
  | [], _ => []
  | y :: r, x =>
    if (y :: r).length > dotdot ∧ x ≠ '/' then cleanBacktrack dotdot r y else y :: r

/-- The `..` case of `path.Clean`: backtrack to the previous slash when there is something
to remove, else append `..` when the path is not rooted. -/
def cleanDotDot (rooted : Bool) (st : CleanState) : CleanState :=
  if st.out.length > st.dotdot then
    -- `out.w--`, then back to the previous slash
    match st.out.reverse with
    | [] => st
    | x :: rout => { st with out := (cleanBacktrack st.dotdot rout x).reverse }
  else if ¬ rooted then
    let o := (if st.out.length > 0 then st.out ++ ['/'] else st.out) ++ ['.', '.']
    { out := o, dotdot := o.length }
  else st

/-- The default case of `path.Clean`: add a slash if needed and copy the element `el`. -/
def cleanElem (rooted : Bool) (st : CleanState) (el : Str) : CleanState :=
  let o := if (rooted ∧ st.out.length ≠ 1) ∨ (¬ rooted ∧ st.out.length ≠ 0)
           then st.out ++ ['/'] else st.out
  { st with out := o ++ el }

/-- The main loop of `path.Clean`; `rest` is `path[r:]`, one iteration per unit of fuel. -/
def cleanLoop (rooted : Bool) : Nat → Str → CleanState → CleanState
  | 0, _, st => st
  | _, [], st => st
  | fuel + 1, c :: t, st =>
    if c = '/' then
      -- empty path element
      cleanLoop rooted fuel t st
    else if c = '.' ∧ (t = [] ∨ t.head? = some '/') then
      -- . element
      cleanLoop rooted fuel t st
    else if c = '.' ∧ t.head? = some '.' ∧ (t.drop 1 = [] ∨ (t.drop 1).head? = some '/') then
      -- .. element
      cleanLoop rooted fuel (t.drop 1) (cleanDotDot rooted st)
    else
      -- real path element
      cleanLoop rooted fuel ((c :: t).dropWhile (fun x => x ≠ '/'))
        (cleanElem rooted st ((c :: t).takeWhile (fun x => x ≠ '/')))

/-- `path.Clean(path)`. -/
def pathClean (path : Str) : Str :=
  match path with
  | [] => ['.']
  | c :: t =>
    let rooted : Bool := c = '/'
    let st0 : CleanState := if rooted then { out := ['/'], dotdot := 1 } else { out := [], dotdot := 0 }
    let st := cleanLoop rooted (path.length + 1) (if rooted then t else c :: t) st0
    if st.out.length = 0 then ['.'] else st.out

/-- `strings.Join(elems, "/")`. -/
def joinSlash : List Str → Str
  | [] => []
  | [e] => e
  | e :: es => e ++ '/' :: joinSlash es

/-- `path.Join(elem...)`: the elements from the first non-empty one on, joined by slashes
and cleaned; the empty string when all are empty. -/
def pathJoin : List Str → Str
  | [] => []
  | e :: es => if e ≠ [] then pathClean (joinSlash (e :: es)) else pathJoin es

/-! ## Package `net/url` -/

/-- The escaping modes of `net/url`. -/
inductive encoding where
  | encodePath
  | encodePathSegment
  | encodeHost
  | encodeZone
  | encodeUserPassword
  | encodeQueryComponent
  | encodeFragment
  deriving DecidableEq, Repr

open encoding

/-- Type `url.Userinfo`. -/
structure Userinfo where
  username : Str
  password : Str
  passwordSet : Bool
  deriving DecidableEq, Repr

/-- Type `url.URL`; `User` is a pointer, `none` when nil. -/
structure URL where
  Scheme : Str
  Opaque : Str
  User : Option Userinfo
  Host : Str
  Path : Str
  RawPath : Str
  ForceQuery : Bool
  RawQuery : Str
  Fragment : Str
  deriving DecidableEq, Repr

/-- The zero value `new(URL)`. -/
def URL.zero : URL :=
  { Scheme := [], Opaque := [], User := none, Host := [], Path := [], RawPath := [],
    ForceQuery := false, RawQuery := [], Fragment := [] }

/-- Function `ishex` of `net/url`. -/
def ishex (c : Char) : Bool :=
  ('0' ≤ c ∧ c ≤ '9') ∨ ('a' ≤ c ∧ c ≤ 'f') ∨ ('A' ≤ c ∧ c ≤ 'F')

/-- Function `unhex` of `net/url`. -/
def unhex (c : Char) : Nat :=
  if '0' ≤ c ∧ c ≤ '9' then c.toNat - '0'.toNat
  else if 'a' ≤ c ∧ c ≤ 'f' then c.toNat - 'a'.toNat + 10
  else if 'A' ≤ c ∧ c ≤ 'F' then c.toNat - 'A'.toNat + 10
  else 0

/-- The bytes the host mode of `shouldEscape` lets through:
`! $ & ' ( ) * + , ; = : [ ] < > "`. -/
def hostSubDelims : Str :=
  ['!', '$', '&', Char.ofNat 39, '(', ')', '*', '+', ',', ';', '=', ':', '[', ']', '<', '>',
   Char.ofNat 34]

/-- Function `shouldEscape` of `net/url`. -/
def shouldEscape (c : Char) (mode : encoding) : Bool :=
  if ('A' ≤ c ∧ c ≤ 'Z') ∨ ('a' ≤ c ∧ c ≤ 'z') ∨ ('0' ≤ c ∧ c ≤ '9') then false
  else if (mode = encodeHost ∨ mode = encodeZone) ∧ hostSubDelims.contains c then false
  else if ['-', '_', '.', '~'].contains c then false
  else if ['$', '&', '+', ',', '/', ':', ';', '=', '?', '@'].contains c
          ∧ mode ≠ encodeHost ∧ mode ≠ encodeZone then
    match mode with
    | encodePath => c = '?'
    | encodePathSegment => c = '/' ∨ c = ';' ∨ c = ',' ∨ c = '?'
    | encodeUserPassword => c = '@' ∨ c = '/' ∨ c = '?' ∨ c = ':'
    | encodeQueryComponent => true
    | encodeFragment => false
    | _ => true
  else if mode = encodeFragment ∧ ['!', '(', ')', '*'].contains c then false
  else true

/-- The hexadecimal digit `"0123456789ABCDEF"[n]`. -/
def upperhex (n : Nat) : Char :=
  if n < 10 then Char.ofNat ('0'.toNat + n) else Char.ofNat ('A'.toNat + (n - 10))

/-- Function `escape` of `net/url`: a space becomes `+` in query-component mode, every other
byte that `shouldEscape` names becomes `%XX`. -/
def escape (s : Str) (mode : encoding) : Str :=
  s.flatMap (fun c =>
    if c = ' ' ∧ mode = encodeQueryComponent then ['+']
    else if shouldEscape c mode then ['%', upperhex (c.toNat / 16 % 16), upperhex (c.toNat % 16)]
    else [c])

/-- First loop of `unescape`: every `%` is followed by two hexadecimal digits, and the
restrictions of the host and zone modes hold. `false` is the error return. -/
def unescapeValid (mode : encoding) : Str → Bool
  | [] => true
  | c :: t =>
    if c = '%' then
      match t with
      | a :: b :: t2 =>
        if ¬ (ishex a ∧ ishex b) then false
        else if mode = encodeHost ∧ unhex a < 8 ∧ [c, a, b] ≠ ['%', '2', '5'] then false
        else if mode = encodeZone ∧ [c, a, b] ≠ ['%', '2', '5']
                ∧ Char.ofNat (unhex a * 16 + unhex b) ≠ ' '
                ∧ shouldEscape (Char.ofNat (unhex a * 16 + unhex b)) encodeHost then false
        else unescapeValid mode t2
      | _ => false
    else if (mode = encodeHost ∨ mode = encodeZone) ∧ c.toNat < 128 ∧ shouldEscape c encodeHost then
      false
    else unescapeValid mode t

/-- Second loop of `unescape`, run on a string the first loop accepted. -/
def unescapeDecode (mode : encoding) : Str → Str
  | [] => []
  | c :: t =>
    if c = '%' then
      match t with
      | a :: b :: t2 => Char.ofNat (unhex a * 16 + unhex b) :: unescapeDecode mode t2
      | _ => []
    else if c = '+' then
      (if mode = encodeQueryComponent then ' ' else '+') :: unescapeDecode mode t
    else c :: unescapeDecode mode t

/-- Function `unescape` of `net/url`; `none` is the error return. -/
def unescape (s : Str) (mode : encoding) : Option Str :=
  if unescapeValid mode s then some (unescapeDecode mode s) else none

/-- `url.QueryUnescape`. -/
def QueryUnescape (s : Str) : Option Str := unescape s encodeQueryComponent

/-- `url.PathUnescape`. -/
def PathUnescape (s : Str) : Option Str := unescape s encodePathSegment

/-- `url.QueryEscape`. -/
def QueryEscape (s : Str) : Str := escape s encodeQueryComponent

/-- Function `split(s, c, cutc)` of `net/url`. -/
def split (s c : Str) (cutc : Bool) : Str × Str :=
  match stringsIndex s c with
  | none => (s, [])
  | some i => if cutc then (s.take i, s.drop (i + c.length)) else (s.take i, s.drop i)

/-- Loop of `getscheme`; `none` is the error "missing protocol scheme". -/
def getschemeLoop (rawurl : Str) : Nat → Str → Option (Str × Str)
  | _, [] => some ([], rawurl)
  | i, c :: t =>
    if ('a' ≤ c ∧ c ≤ 'z') ∨ ('A' ≤ c ∧ c ≤ 'Z') then getschemeLoop rawurl (i + 1) t
    else if ('0' ≤ c ∧ c ≤ '9') ∨ c = '+' ∨ c = '-' ∨ c = '.' then
      if i = 0 then some ([], rawurl) else getschemeLoop rawurl (i + 1) t
    else if c = ':' then
      if i = 0 then none else some (rawurl.take i, rawurl.drop (i + 1))
    else some ([], rawurl)

/-- Function `getscheme` of `net/url`: `(scheme, rest)`. -/
def getscheme (rawurl : Str) : Option (Str × Str) := getschemeLoop rawurl 0 rawurl

/-- Function `stringContainsCTLByte` of `net/url`. -/
def stringContainsCTLByte (s : Str) : Bool := s.any (fun b => b < ' ' ∨ b.toNat = 127)

/-- Function `validOptionalPort` of `net/url`. -/
def validOptionalPort : Str → Bool
  | [] => true
  | c :: t => c = ':' ∧ t.all (fun b => '0' ≤ b ∧ b ≤ '9')

/-- Function `validUserinfo` of `net/url`. -/
def validUserinfo (s : Str) : Bool :=
  s.all (fun r =>
    ('A' ≤ r ∧ r ≤ 'Z') ∨ ('a' ≤ r ∧ r ≤ 'z') ∨ ('0' ≤ r ∧ r ≤ '9')
    ∨ ['-', '.', '_', ':', '~', '!', '$', '&', Char.ofNat 39, '(', ')', '*', '+', ',', ';', '=',
       '%', '@'].contains r)

/-- Function `validEncodedPath` of `net/url`. -/
def validEncodedPath (s : Str) : Bool :=
  s.all (fun c =>
    ['!', '$', '&', Char.ofNat 39, '(', ')', '*', '+', ',', ';', '=', ':', '@', '[', ']', '%'].contains c
    ∨ ¬ shouldEscape c encodePath)

/-- Function `parseHost` of `net/url`; `none` is an error return. -/
def parseHost (host : Str) : Option Str :=
  let plain := unescape host encodeHost
  if ['['].isPrefixOf host then
    match stringsLastIndex host [']'] with
    | none => none
    | some i =>
      if ¬ validOptionalPort (host.drop (i + 1)) then none
      else
        match stringsIndex (host.take i) ['%', '2', '5'] with
        | some zone =>
          match unescape (host.take zone) encodeHost,
                unescape ((host.take i).drop zone) encodeZone,
                unescape (host.drop i) encodeHost with
          | some host1, some host2, some host3 => some (host1 ++ host2 ++ host3)
          | _, _, _ => none
        | none => plain
  else plain

/-- Function `parseAuthority` of `net/url`: `(user, host)`; `none` is an error return. -/
def parseAuthority (authority : Str) : Option (Option Userinfo × Str) :=
  match stringsLastIndex authority ['@'] with
  | none => (parseHost authority).map (fun host => (none, host))
  | some i =>
    match parseHost (authority.drop (i + 1)) with
    | none => none
    | some host =>
      let userinfo := authority.take i
      if ¬ validUserinfo userinfo then none
      else if ¬ userinfo.contains ':' then
        match unescape userinfo encodeUserPassword with
        | none => none
        | some u => some (some { username := u, password := [], passwordSet := false }, host)
      else
        let up := split userinfo [':'] true
        match unescape up.1 encodeUserPassword, unescape up.2 encodeUserPassword with
        | some username, some password =>
          some (some { username := username, password := password, passwordSet := true }, host)
        | _, _ => none

/-- Method `(*URL).setPath`; `none` is an error return. -/
def URL.setPath (u : URL) (p : Str) : Option URL :=
  match unescape p encodePath with
  | none => none
  | some path =>
    if p = escape path encodePath then some { u with Path := path, RawPath := [] }
    else some { u with Path := path, RawPath := p }

/-- The test `colon >= 0 && (slash < 0 || colon < slash)` of `parse`, on the indices of the
first colon and the first slash of `rest`. -/
def firstSegmentHasColon (rest : Str) : Bool :=
  match stringsIndex rest [':'], stringsIndex rest ['/'] with
  | some colon, some slash => decide (colon < slash)
  | some _, none => true
  | none, _ => false

/-- Second half of `parse(rawurl, viaRequest)`, from `if !strings.HasPrefix(rest, "/")` on:
`url` holds the scheme and the query, `rest` is what is left of the text. -/
def parseRest (url : URL) (rest : Str) (viaRequest : Bool) : Option URL :=
  if ¬ ['/'].isPrefixOf rest ∧ url.Scheme ≠ [] then
    some { url with Opaque := rest }
  else if ¬ ['/'].isPrefixOf rest ∧ viaRequest then none
  else if ¬ ['/'].isPrefixOf rest ∧ firstSegmentHasColon rest then none
  else if (url.Scheme ≠ [] ∨ (¬ viaRequest ∧ ¬ ['/', '/', '/'].isPrefixOf rest))
          ∧ ['/', '/'].isPrefixOf rest then
    let ar := split (rest.drop 2) ['/'] false
    match parseAuthority ar.1 with
    | none => none
    | some (user, host) => URL.setPath { url with User := user, Host := host } ar.2
  else URL.setPath url rest

/-- Function `parse(rawurl, viaRequest)` of `net/url`; `none` is an error return. -/
def parse (rawurl : Str) (viaRequest : Bool) : Option URL :=
  if stringContainsCTLByte rawurl then none
  else if rawurl = [] ∧ viaRequest then none
  else if rawurl = ['*'] then some { URL.zero with Path := ['*'] }
  else
    match getscheme rawurl with
    | none => none
    | some (scheme, rest0) =>
      let url := { URL.zero with Scheme := stringsToLower scheme }
      let force : Bool := ['?'].isSuffixOf rest0 ∧ stringsCountByte rest0 '?' = 1
      let rq : Str × Str := if force then (rest0.take (rest0.length - 1), []) else split rest0 ['?'] true
      parseRest { url with ForceQuery := force, RawQuery := rq.2 } rq.1 viaRequest

/-- `url.Parse(rawurl)`; `none` is the error return (the returned pointer is then nil). -/
def Parse (rawurl : Str) : Option URL :=
  let uf := split rawurl ['#'] true
  match parse uf.1 false with
  | none => none
  | some url =>
    if uf.2 = [] then some url
    else
      match unescape uf.2 encodeFragment with
      | none => none
      | some frag => some { url with Fragment := frag }

/-- Method `(*Userinfo).String`. -/
def Userinfo.String (u : Userinfo) : Str :=
  escape u.username encodeUserPassword ++
    (if u.passwordSet then ':' :: escape u.password encodeUserPassword else [])

/-- Method `(*URL).EscapedPath`. -/
def URL.EscapedPath (u : URL) : Str :=
  if u.RawPath ≠ [] ∧ validEncodedPath u.RawPath ∧ unescape u.RawPath encodePath = some u.Path then
    u.RawPath
  else if u.Path = ['*'] then ['*']
  else escape u.Path encodePath

/-- Method `(*URL).String`. -/
def URL.String (u : URL) : Str :=
  let buf : Str := if u.Scheme ≠ [] then u.Scheme ++ [':'] else []
  let buf : Str :=
    if u.Opaque ≠ [] then buf ++ u.Opaque
    else
      let buf : Str :=
        if u.Scheme ≠ [] ∨ u.Host ≠ [] ∨ u.User ≠ none then
          let buf : Str := if u.Host ≠ [] ∨ u.Path ≠ [] ∨ u.User ≠ none then buf ++ ['/', '/'] else buf
          let buf : Str :=
            match u.User with
            | some ui => buf ++ ui.String ++ ['@']
            | none => buf
          if u.Host ≠ [] then buf ++ escape u.Host encodeHost else buf
        else buf
      let path := u.EscapedPath
      let buf : Str := if path ≠ [] ∧ path.head? ≠ some '/' ∧ u.Host ≠ [] then buf ++ ['/'] else buf
      let buf : Str :=
        if buf.length = 0 then
          match stringsIndex path [':'] with
          | some i => if stringsIndex (path.take i) ['/'] = none then buf ++ ['.', '/'] else buf
          | none => buf
        else buf
      buf ++ path
  let buf : Str := if u.ForceQuery ∨ u.RawQuery ≠ [] then buf ++ '?' :: u.RawQuery else buf
  if u.Fragment ≠ [] then buf ++ '#' :: escape u.Fragment encodeFragment else buf

/-- Type `url.Values`, a `map[string][]string`: one entry per key, keys pairwise distinct.
The order of the entries is of no consequence, as `Encode` sorts the keys. -/
abbrev Values := List (Str × List Str)

/-- The map update `m[key] = append(m[key], value)`. -/
def Values.add : Values → Str → Str → Values
  | [], key, value => [(key, [value])]
  | (k, vs) :: m, key, value =>
    if k = key then (k, vs ++ [value]) :: m else (k, vs) :: Values.add m key value

/-- `Values.Del(key)`, that is `delete(v, key)`. -/
def Values.Del (v : Values) (key : Str) : Values := v.filter (fun e => e.1 ≠ key)

/-- `strings.IndexAny(s, chars)`. -/
def stringsIndexAny : Str → Str → Option Nat
  | [], _ => none
  | c :: t, chars =>
    if chars.contains c then some 0 else (stringsIndexAny t chars).map (fun i => i + 1)

/-- Loop of `parseQuery`, one iteration per unit of fuel; pairs whose key or value does not
unescape are skipped. -/
def parseQueryLoop : Nat → Values → Str → Values
  | 0, m, _ => m
  | fuel + 1, m, query =>
    if query = [] then m
    else
      let kq : Str × Str :=
        match stringsIndexAny query ['&', ';'] with
        | some i => (query.take i, query.drop (i + 1))
        | none => (query, [])
      if kq.1 = [] then parseQueryLoop fuel m kq.2
      else
        let kv : Str × Str :=
          match stringsIndex kq.1 ['='] with
          | some i => (kq.1.take i, kq.1.drop (i + 1))
          | none => (kq.1, [])
        match QueryUnescape kv.1, QueryUnescape kv.2 with
        | some key, some value => parseQueryLoop fuel (Values.add m key value) kq.2
        | _, _ => parseQueryLoop fuel m kq.2

/-- `(*URL).Query`: `ParseQuery(u.RawQuery)` with the error dropped. -/
def URL.Query (u : URL) : Values := parseQueryLoop (u.RawQuery.length + 1) [] u.RawQuery

/-- Bytewise lexicographic order of Go strings, `a <= b`. -/
def strLE : Str → Str → Bool
  | [], _ => true
  | _ :: _, [] => false
  | a :: as, b :: bs => if a.toNat < b.toNat then true else if b.toNat < a.toNat then false else strLE as bs

/-- The `key=value` pairs of one key in `Values.Encode`. -/
def encodeKey (k : Str) (vs : List Str) : List Str :=
  vs.map (fun v => QueryEscape k ++ '=' :: QueryEscape v)

/-- `strings.Join(elems, "&")`. -/
def joinAmp : List Str → Str
  | [] => []
  | [e] => e
  | e :: es => e ++ '&' :: joinAmp es

/-- `Values.Encode`: the pairs in the order of the sorted keys, joined by `&`. -/
def Values.Encode (v : Values) : Str :=
  joinAmp ((v.insertionSort (fun a b => strLE a.1 b.1 = true)).flatMap (fun e => encodeKey e.1 e.2))

/-! ## `refgroups.go` -/

/-- Type `group` of `refgroups.go`. -/
structure group where
  URL : Str
  Generated : Bool
  deriving DecidableEq, Repr

/-- Type `grouping` of `refgroups.go`; `params` is a `*string`, `none` when nil. -/
structure grouping where
  ref : Str
  params : Option Str
  store : Bool
  generated : Bool
  deriving DecidableEq, Repr

def hackernews : group := { URL := "Hacker News".toList, Generated := true }

def email : group := { URL := "Email".toList, Generated := true }

def google : group := { URL := "Google".toList, Generated := true }

def reddit : group := { URL := "www.reddit.com".toList, Generated := false }

def facebook : group := { URL := "www.facebook.com".toList, Generated := false }

/-- Map `hostAlias`: normalize hosts. -/
def hostAlias : List (Str × Str) :=
  [ ("en.m.wikipedia.org".toList, "en.wikipedia.org".toList),
    ("m.facebook.com".toList, "www.facebook.com".toList),
    ("m.habr.com".toList, "habr.com".toList),
    ("old.reddit.com".toList, "www.reddit.com".toList),
    ("i.reddit.com".toList, "www.reddit.com".toList),
    ("np.reddit.com".toList, "www.reddit.com".toList),
    ("fr.reddit.com".toList, "www.reddit.com".toList) ]

/-- Map `hostGroups`: group based on host. -/
def hostGroups : List (Str × group) :=
  [ ("news.ycombinator.com".toList, hackernews),
    ("hn.algolia.com".toList, hackernews),
    ("hckrnews.com".toList, hackernews),
    ("hn.premii.com".toList, hackernews),
    ("com.stefandekanski.hackernews.free".toList, hackernews),
    ("io.github.hidroh.materialistic".toList, hackernews),
    ("hackerweb.app".toList, hackernews),
    ("www.daemonology.net/hn-daily".toList, hackernews),
    ("quiethn.com".toList, hackernews),
    ("mail.google.com".toList, email),
    ("com.google.android.gm".toList, email),
    ("mail.yahoo.com".toList, email),
    ("com.google.android.googlequicksearchbox".toList, google),
    ("com.google.android.googlequicksearchbox/https/www.google.com".toList, google),
    ("com.andrewshu.android.reddit".toList, reddit),
    ("com.laurencedawson.reddit_sync".toList, reddit),
    ("com.laurencedawson.reddit_sync.dev".toList, reddit),
    ("com.laurencedawson.reddit_sync.pro".toList, reddit),
    ("m.facebook.com".toList, facebook),
    ("l.facebook.com".toList, facebook),
    ("lm.facebook.com".toList, facebook),
    ("com.Slack".toList, { URL := "Slack Chat".toList, Generated := true }),
    ("com.linkedin.android".toList, { URL := "www.linkedin.com".toList, Generated := false }),
    ("org.fox.ttrss".toList, { URL := "RSS".toList, Generated := true }),
    ("org.telegram.messenger".toList, { URL := "Telegram Messenger".toList, Generated := true }) ]

/-- Map `pathGroups`: group based on host+path. -/
def pathGroups : List (Str × group) :=
  [ ("www.daemonology.net/hn-daily".toList, { URL := "Hacker News".toList, Generated := true }),
    ("www.linkedin.com/feed".toList, { URL := "www.linkedin.com".toList, Generated := false }),
    ("getpocket.com/redirect".toList, { URL := "getpocket.com".toList, Generated := false }) ]

/-- First rule of `groupings`: link.oreilly.com. -/
def groupingOreilly (ref : URL) : Option grouping :=
  if ref.Host ≠ "link.oreilly.com".toList then none
  else some { ref := "link.oreilly.com".toList, params := none, store := true, generated := false }

/-- Second rule of `groupings`: all "google.co.nz", "google.nl", etc. as "Google". -/
def groupingGoogle (ref : URL) : Option grouping :=
  if ¬ "www.google.".toList.isPrefixOf ref.Host then none
  else some { ref := "Google".toList, params := none, store := true, generated := true }

/-- Third rule of `groupings`: lobste.rs.  Its body does not read its argument `ref` but the
name `refURL`, which is free in the function literal; `pkgRefURL` is what that name denotes. -/
def groupingLobsters (pkgRefURL : URL) (_ref : URL) : Option grouping :=
  if pkgRefURL.Host = "lobste.rs".toList ∧ ¬ "/s/".toList.isPrefixOf pkgRefURL.Path then
    some { ref := "lobste.rs".toList, params := none, store := true, generated := false }
  else none

/-- Fourth rule of `groupings`: Feedly. -/
def groupingFeedly (ref : URL) : Option grouping :=
  if ¬ "feedly.com".toList.isPrefixOf ref.Host then none
  else if ref.Path = "/i/latest".toList ∨ ref.Path = "/i/my".toList ∨ ref.Path = "/i/saved".toList
      ∨ "/i/collection/".toList.isPrefixOf ref.Path
      ∨ "/i/tag/".toList.isPrefixOf ref.Path
      ∨ "/i/category/".toList.isPrefixOf ref.Path then
    some { ref := "feedly.com".toList, params := none, store := true, generated := false }
  else if "/i/subscription/feed%2F".toList.isPrefixOf ref.Path then
    match PathUnescape (ref.Path.drop 23) with
    | none => none
    | some p => some { ref := p, params := none, store := false, generated := false }
  else none

/-- Slice `groupings`: the predicate rules in their order. -/
def groupings (pkgRefURL : URL) : List (URL → Option grouping) :=
  [groupingOreilly, groupingGoogle, groupingLobsters pkgRefURL, groupingFeedly]

/-! ## `hit.go` -/

/-- Lines 46-48 of `cleanURL`: `if p := strings.Index(ref, ":"); p > -1 && p < 7 { ref = ref[p+3:] }`.
The slice panics when `p+3` exceeds the length of `ref`. -/
def stripScheme (ref : Str) : Option Str :=
  match stringsIndex ref [':'] with
  | some p => if p < 7 then sliceFrom ref (p + 3) else some ref
  | none => some ref

/-- Lines 53-56 of `cleanURL`: normalize hosts; the flag is `changed`. -/
def normalizeHost (refURL : URL) : Bool × URL :=
  match hostAlias.lookup refURL.Host with
  | some a => (true, { refURL with Host := a })
  | none => (false, refURL)

/-- Lines 83-92 of `cleanURL`: the Reddit suffixes; the flag tells whether the path was cut. -/
def redditTrim (refURL : URL) : Bool × URL :=
  if refURL.Host = "www.reddit.com".toList then
    if "/top".toList.isSuffixOf refURL.Path ∨ "/new".toList.isSuffixOf refURL.Path then
      (true, { refURL with Path := refURL.Path.take (refURL.Path.length - 4) })
    else if ".compact".toList.isSuffixOf refURL.Path then
      (true, { refURL with Path := refURL.Path.take (refURL.Path.length - 8) })
    else (false, refURL)
  else (false, refURL)

/-- The four `q.Del` calls of `cleanURL`: Google analytics tracking parameters. -/
def delTracking (q : Values) : Values :=
  (((q.Del "utm_source".toList).Del "utm_medium".toList).Del "utm_campaign".toList).Del
    "utm_term".toList

/-- Lines 94-122 of `cleanURL`: clean query parameters. `ref` is the referrer without its
scheme, `refURL` the URL after aliasing and trimming, `changed` the flag so far. -/
def cleanQuery (ref : Str) (refURL : URL) (changed : Bool) : Option (Str × Option Str × Bool × Bool) :=
  match stringsIndex ref ['?'] with
  | none => some (stringsTrimLeft refURL.String ['/'], none, changed, false)
  | some i =>
    let eq := ref.drop (i + 1)
    let ref := ref.take i
    if refURL.Host = "t.co".toList ∧ eq = "amp=1".toList then some (ref, none, false, false)
    else
      let q := refURL.Query
      let refURL := { refURL with RawQuery := [] }
      let start := q.length
      let q := delTracking q
      if q.length = 0 then
        (sliceFrom refURL.String 2).map (fun l => (l, none, changed || decide (q.length ≠ start), false))
      else
        (sliceFrom refURL.String 2).map
          (fun l => (l, some q.Encode, changed || decide (q.length ≠ start), false))

/-- Function `cleanURL(ref, refURL)`: `(label, leftover params, store, generated)`, or `none`
when the function panics. -/
def cleanURL (pkgRefURL : URL) (ref : Str) (refURL : URL) : Option (Str × Option Str × Bool × Bool) :=
  -- Always remove protocol.
  let refURL := { refURL with Scheme := [] }
  match stripScheme ref with
  | none => none
  | some ref =>
    -- Normalize hosts.
    let (changed, refURL) := normalizeHost refURL
    -- Group based on host.
    match hostGroups.lookup refURL.Host with
    | some g => some (g.URL, none, true, g.Generated)
    | none =>
      -- Group based on host + path.
      match pathGroups.lookup (pathJoin [refURL.Host, refURL.Path]) with
      | some g => some (g.URL, none, true, g.Generated)
      | none =>
        -- Special groupings.
        match (groupings pkgRefURL).findSome? (fun grouping => grouping refURL) with
        | some g => some (g.ref, g.params, g.store, g.generated)
        | none =>
          -- Reddit
          let (trimmed, refURL) := redditTrim refURL
          cleanQuery ref refURL (changed || trimmed)

/-- Type `time.Time`, as the time elapsed since the zero instant (January 1, year 1, UTC);
`IsZero` holds of `0` only. -/
abbrev Time := Int

/-- The `ref_scheme` column: `RefSchemeHTTP`, `RefSchemeOther`, `RefSchemeGenerated`. -/
def RefSchemeHTTP : Option Str := some ['h']

def RefSchemeOther : Option Str := some ['o']

def RefSchemeGenerated : Option Str := some ['g']

/-- Type `Hit`; pointers are options, `none` when nil. -/
structure Hit where
  Site : Int
  Path : Str
  Ref : Str
  RefParams : Option Str
  RefOriginal : Option Str
  RefScheme : Option Str
  CreatedAt : Time
  refURL : Option URL
  deriving DecidableEq, Repr

/-- Method `(*Hit).Defaults`; `now` is `time.Now().UTC()`, `none` a panic of `cleanURL`.
`cleanURL` also writes to `*h.refURL`; nothing reads it afterwards and the field is left as
it was. -/
def Hit.Defaults (pkgRefURL : URL) (now : Time) (h : Hit) : Option Hit :=
  let h := if h.CreatedAt = 0 then { h with CreatedAt := now } else h
  let cleaned : Option Hit :=
    match h.refURL with
    | some refURL =>
      if h.Ref ≠ [] then
        let h := { h with RefScheme :=
          if refURL.Scheme = "http".toList ∨ refURL.Scheme = "https".toList
          then RefSchemeHTTP else RefSchemeOther }
        let r := h.Ref
        match cleanURL pkgRefURL h.Ref refURL with
        | none => none
        | some (ref, params, store, generated) =>
          let h := { h with Ref := ref, RefParams := params }
          let h := if store then { h with RefOriginal := some r } else h
          let h := if generated then { h with RefScheme := RefSchemeGenerated } else h
          some h
      else some h
    | none => some h
  cleaned.map (fun h =>
    { h with Ref := stringsTrimRight h.Ref ['/'], Path := '/' :: stringsTrim h.Path ['/'] })

/-- `validate.Validator.Required` of `github.com/teamwork/validate` on a string: the value
is missing when nothing is left of it once white space is trimmed. -/
def requiredString (val : Str) : Bool := stringsTrimSpace val ≠ []

/-- `validate.Validator.Required` on an `int64`: the value is missing when zero. -/
def requiredInt (val : Int) : Bool := val ≠ 0

/-- Method `(*Hit).Validate`: the keys that failed, `none` when `ErrorOrNil` is nil. -/
def Hit.Validate (h : Hit) : Option (List String) :=
  let errs := (if requiredInt h.Site then [] else ["site"]) ++
              (if requiredString h.Path then [] else ["path"])
  if errs = [] then none else some errs

/-- What `Hit.Insert` returns as its error. -/
inductive InsertError where
  | validation (keys : List String)
  | storage (msg : String)
  deriving DecidableEq, Repr

/-- Outcome of a call of `Hit.Insert`: a panic, or a return with its error (`none` when nil)
and the rows the call inserted into `hits`. -/
inductive InsertResult where
  | panicked
  | returned (err : Option InsertError) (written : List Hit)
  deriving DecidableEq, Repr

/-- Method `(*Hit).Insert`.  `blacklist` holds the keys of the map of that name, `exec` is
the `insert into hits` statement on the database, giving its error (`none` when nil).
A parse error is logged and leaves `h.refURL` nil; `h.refURL.Host` then dereferences nil. -/
def Hit.Insert (blacklist : List Str) (pkgRefURL : URL) (now : Time) (exec : Hit → Option String)
    (h : Hit) : InsertResult :=
  let h := { h with refURL := Parse h.Ref }
  match h.refURL with
  | none => InsertResult.panicked
  | some refURL =>
    -- Ignore spammers.
    if blacklist.contains refURL.Host then InsertResult.returned none []
    else
      match h.Defaults pkgRefURL now with
      | none => InsertResult.panicked
      | some h =>
        match h.Validate with
        | some keys => InsertResult.returned (some (InsertError.validation keys)) []
        | none =>
          match exec h with
          | some msg => InsertResult.returned (some (InsertError.storage msg)) []
          | none => InsertResult.returned none [h]

/-! ## Definitions used in the statements -/

/-- The URL `cleanURL` works on once the scheme is dropped and the host normalized. -/
def aliased (refURL : URL) : URL := (normalizeHost { refURL with Scheme := [] }).2

/-- The host after the alias table: the alias when there is one, the host itself otherwise. -/
def aliasOf (host : Str) : Str := (hostAlias.lookup host).getD host

/-- What `String` writes after the authority of a URL with a host: a slash when the escaped
path does not begin with one, and the escaped path. -/
def pathPart (u : URL) : Str :=
  (if u.EscapedPath ≠ [] ∧ u.EscapedPath.head? ≠ some '/' then ['/'] else []) ++ u.EscapedPath

/-- What the rest of `cleanURL` needs of a host that came out of the alias table. -/
def aliasTarget (a : Str) : Bool :=
  (hostGroups.lookup a).isNone && a != "t.co".toList && a != [] &&
    !("feedly.com".toList.isPrefixOf a)

/-- The keys the four `q.Del` calls name. -/
def trackingKeys : List Str :=
  ["utm_source".toList, "utm_medium".toList, "utm_campaign".toList, "utm_term".toList]

/-- The hit `Defaults` leaves when the classifier returned `res` (`none`: it was not run). -/
def defaulted (now : Time) (h : Hit) (res : Option (Str × Option Str × Bool × Bool)) : Hit :=
  { h with
    CreatedAt := if h.CreatedAt = 0 then now else h.CreatedAt
    Path := '/' :: stringsTrim h.Path ['/']
    Ref := stringsTrimRight (match res with
      | some (ref, _, _, _) => ref
      | none => h.Ref) ['/']
    RefParams := match res with
      | some (_, params, _, _) => params
      | none => h.RefParams
    RefOriginal := match res with
      | some (_, _, true, _) => some h.Ref
      | _ => h.RefOriginal
    RefScheme := match res, h.refURL with
      | some (_, _, _, true), _ => RefSchemeGenerated
      | some (_, _, _, false), some refURL =>
        if refURL.Scheme = "http".toList ∨ refURL.Scheme = "https".toList
        then RefSchemeHTTP else RefSchemeOther
      | _, _ => h.RefScheme }

/-- A hit as the handler hands it to `Insert`: only `Site`, `Path`, `Ref` and `CreatedAt`
are set. -/
def newHit (site : Int) (path ref : Str) (createdAt : Time) : Hit :=
  { Site := site, Path := path, Ref := ref, RefParams := none, RefOriginal := none,
    RefScheme := none, CreatedAt := createdAt, refURL := none }

/-- The referrer `https://m.facebook.com/foo` and the URL `url.Parse` makes of it. -/
def mFacebookRef : Str := "https://m.facebook.com/foo".toList

def mFacebookURL : URL :=
  { URL.zero with Scheme := "https".toList, Host := "m.facebook.com".toList, Path := "/foo".toList }

/-- A hit as `Insert` hands it to `Defaults`: `refURL` is what `url.Parse` makes of `Ref`
(nil when it fails). -/
def parsedHit (site : Int) (path ref : Str) (createdAt : Time) : Hit :=
  { newHit site path ref createdAt with refURL := Parse ref }

/-- The labels of the entries of `hostGroups` and `pathGroups` that are marked generated. -/
def generatedLabels : List Str :=
  (((hostGroups ++ pathGroups).map Prod.snd).filter (fun g => g.Generated)).map (fun g => g.URL)

/-- `cleanURL` with the name `refURL` of the Lobsters rule bound to the argument of the
rule, the URL `cleanURL` has at that point. -/
def cleanURLBound (ref : Str) (refURL : URL) : Option (Str × Option Str × Bool × Bool) :=
  cleanURL (aliased refURL) ref refURL

/-- The last element of `rest` is `e`: `rest` is `e`, or ends in a slash followed by `e`. -/
def endsWithElem (e rest : Str) : Prop := rest = e ∨ ∃ a, rest = a ++ '/' :: e

/-- The four shapes of a Reddit listing of the comment in `cleanURL`, for the path `P` of the
subreddit: `P/top`, `P/new`, `P/.compact` and `P.compact`. -/
def redditShapes (P : Str) : List Str :=
  [P ++ "/top".toList, P ++ "/new".toList, P ++ "/.compact".toList, P ++ ".compact".toList]

/-! ## `hit.go`: `HitStats.List` -/

/-- Go `int` on a 64-bit platform: `x` wrapped around into the range of `int64`. -/
def int64wrap (x : Int) : Int :=
  (x + 9223372036854775808) % 18446744073709551616 - 9223372036854775808

/-- Type `HitStat`. -/
structure HitStat where
  Day : Str
  Days : List (List Int)
  deriving DecidableEq, Repr

/-- Type `hs`; `RefScheme` is a `*string`, `none` when nil. -/
structure hs where
  Count : Int
  Max : Int
  Path : Str
  RefScheme : Option Str
  Stats : List HitStat
  deriving DecidableEq, Repr

/-- Type `HitStats`. -/
abbrev HitStats := List hs

/-- The local type `stats` of `HitStats.List`: a row of `hit_stats`; `Stats` holds JSON. -/
structure stats where
  Path : Str
  Day : Time
  Stats : Str
  deriving DecidableEq, Repr

/-- What `db.SelectContext` makes of a row `path, count` of the first query: the fields
without a column (`Max`, tagged `db:"-"`, `RefScheme` and `Stats`) keep their zero value. -/
def scanHit (row : Str × Int) : hs :=
  { Count := row.2, Max := 0, Path := row.1, RefScheme := none, Stats := [] }

/-- Lines 224-227 of `HitStats.List`: `limit := site.Settings.Limits.Page`, 20 when it is 0.
`page` is that setting. -/
def pageSize (page : Int) : Int := if page = 0 then 20 else page

/-- Lines 228-234 of `HitStats.List`: the limit handed to the query, one more than the page
size when paths are excluded (`limit++`). -/
def queryLimit (page : Int) (exclude : List Str) : Int :=
  if exclude.length > 0 then int64wrap (pageSize page + 1) else pageSize page

/-- The loop `for j := range x` of `HitStats.List` on the pair `(totalDisplay, hh[i].Max)`;
`none` when `x[j][1]` is out of range. -/
def bucketLoop : List (List Int) → Int × Int → Option (Int × Int)
  | [], acc => some acc
  | b :: x, (totalDisplay, mx) =>
    match b[1]? with
    | none => none
    | some v => bucketLoop x (int64wrap (totalDisplay + v), if v > mx then v else mx)

/-- The loop `for _, s := range st` of `HitStats.List` on `(totalDisplay, hh[i])`.
`unmarshal` is `json.Unmarshal` into a `[][]int` (`none`: an error, on which
`jsonutil.MustUnmarshal` panics), `formatDay` is `Format("2006-01-02")`. -/
def statsLoop (unmarshal : Str → Option (List (List Int))) (formatDay : Time → Str) :
    List stats → Int × hs → Option (Int × hs)
  | [], acc => some acc
  | s :: st, (totalDisplay, row) =>
    if s.Path = row.Path then
      match unmarshal s.Stats with
      | none => none
      | some x =>
        let row := { row with Stats := row.Stats ++ [HitStat.mk (formatDay s.Day) x] }
        -- Get max.
        match bucketLoop x (totalDisplay, row.Max) with
        | none => none
        | some (totalDisplay, mx) =>
          statsLoop unmarshal formatDay st (totalDisplay, { row with Max := mx })
    else statsLoop unmarshal formatDay st (totalDisplay, row)

/-- The loop `for i := range hh` of `HitStats.List`: the rows with their stats added, and
`totalDisplay`. -/
def mergeLoop (unmarshal : Str → Option (List (List Int))) (formatDay : Time → Str)
    (st : List stats) : List hs → Int → Option (Int × List hs)
  | [], totalDisplay => some (totalDisplay, [])
  | row :: hh, totalDisplay =>
    match statsLoop unmarshal formatDay st (totalDisplay, row) with
    | none => none
    | some (totalDisplay, row) =>
      let row := if row.Max < 10 then { row with Max := 10 } else row
      (mergeLoop unmarshal formatDay st hh totalDisplay).map (fun r => (r.1, row :: r.2))

/-- What a call of `HitStats.List` returns, with the rows it leaves in `*h`. -/
structure ListResult where
  total : Int
  totalDisplay : Int
  more : Bool
  err : Option String
  rows : HitStats
  deriving DecidableEq, Repr

/-- `errors.Wrap(err, "HitStats.List")`: nil for a nil error. -/
def wrapErr (err : Option String) : Option String :=
  err.map (fun e => "HitStats.List: " ++ e)

/-- Method `(*HitStats).List`; `none` is a panic.
`page` is `site.Settings.Limits.Page`.  `selectHits exclude limit` is the first query, on
the hits of the site between `start` and `end`: the rows `path, count` it scanned into `*h`,
which is taken to be empty on entry as in every caller, and its error (also that of
`sqlx.In`).  `selectStats` is the query on `hit_stats`, `getTotal` the value the last query
leaves in `total` with its error. -/
def HitStats.List (page : Int) (exclude : List Str)
    (selectHits : List Str → Int → List (Str × Int) × Option String)
    (selectStats : Except String (List stats))
    (unmarshal : Str → Option (List (List Int))) (formatDay : Time → Str)
    (getTotal : Int × Option String) : Option ListResult :=
  let limit := queryLimit page exclude
  let more : Bool := exclude.length > 0
  let h : HitStats := (selectHits exclude limit).1.map scanHit
  match (selectHits exclude limit).2 with
  | some e => some { total := 0, totalDisplay := 0, more := false, err := wrapErr (some e), rows := h }
  | none =>
    let trimmed : Option (Bool × HitStats) :=
      if more then
        if (h.length : Int) = limit then
          -- `x[:len(x)-1]`, out of range on an empty slice
          if h.length = 0 then none else some (true, h.take (h.length - 1))
        else some (false, h)
      else some (false, h)
    match trimmed with
    | none => none
    | some (more, h) =>
      -- Add stats
      match selectStats with
      | Except.error e =>
        some { total := 0, totalDisplay := 0, more := false, err := wrapErr (some e), rows := h }
      | Except.ok st =>
        match mergeLoop unmarshal formatDay st h 0 with
        | none => none
        | some (totalDisplay, hh) =>
          -- Get total.
          some { total := getTotal.1, totalDisplay := totalDisplay, more := more,
                 err := wrapErr getTotal.2, rows := hh }

/-- The counts `x[j][1]` of the buckets of the records of `st` with the path `p`, in the
order in which the merge step of `HitStats.List` visits them. -/
def attachedCounts (unmarshal : Str → Option (List (List Int))) (st : List stats) (p : Str) :
    List Int :=
  (st.filter (fun s => s.Path = p)).flatMap
    (fun s => ((unmarshal s.Stats).getD []).map (fun b => (b[1]?).getD 0))

/-- The `HitStat` values of the records of `st` with the path `p`. -/
def attachedStats (unmarshal : Str → Option (List (List Int))) (formatDay : Time → Str)
    (st : List stats) (p : Str) : List HitStat :=
  (st.filter (fun s => s.Path = p)).map
    (fun s => HitStat.mk (formatDay s.Day) ((unmarshal s.Stats).getD []))

/-- The records of `st` with the path `p` are well formed: their JSON decodes to a `[][]int`
and every bucket has the two entries hour and count. -/
def wellFormed (unmarshal : Str → Option (List (List Int))) (st : List stats) (p : Str) : Prop :=
  ∀ s ∈ st, s.Path = p → ∃ x, unmarshal s.Stats = some x ∧ ∀ b ∈ x, 2 ≤ b.length

/-- The rows of the first query that `HitStats.List` keeps: all but the last when paths are
excluded and the query returned as many rows as its limit. -/
def keptRows (page : Int) (exclude : List Str) (rows : List (Str × Int)) : List (Str × Int) :=
  if exclude.length > 0 ∧ (rows.length : Int) = queryLimit page exclude then rows.dropLast
  else rows

/-- The sum of the counts attached to the paths of `rows`. -/
def displaySum (unmarshal : Str → Option (List (List Int))) (st : List stats)
    (rows : List (Str × Int)) : Int :=
  (rows.map (fun r => (attachedCounts unmarshal st r.1).sum)).sum

/-- The row `HitStats.List` leaves in `*h` for a row `path, count` of the first query. -/
def mergedRow (unmarshal : Str → Option (List (List Int))) (formatDay : Time → Str)
    (st : List stats) (r : Str × Int) : hs :=
  { Count := r.2, Max := (attachedCounts unmarshal st r.1).foldl max 10, Path := r.1,
    RefScheme := none, Stats := attachedStats unmarshal formatDay st r.1 }

/-- A decoder for the examples: the records `a` and `b` hold two hourly buckets each. -/
def sampleUnmarshal (s : Str) : Option (List (List Int)) :=
  if s = "a".toList then some [[0, 3], [1, 12]]
  else if s = "b".toList then some [[0, 1], [1, 2]]
  else none

/-- Rollup records for the examples: two days for `/x`, one for `/y`, none for `/w`. -/
def sampleStats : List stats :=
  [ { Path := "/x".toList, Day := 1, Stats := "a".toList },
    { Path := "/y".toList, Day := 1, Stats := "b".toList },
    { Path := "/x".toList, Day := 2, Stats := "b".toList } ]

/-- A first query for the examples: three paths by descending count, without the excluded
ones, cut at the limit. -/
def sampleSelect (exclude : List Str) (limit : Int) : List (Str × Int) × Option String :=
  (([("/x".toList, (5 : Int)), ("/y".toList, 4), ("/w".toList, 1)].filter
      (fun r => !exclude.contains r.1)).take limit.toNat, none)

/-! ## The control flow of `cleanURL` -/

theorem findSome_groupings (pkgRefURL u : URL) :
    (groupings pkgRefURL).findSome? (fun grouping => grouping u) =
      (groupingOreilly u <|> groupingGoogle u <|> groupingLobsters pkgRefURL u
        <|> groupingFeedly u) := by
  simp only [groupings, List.findSome?]
  cases groupingOreilly u <;> cases groupingGoogle u <;> cases groupingLobsters pkgRefURL u <;>
    cases groupingFeedly u <;> rfl

theorem cleanURL_panics {ref : Str} (pkgRefURL refURL : URL) (hs : stripScheme ref = none) :
    cleanURL pkgRefURL ref refURL = none := by
  simp only [cleanURL, hs]

theorem cleanURL_of_hostGroup {ref r : Str} {g : group} (pkgRefURL refURL : URL)
    (hs : stripScheme ref = some r)
    (hg : hostGroups.lookup (aliased refURL).Host = some g) :
    cleanURL pkgRefURL ref refURL = some (g.URL, none, true, g.Generated) := by
  simp only [aliased] at hg
  simp only [cleanURL, hs, hg]

theorem cleanURL_of_pathGroup {ref r : Str} {g : group} (pkgRefURL refURL : URL)
    (hs : stripScheme ref = some r)
    (hg : hostGroups.lookup (aliased refURL).Host = none)
    (hp : pathGroups.lookup (pathJoin [(aliased refURL).Host, (aliased refURL).Path]) = some g) :
    cleanURL pkgRefURL ref refURL = some (g.URL, none, true, g.Generated) := by
  simp only [aliased] at hg hp
  simp only [cleanURL, hs, hg, hp]

theorem cleanURL_of_grouping {ref r : Str} {g : grouping} (pkgRefURL refURL : URL)
    (hs : stripScheme ref = some r)
    (hg : hostGroups.lookup (aliased refURL).Host = none)
    (hp : pathGroups.lookup (pathJoin [(aliased refURL).Host, (aliased refURL).Path]) = none)
    (hr : (groupings pkgRefURL).findSome? (fun grouping => grouping (aliased refURL)) = some g) :
    cleanURL pkgRefURL ref refURL = some (g.ref, g.params, g.store, g.generated) := by
  simp only [aliased] at hg hp hr
  simp only [cleanURL, hs, hg, hp, hr]

theorem cleanURL_of_no_group {ref r : Str} (pkgRefURL refURL : URL)
    (hs : stripScheme ref = some r)
    (hg : hostGroups.lookup (aliased refURL).Host = none)
    (hp : pathGroups.lookup (pathJoin [(aliased refURL).Host, (aliased refURL).Path]) = none)
    (hr : (groupings pkgRefURL).findSome? (fun grouping => grouping (aliased refURL)) = none) :
    cleanURL pkgRefURL ref refURL =
      cleanQuery r (redditTrim (aliased refURL)).2
        ((normalizeHost { refURL with Scheme := [] }).1 || (redditTrim (aliased refURL)).1) := by
  simp only [aliased] at hg hp hr ⊢
  simp only [cleanURL, hs, hg, hp, hr]

theorem aliased_Host (u : URL) : (aliased u).Host = aliasOf u.Host := by
  simp only [aliased, normalizeHost, aliasOf]
  cases hostAlias.lookup u.Host <;> rfl

theorem aliased_Path (u : URL) : (aliased u).Path = u.Path := by
  simp only [aliased, normalizeHost]
  cases hostAlias.lookup u.Host <;> rfl

theorem aliased_Scheme (u : URL) : (aliased u).Scheme = [] := by
  simp only [aliased, normalizeHost]
  cases hostAlias.lookup u.Host <;> rfl

theorem aliased_Opaque (u : URL) : (aliased u).Opaque = u.Opaque := by
  simp only [aliased, normalizeHost]
  cases hostAlias.lookup u.Host <;> rfl

theorem aliased_rest (u : URL) :
    (aliased u).User = u.User ∧ (aliased u).ForceQuery = u.ForceQuery
    ∧ (aliased u).Fragment = u.Fragment ∧ (aliased u).RawQuery = u.RawQuery := by
  simp only [aliased, normalizeHost]
  cases hostAlias.lookup u.Host <;> exact ⟨rfl, rfl, rfl, rfl⟩

theorem normalizeHost_changed (u : URL) :
    (normalizeHost { u with Scheme := [] }).1 = (hostAlias.lookup u.Host).isSome := by
  simp only [normalizeHost]
  cases hostAlias.lookup u.Host <;> rfl

theorem stripScheme_some {ref : Str} (hs : stripScheme ref ≠ none) : ∃ r, stripScheme ref = some r :=
  Option.ne_none_iff_exists'.mp hs

theorem redditTrim_Host (u : URL) : (redditTrim u).2.Host = u.Host := by
  unfold redditTrim; split_ifs <;> rfl

theorem redditTrim_Scheme (u : URL) : (redditTrim u).2.Scheme = u.Scheme := by
  unfold redditTrim; split_ifs <;> rfl

theorem redditTrim_Opaque (u : URL) : (redditTrim u).2.Opaque = u.Opaque := by
  unfold redditTrim; split_ifs <;> rfl

theorem redditTrim_rest (u : URL) :
    (redditTrim u).2.User = u.User ∧ (redditTrim u).2.ForceQuery = u.ForceQuery
    ∧ (redditTrim u).2.Fragment = u.Fragment ∧ (redditTrim u).2.RawQuery = u.RawQuery := by
  unfold redditTrim; split_ifs <;> exact ⟨rfl, rfl, rfl, rfl⟩

theorem Query_congr (a b : URL) (h : a.RawQuery = b.RawQuery) : a.Query = b.Query := by
  simp only [URL.Query, h]

/-! ## What `url.Parse` leaves of the referrer -/

theorem unescapeDecode_length_aux (mode : encoding) :
    ∀ (n : Nat) (s : Str), s.length ≤ n → (unescapeDecode mode s).length ≤ s.length := by
  intro n
  induction n with
  | zero =>
    intro s hs
    cases s with
    | nil => simp [unescapeDecode]
    | cons c t => simp at hs
  | succ n ih =>
    intro s hs
    cases s with
    | nil => simp [unescapeDecode]
    | cons c t =>
      simp only [List.length_cons, Nat.add_le_add_iff_right] at hs
      unfold unescapeDecode
      by_cases hc : c = '%'
      · rw [if_pos hc]
        split
        · rename_i a b t2
          simp only [List.length_cons] at hs ⊢
          have := ih t2 (by omega)
          omega
        · simp
      · rw [if_neg hc]
        have := ih t hs
        split_ifs <;> simp only [List.length_cons] <;> omega

theorem unescapeDecode_length (mode : encoding) (s : Str) :
    (unescapeDecode mode s).length ≤ s.length :=
  unescapeDecode_length_aux mode s.length s (Nat.le_refl _)

theorem unescape_length (mode : encoding) (s t : Str) (h : unescape s mode = some t) :
    t.length ≤ s.length := by
  unfold unescape at h
  split_ifs at h
  cases h
  exact unescapeDecode_length mode s

theorem stringsIndex_le (s sep : Str) (i : Nat) (h : stringsIndex s sep = some i) :
    i ≤ s.length := by
  induction s generalizing i with
  | nil =>
    simp only [stringsIndex] at h
    split_ifs at h
    cases h
    exact Nat.le_refl _
  | cons c t ih =>
    simp only [stringsIndex] at h
    split_ifs at h
    · cases h
      exact Nat.zero_le _
    · simp only [Option.map_eq_some'] at h
      obtain ⟨j, hj, rfl⟩ := h
      have := ih j hj
      simp only [List.length_cons]
      omega

theorem parseHost_length (h host : Str) (hp : parseHost h = some host) :
    host.length ≤ h.length := by
  unfold parseHost at hp
  dsimp only at hp
  split_ifs at hp with hb
  · split at hp
    · cases hp
    · rename_i i hi
      split_ifs at hp with hv
      split at hp
      · rename_i zone hz
        split at hp
        · rename_i host1 host2 host3 h1 h2 h3
          cases hp
          have l1 := unescape_length _ _ _ h1
          have l2 := unescape_length _ _ _ h2
          have l3 := unescape_length _ _ _ h3
          have lz := stringsIndex_le _ _ _ hz
          simp only [List.length_append, List.length_take, List.length_drop] at l1 l2 l3 lz ⊢
          omega
        · cases hp
      · exact unescape_length _ _ _ hp
  · exact unescape_length _ _ _ hp

theorem parseAuthority_length (authority host : Str) (user : Option Userinfo)
    (hp : parseAuthority authority = some (user, host)) : host.length ≤ authority.length := by
  unfold parseAuthority at hp
  split at hp
  · simp only [Option.map_eq_some', Prod.mk.injEq] at hp
    obtain ⟨h0, hh, _, rfl⟩ := hp
    exact parseHost_length _ _ hh
  · rename_i i hi
    split at hp
    · cases hp
    · rename_i h0 hh
      have l := parseHost_length _ _ hh
      simp only [List.length_drop] at l
      have hhost : host = h0 := by
        dsimp only at hp
        split_ifs at hp <;> split at hp <;> first | (cases hp; done) | (cases hp; rfl)
      rw [hhost]
      omega

theorem setPath_fields (u u2 : URL) (p : Str) (h : URL.setPath u p = some u2) :
    u2.Host = u.Host ∧ u2.Opaque = u.Opaque ∧ u2.Path.length ≤ p.length := by
  unfold URL.setPath at h
  split at h
  · cases h
  · rename_i path hpath
    have := unescape_length _ _ _ hpath
    split_ifs at h <;> cases h <;> exact ⟨rfl, rfl, this⟩

theorem getschemeLoop_length (rawurl : Str) (t : Str) (i : Nat) (scheme rest : Str)
    (h : getschemeLoop rawurl i t = some (scheme, rest)) : rest.length ≤ rawurl.length := by
  induction t generalizing i with
  | nil =>
    simp only [getschemeLoop, Option.some.injEq, Prod.mk.injEq] at h
    rw [← h.2]
  | cons c t ih =>
    simp only [getschemeLoop] at h
    split_ifs at h
    · exact ih _ h
    · simp only [Option.some.injEq, Prod.mk.injEq] at h
      rw [← h.2]
    · exact ih _ h
    · simp only [Option.some.injEq, Prod.mk.injEq] at h
      rw [← h.2, List.length_drop]
      omega
    · simp only [Option.some.injEq, Prod.mk.injEq] at h
      rw [← h.2]

theorem split_fst_length (s c : Str) (cutc : Bool) : (split s c cutc).1.length ≤ s.length := by
  unfold split
  split
  · exact Nat.le_refl _
  · split_ifs <;> simp only [List.length_take] <;> omega

theorem split_keep_length (s c : Str) :
    (split s c false).1.length + (split s c false).2.length = s.length := by
  unfold split
  split
  · simp
  · rename_i i hi
    have := stringsIndex_le _ _ _ hi
    simp only [Bool.false_eq_true, if_false, List.length_take, List.length_drop]
    omega

theorem parseRest_lengths (url u : URL) (rest : Str) (h : parseRest url rest false = some u)
    (h0 : url.Host = []) (ho : url.Opaque = []) (hp0 : url.Path = []) :
    u.Path.length ≤ rest.length
    ∧ (u.Host ≠ [] → u.Opaque = [] ∧ u.Host.length + u.Path.length + 2 ≤ rest.length) := by
  unfold parseRest at h
  by_cases c1 : ¬ ['/'].isPrefixOf rest ∧ url.Scheme ≠ []
  · rw [if_pos c1] at h
    cases h
    refine ⟨?_, fun hh => absurd h0 hh⟩
    show url.Path.length ≤ rest.length
    rw [hp0]
    exact Nat.zero_le _
  · rw [if_neg c1, if_neg (fun c => absurd c.2 (by decide))] at h
    by_cases c3 : ¬ ['/'].isPrefixOf rest ∧ firstSegmentHasColon rest
    · rw [if_pos c3] at h
      cases h
    · rw [if_neg c3] at h
      by_cases c4 : (url.Scheme ≠ [] ∨ (¬ (false = true) ∧ ¬ ['/', '/', '/'].isPrefixOf rest))
          ∧ ['/', '/'].isPrefixOf rest
      · rw [if_pos c4] at h
        dsimp only at h
        split at h
        · cases h
        · rename_i user host hauth
          obtain ⟨hH, hO, hP⟩ := setPath_fields _ _ _ h
          have l1 := parseAuthority_length _ _ _ hauth
          have l2 := split_keep_length (rest.drop 2) ['/']
          obtain ⟨t, ht⟩ := List.isPrefixOf_iff_prefix.mp c4.2
          have l3 : 2 ≤ rest.length := by rw [← ht]; simp
          simp only [List.length_drop] at l2
          have hH2 : u.Host.length = host.length := by rw [hH]
          refine ⟨by omega, fun _ => ⟨by rw [hO]; exact ho, by omega⟩⟩
      · rw [if_neg c4] at h
        obtain ⟨hH, _, hP⟩ := setPath_fields _ _ _ h
        refine ⟨hP, fun hh => ?_⟩
        rw [hH] at hh
        exact absurd h0 hh

theorem parse_lengths (rawurl : Str) (u : URL) (h : parse rawurl false = some u) :
    u.Path.length ≤ rawurl.length
    ∧ (u.Host ≠ [] → u.Opaque = [] ∧ u.Host.length + u.Path.length + 2 ≤ rawurl.length) := by
  unfold parse at h
  split_ifs at h with _ _ hstar
  · cases h
    refine ⟨?_, fun hh => absurd rfl hh⟩
    rw [hstar]
  · split at h
    · cases h
    · rename_i scheme rest0 hsch
      have hl0 : rest0.length ≤ rawurl.length := getschemeLoop_length _ _ _ _ _ hsch
      dsimp only at h
      have key := parseRest_lengths _ _ _ h rfl rfl rfl
      have hl1 : (if (decide (['?'].isSuffixOf rest0 = true ∧ stringsCountByte rest0 '?' = 1)) = true
          then (rest0.take (rest0.length - 1), ([] : Str)) else split rest0 ['?'] true).1.length
          ≤ rest0.length := by
        split_ifs
        · simp only [List.length_take]
          omega
        · exact split_fst_length rest0 ['?'] true
      refine ⟨by omega, fun hh => ?_⟩
      have := key.2 hh
      exact ⟨this.1, by omega⟩

/-- What `url.Parse` leaves of the text: the path is no longer than the text, and a URL with
a host has no opaque part and a host and path that are, together, at least two bytes shorter
than the text. -/
theorem Parse_lengths (ref : Str) (u : URL) (h : Parse ref = some u) :
    u.Path.length ≤ ref.length
    ∧ (u.Host ≠ [] → u.Opaque = [] ∧ u.Host.length + u.Path.length + 2 ≤ ref.length) := by
  unfold Parse at h
  dsimp only at h
  have hl := split_fst_length ref ['#'] true
  split at h
  · cases h
  · rename_i url hurl
    have key := parse_lengths _ url hurl
    split_ifs at h
    · cases h
      exact ⟨by omega, fun hh => ⟨(key.2 hh).1, by have := (key.2 hh).2; omega⟩⟩
    · split at h
      · cases h
      · cases h
        refine ⟨?_, fun hh => ?_⟩
        · show url.Path.length ≤ ref.length
          omega
        · have := key.2 hh
          refine ⟨this.1, ?_⟩
          show url.Host.length + url.Path.length + 2 ≤ ref.length
          omega

theorem stripScheme_of_length (ref : Str) (h : 9 ≤ ref.length) : stripScheme ref ≠ none := by
  unfold stripScheme
  split
  · rename_i p _
    split_ifs with hp
    · unfold sliceFrom
      rw [if_pos (by omega)]
      exact Option.some_ne_none _
    · exact Option.some_ne_none _
  · exact Option.some_ne_none _

/-- On a referrer that `url.Parse` accepts with a host of seven bytes or more, the
scheme-stripping slice of `cleanURL` is in range. -/
theorem stripScheme_of_Parse (ref : Str) (u : URL) (h : Parse ref = some u)
    (hl : 7 ≤ u.Host.length) : stripScheme ref ≠ none := by
  have hne : u.Host ≠ [] := by
    intro h0
    rw [h0] at hl
    simp at hl
  have := ((Parse_lengths ref u h).2 hne).2
  exact stripScheme_of_length ref (by omega)

/-! ## `path.Join` does not make long keys out of short referrers -/

theorem cleanBacktrack_length (dotdot : Nat) (r : Str) (x : Char) :
    (cleanBacktrack dotdot r x).length ≤ r.length := by
  induction r generalizing x with
  | nil => simp [cleanBacktrack]
  | cons y r ih =>
    unfold cleanBacktrack
    split_ifs
    · have := ih y
      simp only [List.length_cons]
      omega
    · exact Nat.le_refl _

theorem cleanDotDot_length (rooted : Bool) (st : CleanState) :
    (cleanDotDot rooted st).out.length ≤ st.out.length + 3 := by
  unfold cleanDotDot
  by_cases h1 : st.out.length > st.dotdot
  · rw [if_pos h1]
    split
    · omega
    · rename_i x rout hrev
      have hb := cleanBacktrack_length st.dotdot rout x
      have hl : st.out.length = rout.length + 1 := by
        rw [← List.length_reverse, hrev]; rfl
      simp only [List.length_reverse]
      omega
  · rw [if_neg h1]
    by_cases h2 : ¬ rooted = true
    · rw [if_pos h2]
      dsimp only
      split_ifs <;> simp
    · rw [if_neg h2]
      omega

theorem cleanElem_length (rooted : Bool) (st : CleanState) (el : Str) :
    (cleanElem rooted st el).out.length ≤ st.out.length + 1 + el.length := by
  unfold cleanElem
  dsimp only
  split_ifs <;> simp only [List.length_append, List.length_cons, List.length_nil] <;> omega

theorem cleanLoop_length (rooted : Bool) (fuel : Nat) :
    ∀ (rest : Str) (st : CleanState),
      (cleanLoop rooted fuel rest st).out.length ≤ st.out.length + 2 * rest.length := by
  induction fuel with
  | zero =>
    intro rest st
    simp [cleanLoop]
  | succ fuel ih =>
    intro rest st
    cases rest with
    | nil => simp [cleanLoop]
    | cons c t =>
      unfold cleanLoop
      simp only [List.length_cons]
      by_cases h1 : c = '/'
      · rw [if_pos h1]
        have := ih t st
        omega
      · rw [if_neg h1]
        by_cases h2 : c = '.' ∧ (t = [] ∨ t.head? = some '/')
        · rw [if_pos h2]
          have := ih t st
          omega
        · rw [if_neg h2]
          by_cases h3 : c = '.' ∧ t.head? = some '.'
              ∧ (t.drop 1 = [] ∨ (t.drop 1).head? = some '/')
          · rw [if_pos h3]
            have ht : (t.drop 1).length + 1 = t.length := by
              cases t with
              | nil => simp at h3
              | cons a t1 => simp
            have := ih (t.drop 1) (cleanDotDot rooted st)
            have := cleanDotDot_length rooted st
            omega
          · rw [if_neg h3]
            have hsplit : ((c :: t).takeWhile (fun x => decide (x ≠ '/'))).length
                + ((c :: t).dropWhile (fun x => decide (x ≠ '/'))).length = t.length + 1 := by
              rw [← List.length_append, List.takeWhile_append_dropWhile]
              rfl
            have hel : 1 ≤ ((c :: t).takeWhile (fun x => decide (x ≠ '/'))).length := by
              rw [List.takeWhile_cons_of_pos (by simpa using h1)]
              simp
            have := ih ((c :: t).dropWhile (fun x => decide (x ≠ '/')))
              (cleanElem rooted st ((c :: t).takeWhile (fun x => decide (x ≠ '/'))))
            have := cleanElem_length rooted st ((c :: t).takeWhile (fun x => decide (x ≠ '/')))
            omega

theorem pathClean_length (path : Str) : (pathClean path).length ≤ 2 * path.length + 1 := by
  cases path with
  | nil => simp [pathClean]
  | cons c t =>
    by_cases hr : c = '/'
    · have := cleanLoop_length true ((c :: t).length + 1) t { out := ['/'], dotdot := 1 }
      simp only [pathClean, hr, decide_True, if_true]
      simp only [hr, List.length_cons, List.length_nil] at this
      split_ifs
      · simp
      · simp only [List.length_cons]
        omega
    · have := cleanLoop_length false ((c :: t).length + 1) (c :: t) { out := [], dotdot := 0 }
      simp only [pathClean, hr, decide_False, Bool.false_eq_true, if_false]
      simp only [List.length_cons, List.length_nil] at this
      split_ifs
      · simp
      · simp only [List.length_cons]
        omega

theorem pathJoin_length (host path : Str) :
    (pathJoin [host, path]).length ≤ 2 * (host.length + 1 + path.length) + 1 := by
  have e1 : joinSlash [host, path] = host ++ '/' :: path := rfl
  have e2 : joinSlash [path] = path := rfl
  simp only [pathJoin]
  split_ifs with h1 h2
  · have := pathClean_length (host ++ '/' :: path)
    rw [e1]
    simp only [List.length_append, List.length_cons] at this
    omega
  · have := pathClean_length path
    rw [e2]
    omega
  · simp

theorem pathJoin_nil_host (path : Str) : (pathJoin [[], path]).length ≤ 2 * path.length + 1 := by
  have e2 : joinSlash [path] = path := rfl
  simp only [pathJoin]
  rw [if_neg (by simp)]
  split_ifs
  · rw [e2]
    exact pathClean_length path
  · simp

theorem lookup_mem_values {β : Type} (l : List (Str × β)) (k : Str) (v : β)
    (h : l.lookup k = some v) : v ∈ l.map Prod.snd := by
  induction l with
  | nil => simp [List.lookup] at h
  | cons e l ih =>
    obtain ⟨k1, v1⟩ := e
    rw [List.lookup_cons] at h
    cases hk : (k == k1) with
    | true =>
      rw [hk] at h
      simp only [Option.some.injEq] at h
      subst h
      exact List.mem_cons_self _ _
    | false =>
      rw [hk] at h
      exact List.mem_cons_of_mem _ (ih h)

theorem lookup_mem_keys {β : Type} (l : List (Str × β)) (k : Str) (v : β)
    (h : l.lookup k = some v) : k ∈ l.map Prod.fst := by
  induction l with
  | nil => simp [List.lookup] at h
  | cons e l ih =>
    obtain ⟨k1, v1⟩ := e
    rw [List.lookup_cons] at h
    cases hk : (k == k1) with
    | true =>
      have : k = k1 := eq_of_beq hk
      subst this
      exact List.mem_cons_self _ _
    | false =>
      rw [hk] at h
      exact List.mem_cons_of_mem _ (ih h)

theorem hostAlias_keys_length (host a : Str) (h : hostAlias.lookup host = some a) :
    10 ≤ host.length := by
  have hall : ∀ k ∈ hostAlias.map Prod.fst, 10 ≤ k.length := by decide
  exact hall host (lookup_mem_keys hostAlias host a h)

theorem aliasOf_short (host : Str) (h : host.length < 10) : aliasOf host = host := by
  unfold aliasOf
  cases ha : hostAlias.lookup host with
  | none => rfl
  | some a =>
    have := hostAlias_keys_length host a ha
    omega

/-- On a referrer that `url.Parse` accepts and that a path group takes, the
scheme-stripping slice of `cleanURL` is in range: the keys of `pathGroups` are too long for
`path.Join` to make one out of a referrer of eight bytes or fewer. -/
theorem stripScheme_of_pathGroup (ref : Str) (u : URL) (g : group) (hP : Parse ref = some u)
    (hp : pathGroups.lookup (pathJoin [aliasOf u.Host, u.Path]) = some g) :
    stripScheme ref ≠ none := by
  apply stripScheme_of_length
  by_contra hlt
  have hall : ∀ k ∈ pathGroups.map Prod.fst, 21 ≤ k.length := by decide
  have hkey := hall _ (lookup_mem_keys pathGroups _ g hp)
  obtain ⟨hpath, hhost⟩ := Parse_lengths ref u hP
  by_cases h0 : u.Host = []
  · have ha : aliasOf u.Host = [] := by rw [h0]; rfl
    rw [ha] at hkey
    have := pathJoin_nil_host u.Path
    omega
  · have hl := (hhost h0).2
    have ha : aliasOf u.Host = u.Host := aliasOf_short _ (by omega)
    rw [ha] at hkey
    have := pathJoin_length u.Host u.Path
    omega

/-- The scheme-stripping slice of `cleanURL` is in range when the referrer is long enough;
it is, when `url.Parse` made of it a URL with a host of seven bytes or more. -/
theorem stripScheme_of_either (ref : Str) (u : URL)
    (hs : stripScheme ref ≠ none ∨ Parse ref = some u) (hl : 7 ≤ u.Host.length) :
    stripScheme ref ≠ none := by
  rcases hs with hs | hP
  · exact hs
  · exact stripScheme_of_Parse ref u hP hl

/-! ## Host groups (C1) -/

theorem cleanURL_mFacebook (pkgRefURL : URL) :
    cleanURL pkgRefURL mFacebookRef mFacebookURL =
      match groupingLobsters pkgRefURL (aliased mFacebookURL) with
      | some g => some (g.ref, g.params, g.store, g.generated)
      | none => some ("www.facebook.com/foo".toList, none, true, false) := by
  have hs : stripScheme mFacebookRef = some "m.facebook.com/foo".toList := by decide
  have hg : hostGroups.lookup (aliased mFacebookURL).Host = none := by decide
  have hp : pathGroups.lookup
      (pathJoin [(aliased mFacebookURL).Host, (aliased mFacebookURL).Path]) = none := by decide
  have h1 : groupingOreilly (aliased mFacebookURL) = none := by decide
  have h2 : groupingGoogle (aliased mFacebookURL) = none := by decide
  have h4 : groupingFeedly (aliased mFacebookURL) = none := by decide
  cases hl : groupingLobsters pkgRefURL (aliased mFacebookURL) with
  | some g =>
    have hr : (groupings pkgRefURL).findSome? (fun grouping => grouping (aliased mFacebookURL))
        = some g := by
      rw [findSome_groupings, h1, h2, hl]; rfl
    exact cleanURL_of_grouping pkgRefURL mFacebookURL hs hg hp hr
  | none =>
    have hr : (groupings pkgRefURL).findSome? (fun grouping => grouping (aliased mFacebookURL))
        = none := by
      rw [findSome_groupings, h1, h2, hl, h4]; rfl
    rw [cleanURL_of_no_group pkgRefURL mFacebookURL hs hg hp hr]
    decide

/-- C1 fails on the code: `m.facebook.com` is a key of `hostGroups` with the entry `facebook`,
yet `https://m.facebook.com/foo` is never classified as that entry says: the alias table
rewrites the host to `www.facebook.com` first, which is no key of `hostGroups`.  With the
Lobsters rule reading the URL at hand the label is `www.facebook.com/foo`. -/
theorem hostGroups_mFacebook_not_applied (pkgRefURL : URL) :
    Parse mFacebookRef = some mFacebookURL
    ∧ hostGroups.lookup mFacebookURL.Host = some facebook
    ∧ cleanURL pkgRefURL mFacebookRef mFacebookURL
        ≠ some (facebook.URL, none, true, facebook.Generated)
    ∧ cleanURL mFacebookURL mFacebookRef mFacebookURL
        = some ("www.facebook.com/foo".toList, none, true, false) := by
  refine ⟨by decide, by decide, ?_, by decide⟩
  rw [cleanURL_mFacebook]
  cases hl : groupingLobsters pkgRefURL (aliased mFacebookURL) with
  | none => decide
  | some g =>
    have hgl : g.ref = "lobste.rs".toList := by
      unfold groupingLobsters at hl
      split at hl
      · cases hl; rfl
      · cases hl
    intro h
    simp only [Option.some.injEq, Prod.mk.injEq] at h
    rw [hgl] at h
    exact absurd h.1 (by decide)

/-! ## Path groups (C2) and the Google rule (C3) -/

/-- C2: when the aliased host is no key of `hostGroups` and `path.Join` of the aliased host
and the path is a key of `pathGroups`, `cleanURL` returns that entry: its label and generated
flag, nil params, store=true.  The query string, the predicate rules (whatever `pkgRefURL`),
the Reddit trimming and the query handling have no say.  `hs`: the scheme-stripping slice is
in range, as it is when `refURL` is what `url.Parse` makes of `ref`. -/
theorem cleanURL_pathGroup (pkgRefURL : URL) (ref : Str) (refURL : URL) (g : group)
    (hs : stripScheme ref ≠ none ∨ Parse ref = some refURL)
    (hg : hostGroups.lookup (aliasOf refURL.Host) = none)
    (hp : pathGroups.lookup (pathJoin [aliasOf refURL.Host, refURL.Path]) = some g) :
    cleanURL pkgRefURL ref refURL = some (g.URL, none, true, g.Generated) := by
  have hs2 : stripScheme ref ≠ none := by
    rcases hs with hs | hP
    · exact hs
    · exact stripScheme_of_pathGroup ref refURL g hP hp
  obtain ⟨r, hr⟩ := stripScheme_some hs2
  rw [← aliased_Host] at hg hp
  rw [← aliased_Path] at hp
  exact cleanURL_of_pathGroup pkgRefURL refURL hr hg hp

/-- Witness of C2: `https://www.linkedin.com/feed?utm_source=x`, parsed, is classified as
`www.linkedin.com`, not generated. -/
theorem cleanURL_pathGroup_witness :
    Parse "https://www.linkedin.com/feed?utm_source=x".toList
      = some { URL.zero with Scheme := "https".toList, Host := "www.linkedin.com".toList,
                             Path := "/feed".toList, RawQuery := "utm_source=x".toList }
    ∧ cleanURL URL.zero "https://www.linkedin.com/feed?utm_source=x".toList
        { URL.zero with Scheme := "https".toList, Host := "www.linkedin.com".toList,
                        Path := "/feed".toList, RawQuery := "utm_source=x".toList }
      = some ("www.linkedin.com".toList, none, true, false) :=
  ⟨by decide,
   cleanURL_pathGroup URL.zero _ _ { URL := "www.linkedin.com".toList, Generated := false }
     (Or.inr (by decide)) (by decide) (by decide)⟩

theorem google_host_cons {host : Str} (hh : "www.google.".toList.isPrefixOf host = true) :
    ∃ t, host = 'w' :: 'w' :: 'w' :: '.' :: 'g' :: 'o' :: 'o' :: 'g' :: 'l' :: 'e' :: '.' :: t := by
  obtain ⟨t, ht⟩ := List.isPrefixOf_iff_prefix.mp hh
  exact ⟨t, ht.symm⟩

theorem google_host_no_alias {host : Str} (hh : "www.google.".toList.isPrefixOf host = true) :
    aliasOf host = host := by
  obtain ⟨t, rfl⟩ := google_host_cons hh
  simp [aliasOf, hostAlias, List.lookup]

theorem google_host_no_group {host : Str} (hh : "www.google.".toList.isPrefixOf host = true) :
    hostGroups.lookup host = none := by
  obtain ⟨t, rfl⟩ := google_host_cons hh
  simp [hostGroups, List.lookup]

theorem google_host_not_oreilly {host : Str} (hh : "www.google.".toList.isPrefixOf host = true) :
    host ≠ "link.oreilly.com".toList := by
  obtain ⟨t, rfl⟩ := google_host_cons hh
  simp

theorem google_host_length {host : Str} (hh : "www.google.".toList.isPrefixOf host = true) :
    7 ≤ host.length := by
  obtain ⟨t, rfl⟩ := google_host_cons hh
  simp only [List.length_cons]
  omega

/-- C3, as the code has it: a referrer whose host begins with `www.google.` is classified
as `Google` (nil params, store=true, generated=true) whatever its query string, provided
`path.Join` of host and path is no key of `pathGroups`; the alias table, `hostGroups` and
the first predicate rule never take such a host.  `hs`: the scheme-stripping slice is in
range, as it is when `refURL` is what `url.Parse` makes of `ref`. -/
theorem cleanURL_google (pkgRefURL : URL) (ref : Str) (refURL : URL)
    (hs : stripScheme ref ≠ none ∨ Parse ref = some refURL)
    (hh : "www.google.".toList.isPrefixOf refURL.Host = true)
    (hp : pathGroups.lookup (pathJoin [refURL.Host, refURL.Path]) = none) :
    aliasOf refURL.Host = refURL.Host
    ∧ hostGroups.lookup refURL.Host = none
    ∧ groupingOreilly (aliased refURL) = none
    ∧ cleanURL pkgRefURL ref refURL = some ("Google".toList, none, true, true) := by
  obtain ⟨r, hr⟩ := stripScheme_some (stripScheme_of_either ref refURL hs (google_host_length hh))
  have ha : (aliased refURL).Host = refURL.Host := by
    rw [aliased_Host, google_host_no_alias hh]
  have h1 : groupingOreilly (aliased refURL) = none := by
    simp only [groupingOreilly, ha]
    rw [if_pos (google_host_not_oreilly hh)]
  have h2 : groupingGoogle (aliased refURL)
      = some { ref := "Google".toList, params := none, store := true, generated := true } := by
    simp only [groupingGoogle, ha, hh]
    rfl
  refine ⟨google_host_no_alias hh, google_host_no_group hh, h1, ?_⟩
  have hg : hostGroups.lookup (aliased refURL).Host = none := by
    rw [ha]; exact google_host_no_group hh
  have hp2 : pathGroups.lookup (pathJoin [(aliased refURL).Host, (aliased refURL).Path]) = none := by
    rw [ha, aliased_Path]; exact hp
  have hf : (groupings pkgRefURL).findSome? (fun grouping => grouping (aliased refURL))
      = some { ref := "Google".toList, params := none, store := true, generated := true } := by
    rw [findSome_groupings, h1, h2]; rfl
  exact cleanURL_of_grouping pkgRefURL refURL hr hg hp2 hf

/-- Witness of C3: `https://www.google.co.uk/search?q=x`. -/
theorem cleanURL_google_witness :
    Parse "https://www.google.co.uk/search?q=x".toList
      = some { URL.zero with Scheme := "https".toList, Host := "www.google.co.uk".toList,
                             Path := "/search".toList, RawQuery := "q=x".toList }
    ∧ cleanURL URL.zero "https://www.google.co.uk/search?q=x".toList
        { URL.zero with Scheme := "https".toList, Host := "www.google.co.uk".toList,
                        Path := "/search".toList, RawQuery := "q=x".toList }
      = some ("Google".toList, none, true, true) :=
  ⟨by decide, (cleanURL_google URL.zero _ _ (Or.inr (by decide)) (by decide) (by decide)).2.2.2⟩

/-- C3 fails as stated: the host of `https://www.google.co.uk/../www.linkedin.com/feed` begins
with `www.google.`, but `path.Join` resolves the `..` of the path, the result is the key
`www.linkedin.com/feed` of `pathGroups`, and that entry is returned before the Google rule
is asked: label `www.linkedin.com`, generated=false. -/
theorem cleanURL_google_intercepted :
    Parse "https://www.google.co.uk/../www.linkedin.com/feed".toList
      = some { URL.zero with Scheme := "https".toList, Host := "www.google.co.uk".toList,
                             Path := "/../www.linkedin.com/feed".toList }
    ∧ "www.google.".toList.isPrefixOf "www.google.co.uk".toList = true
    ∧ (∀ pkgRefURL : URL,
        cleanURL pkgRefURL "https://www.google.co.uk/../www.linkedin.com/feed".toList
          { URL.zero with Scheme := "https".toList, Host := "www.google.co.uk".toList,
                          Path := "/../www.linkedin.com/feed".toList }
        = some ("www.linkedin.com".toList, none, true, false))
    ∧ ("www.linkedin.com".toList, (none : Option Str), true, false)
        ≠ ("Google".toList, none, true, true) :=
  ⟨by decide, by decide,
   fun pkgRefURL =>
     cleanURL_of_pathGroup (r := "www.google.co.uk/../www.linkedin.com/feed".toList)
       (g := { URL := "www.linkedin.com".toList, Generated := false }) pkgRefURL _
       (by decide) (by decide) (by decide),
   by decide⟩

/-! ## `URL.String` on a URL with a host -/

theorem URL.String_of_host (u : URL) (hs : u.Scheme = []) (ho : u.Opaque = []) (hh : u.Host ≠ []) :
    u.String = '/' :: '/' ::
      ((match u.User with
        | some ui => ui.String ++ ['@']
        | none => []) ++ escape u.Host encodeHost ++ pathPart u
       ++ (if u.ForceQuery = true ∨ u.RawQuery ≠ [] then '?' :: u.RawQuery else [])
       ++ (if u.Fragment ≠ [] then '#' :: escape u.Fragment encodeFragment else [])) := by
  by_cases h1 : (u.EscapedPath ≠ [] ∧ u.EscapedPath.head? ≠ some '/') <;>
    by_cases h2 : u.Fragment = [] <;>
    by_cases h3 : (u.ForceQuery = true ∨ u.RawQuery ≠ []) <;>
    cases hU : u.User <;>
    simp [URL.String, pathPart, hs, ho, hh, h1, h2, h3, hU]

theorem URL.String_plain (u : URL) (hs : u.Scheme = []) (ho : u.Opaque = []) (hh : u.Host ≠ [])
    (hu : u.User = none) (hf : u.ForceQuery = false) (hfr : u.Fragment = [])
    (hq : u.RawQuery = []) :
    u.String = '/' :: '/' :: (escape u.Host encodeHost ++ pathPart u) := by
  rw [URL.String_of_host u hs ho hh, hu, hf, hfr, hq]
  simp

theorem sliceFrom_two (a b : Char) (rest : Str) : sliceFrom (a :: b :: rest) 2 = some rest := by
  simp [sliceFrom]

theorem escape_host_head (host : Str) : (escape host encodeHost).head? ≠ some '/' := by
  cases host with
  | nil => simp [escape]
  | cons c t =>
    simp only [escape, List.flatMap_cons]
    have hm : ¬ (c = ' ' ∧ encodeHost = encodeQueryComponent) := fun h => by cases h.2
    rw [if_neg hm]
    by_cases he : shouldEscape c encodeHost = true
    · rw [if_pos he]
      simp
    · rw [if_neg he]
      simp only [List.singleton_append, List.head?_cons, ne_eq, Option.some.injEq]
      intro hc
      subst hc
      exact he (by decide)

theorem pathPart_head (u : URL) (h : pathPart u ≠ []) : (pathPart u).head? = some '/' := by
  unfold pathPart at h ⊢
  by_cases hc : u.EscapedPath ≠ [] ∧ u.EscapedPath.head? ≠ some '/'
  · rw [if_pos hc]; rfl
  · rw [if_neg hc] at h ⊢
    simp only [List.nil_append] at h ⊢
    by_contra hne
    exact hc ⟨h, hne⟩

theorem pathPart_RawQuery (u : URL) (q : Str) : pathPart { u with RawQuery := q } = pathPart u :=
  rfl

/-! ## Aliased hosts are stored (C6) -/

theorem hostAlias_values (host a : Str) (h : hostAlias.lookup host = some a) :
    aliasTarget a = true := by
  have hall : ∀ v ∈ hostAlias.map Prod.snd, aliasTarget v = true := by decide
  exact hall a (lookup_mem_values hostAlias host a h)

theorem aliasOf_ne_nil (host : Str) (h : host ≠ []) : aliasOf host ≠ [] := by
  unfold aliasOf
  cases ha : hostAlias.lookup host with
  | none => exact h
  | some a =>
    have hT := hostAlias_values _ _ ha
    simp only [aliasTarget, Bool.and_eq_true, bne_iff_ne, ne_eq] at hT
    exact hT.1.2

/-- The query stage returns whenever the URL has a host and no opaque part. -/
theorem cleanQuery_isSome (r : Str) (u : URL) (changed : Bool)
    (hs : u.Scheme = []) (ho : u.Opaque = []) (hh : u.Host ≠ []) :
    ∃ res, cleanQuery r u changed = some res := by
  have hstr := URL.String_of_host { u with RawQuery := [] } hs ho hh
  unfold cleanQuery
  split
  · exact ⟨_, rfl⟩
  · dsimp only
    split_ifs
    · exact ⟨_, rfl⟩
    · rw [hstr, sliceFrom_two]; exact ⟨_, rfl⟩
    · rw [hstr, sliceFrom_two]; exact ⟨_, rfl⟩

/-- With `changed` set and a host other than `t.co`, every return of the query stage has
store=true. -/
theorem cleanQuery_store (r : Str) (u : URL) (ht : u.Host ≠ "t.co".toList)
    (label : Str) (params : Option Str) (store generated : Bool)
    (h : cleanQuery r u true = some (label, params, store, generated)) : store = true := by
  unfold cleanQuery at h
  split at h
  · simp only [Option.some.injEq, Prod.mk.injEq] at h
    exact h.2.2.1.symm
  · dsimp only at h
    split_ifs at h with h1 h2
    · exact absurd h1.1 ht
    · simp only [Option.map_eq_some', Prod.mk.injEq, Bool.true_or] at h
      obtain ⟨_, _, _, _, hst, _⟩ := h
      exact hst.symm
    · simp only [Option.map_eq_some', Prod.mk.injEq, Bool.true_or] at h
      obtain ⟨_, _, _, _, hst, _⟩ := h
      exact hst.symm

theorem groupingOreilly_store (u : URL) (g : grouping) (h : groupingOreilly u = some g) :
    g.store = true := by
  unfold groupingOreilly at h
  split_ifs at h
  cases h; rfl

theorem groupingGoogle_store (u : URL) (g : grouping) (h : groupingGoogle u = some g) :
    g.store = true := by
  unfold groupingGoogle at h
  split_ifs at h
  cases h; rfl

theorem groupingLobsters_store (pkgRefURL u : URL) (g : grouping)
    (h : groupingLobsters pkgRefURL u = some g) : g.store = true := by
  unfold groupingLobsters at h
  split_ifs at h
  cases h; rfl

theorem groupingFeedly_none (u : URL) (h : "feedly.com".toList.isPrefixOf u.Host = false) :
    groupingFeedly u = none := by
  unfold groupingFeedly
  rw [if_pos (by rw [h]; exact Bool.false_ne_true)]

/-- With an aliased host, `cleanURL` either returns from a group or a predicate rule with
store=true, or runs the query stage with `changed` set on a URL whose host is the alias. -/
theorem cleanURL_alias_core (pkgRefURL : URL) (ref r : Str) (u : URL) (a : Str)
    (hh : hostAlias.lookup u.Host = some a) (hs : stripScheme ref = some r) :
    (∃ label params generated, cleanURL pkgRefURL ref u = some (label, params, true, generated))
    ∨ (cleanURL pkgRefURL ref u = cleanQuery r (redditTrim (aliased u)).2 true
        ∧ (redditTrim (aliased u)).2.Host = a) := by
  have hT := hostAlias_values _ _ hh
  simp only [aliasTarget, Bool.and_eq_true, Option.isNone_iff_eq_none, bne_iff_ne, ne_eq,
    Bool.not_eq_true'] at hT
  obtain ⟨⟨⟨hg0, _⟩, _⟩, hfeed⟩ := hT
  have hHost : (aliased u).Host = a := by
    rw [aliased_Host, aliasOf, hh]; rfl
  have hch : (normalizeHost { u with Scheme := [] }).1 = true := by
    simp only [normalizeHost, hh]
  have hg : hostGroups.lookup (aliased u).Host = none := by rw [hHost]; exact hg0
  cases hp : pathGroups.lookup (pathJoin [(aliased u).Host, (aliased u).Path]) with
  | some g => exact Or.inl ⟨_, _, _, cleanURL_of_pathGroup pkgRefURL u hs hg hp⟩
  | none =>
    have h4 : groupingFeedly (aliased u) = none :=
      groupingFeedly_none _ (by rw [hHost]; exact hfeed)
    cases hr : (groupings pkgRefURL).findSome? (fun grouping => grouping (aliased u)) with
    | some g =>
      have hst : g.store = true := by
        rw [findSome_groupings, h4] at hr
        cases h1 : groupingOreilly (aliased u) with
        | some g1 =>
          rw [h1] at hr
          cases hr
          exact groupingOreilly_store _ _ h1
        | none =>
          rw [h1] at hr
          cases h2 : groupingGoogle (aliased u) with
          | some g2 =>
            rw [h2] at hr
            cases hr
            exact groupingGoogle_store _ _ h2
          | none =>
            rw [h2] at hr
            cases h3 : groupingLobsters pkgRefURL (aliased u) with
            | some g3 =>
              rw [h3] at hr
              cases hr
              exact groupingLobsters_store _ _ _ h3
            | none =>
              rw [h3] at hr
              cases hr
      refine Or.inl ⟨g.ref, g.params, g.generated, ?_⟩
      rw [cleanURL_of_grouping pkgRefURL u hs hg hp hr, hst]
    | none =>
      refine Or.inr ⟨?_, ?_⟩
      · rw [cleanURL_of_no_group pkgRefURL u hs hg hp hr, hch, Bool.true_or]
      · rw [redditTrim_Host, hHost]

/-- C6: when the host of the referrer is a key of `hostAlias`, every return of `cleanURL` has
store=true; and `cleanURL` does return, with store=true, whenever `u` is what `url.Parse`
makes of `ref`, or else the scheme-stripping slice is in range and the URL has no opaque
part. -/
theorem cleanURL_alias_store (pkgRefURL : URL) (ref : Str) (u : URL)
    (hh : (hostAlias.lookup u.Host).isSome = true) :
    (∀ label params store generated,
        cleanURL pkgRefURL ref u = some (label, params, store, generated) → store = true)
    ∧ (Parse ref = some u ∨ (stripScheme ref ≠ none ∧ u.Opaque = []) →
        ∃ label params generated, cleanURL pkgRefURL ref u = some (label, params, true, generated)) := by
  obtain ⟨a, ha⟩ := Option.isSome_iff_exists.mp hh
  have hT := hostAlias_values _ _ ha
  simp only [aliasTarget, Bool.and_eq_true, Option.isNone_iff_eq_none, bne_iff_ne, ne_eq,
    Bool.not_eq_true'] at hT
  obtain ⟨⟨⟨_, htco⟩, hne⟩, _⟩ := hT
  have hlen := hostAlias_keys_length _ _ ha
  constructor
  · intro label params store generated hres
    cases hs : stripScheme ref with
    | none => rw [cleanURL_panics pkgRefURL u hs] at hres; cases hres
    | some r =>
      rcases cleanURL_alias_core pkgRefURL ref r u a ha hs with ⟨l, p, g, h⟩ | ⟨h, hhost⟩
      · rw [h] at hres
        simp only [Option.some.injEq, Prod.mk.injEq] at hres
        exact hres.2.2.1.symm
      · rw [h] at hres
        exact cleanQuery_store r _ (by rw [hhost]; exact htco) _ _ _ _ hres
  · intro hcase
    have hso : stripScheme ref ≠ none ∧ u.Opaque = [] := by
      rcases hcase with hP | h
      · have hne0 : u.Host ≠ [] := by
          intro h0
          rw [h0] at hlen
          simp at hlen
        exact ⟨stripScheme_of_Parse ref u hP (by omega), ((Parse_lengths ref u hP).2 hne0).1⟩
      · exact h
    obtain ⟨hs, ho⟩ := hso
    obtain ⟨r, hr⟩ := stripScheme_some hs
    rcases cleanURL_alias_core pkgRefURL ref r u a ha hr with h | ⟨h, hhost⟩
    · exact h
    · obtain ⟨⟨l, p, st, g⟩, hres⟩ := cleanQuery_isSome r (redditTrim (aliased u)).2 true
        (by rw [redditTrim_Scheme, aliased_Scheme])
        (by rw [redditTrim_Opaque, aliased_Opaque, ho])
        (by rw [hhost]; exact hne)
      have hst := cleanQuery_store r _ (by rw [hhost]; exact htco) _ _ _ _ hres
      subst hst
      exact ⟨l, p, g, by rw [h, hres]⟩

/-- Witness of C6: `https://m.habr.com/x`, with no group, rule or query string, is stored. -/
theorem cleanURL_alias_store_witness :
    Parse "https://m.habr.com/x".toList
      = some { URL.zero with Scheme := "https".toList, Host := "m.habr.com".toList,
                             Path := "/x".toList }
    ∧ cleanURL URL.zero "https://m.habr.com/x".toList
        { URL.zero with Scheme := "https".toList, Host := "m.habr.com".toList, Path := "/x".toList }
      = some ("habr.com/x".toList, none, true, false)
    ∧ ∃ label params generated,
        cleanURL URL.zero "https://m.habr.com/x".toList
          { URL.zero with Scheme := "https".toList, Host := "m.habr.com".toList,
                          Path := "/x".toList }
        = some (label, params, true, generated) :=
  ⟨by decide, by decide,
   (cleanURL_alias_store URL.zero "https://m.habr.com/x".toList
      { URL.zero with Scheme := "https".toList, Host := "m.habr.com".toList, Path := "/x".toList }
      (by decide)).2 (Or.inl (by decide))⟩

/-! ## `Defaults`, field by field -/

/-- `Defaults` runs the classifier on a non-empty `Ref` with a URL, panics when it does, and
otherwise leaves the hit `defaulted`. -/
theorem Hit.Defaults_eq (pkgRefURL : URL) (now : Time) (h : Hit) :
    h.Defaults pkgRefURL now =
      match h.refURL with
      | some refURL =>
        if h.Ref ≠ [] then
          (cleanURL pkgRefURL h.Ref refURL).map (fun res => defaulted now h (some res))
        else some (defaulted now h none)
      | none => some (defaulted now h none) := by
  obtain ⟨site, path, ref, params, orig, scheme, created, refURL⟩ := h
  cases refURL with
  | none =>
    simp only [Hit.Defaults, defaulted]
    split_ifs <;> rfl
  | some u =>
    by_cases hr : ref = []
    · subst hr
      simp only [Hit.Defaults, defaulted]
      split_ifs <;> first | rfl | simp_all
    · simp only [Hit.Defaults, defaulted]
      by_cases hc : created = 0
      · simp only [hc, if_true, hr, ne_eq, not_false_eq_true]
        cases cleanURL pkgRefURL ref u with
        | none => rfl
        | some res =>
          obtain ⟨l, p, st, g⟩ := res
          cases st <;> cases g <;> rfl
      · simp only [hc, if_false, hr, ne_eq, not_false_eq_true, if_true]
        cases cleanURL pkgRefURL ref u with
        | none => rfl
        | some res =>
          obtain ⟨l, p, st, g⟩ := res
          cases st <;> cases g <;> rfl

/-! ## Panics of `cleanURL` (C7) and of `Insert` (C8) -/

theorem Insert_panics_of_cleanURL (blacklist : List Str) (pkgRefURL : URL) (now : Time)
    (exec : Hit → Option String) (h : Hit) (u : URL)
    (hp : Parse h.Ref = some u) (hb : blacklist.contains u.Host = false) (hr : h.Ref ≠ [])
    (hc : cleanURL pkgRefURL h.Ref u = none) :
    Hit.Insert blacklist pkgRefURL now exec h = InsertResult.panicked := by
  simp only [Hit.Insert, hp, hb, Hit.Defaults_eq, hc]
  rw [if_pos hr]
  simp

/-- C7 fails on the code: `cleanURL` is not total on parsed referrers.  `url.Parse` accepts
`a:b` (scheme `a`, opaque `b`); the colon is at index 1, and `ref[p+3:]` asks for index 4 of
a string of length 3: a panic, whatever the URL, which `Insert` passes on.  `url.Parse`
accepts `?a=b` also; there `refURL.String()` is empty once the query is dropped, and
`refURL.String()[2:]` panics. -/
theorem cleanURL_not_total (pkgRefURL : URL) :
    Parse "a:b".toList = some { URL.zero with Scheme := ['a'], Opaque := ['b'] }
    ∧ (∀ refURL : URL, cleanURL pkgRefURL "a:b".toList refURL = none)
    ∧ (∀ now exec site path created,
        Hit.Insert [] pkgRefURL now exec (newHit site path "a:b".toList created)
          = InsertResult.panicked)
    ∧ Parse "?a=b".toList = some { URL.zero with RawQuery := "a=b".toList }
    ∧ cleanURL { URL.zero with RawQuery := "a=b".toList } "?a=b".toList
        { URL.zero with RawQuery := "a=b".toList } = none := by
  have hs : stripScheme "a:b".toList = none := by decide
  have hP : Parse "a:b".toList = some { URL.zero with Scheme := ['a'], Opaque := ['b'] } := by
    decide
  refine ⟨hP, fun refURL => cleanURL_panics _ _ hs, ?_, by decide, by decide⟩
  intro now exec site path created
  exact Insert_panics_of_cleanURL [] pkgRefURL now exec _ _ hP rfl
    (List.cons_ne_nil _ _) (cleanURL_panics _ _ hs)

/-- C8 fails on the code: when `url.Parse` rejects the referrer, `Insert` logs the error,
is left with a nil `h.refURL`, and dereferences it in the blacklist test: a panic, before
`Defaults`, `Validate` and the storage write. -/
theorem Insert_panics_of_parse_error (blacklist : List Str) (pkgRefURL : URL) (now : Time)
    (exec : Hit → Option String) (h : Hit) (hp : Parse h.Ref = none) :
    Hit.Insert blacklist pkgRefURL now exec h = InsertResult.panicked := by
  simp only [Hit.Insert, hp]

/-- Witness of C8: the referrer `%zz` does not parse (invalid escape), and `Insert` panics. -/
theorem Insert_panics_of_parse_error_witness :
    Parse "%zz".toList = none
    ∧ Hit.Insert [] URL.zero 1 (fun _ => none) (newHit 1 "/".toList "%zz".toList 0)
        = InsertResult.panicked :=
  ⟨by decide, Insert_panics_of_parse_error [] URL.zero 1 (fun _ => none)
      (newHit 1 "/".toList "%zz".toList 0) (by decide)⟩

/-! ## The blacklist (C9) -/

/-- C9: a hit whose referrer parses to a URL with a blacklisted host makes `Insert` return a
nil error with no row written, whatever the other fields of the hit and whatever the
database would answer. -/
theorem Insert_blacklisted (blacklist : List Str) (pkgRefURL : URL) (now : Time)
    (exec : Hit → Option String) (h : Hit) (u : URL)
    (hp : Parse h.Ref = some u) (hb : u.Host ∈ blacklist) :
    Hit.Insert blacklist pkgRefURL now exec h = InsertResult.returned none [] := by
  have hc : blacklist.contains u.Host = true := List.elem_iff.mpr hb
  simp only [Hit.Insert, hp, hc, if_true]

/-- Witness of C9: a hit with no site and a blank path, which `Validate` would reject, and a
database that would fail, with a referrer of the blacklisted host `spam.example`. -/
theorem Insert_blacklisted_witness :
    Hit.Validate (newHit 0 " ".toList "http://spam.example/x".toList 0) = some ["site", "path"]
    ∧ Hit.Insert ["spam.example".toList] URL.zero 1 (fun _ => some "down")
        (newHit 0 " ".toList "http://spam.example/x".toList 0)
      = InsertResult.returned none [] :=
  ⟨by decide,
   Insert_blacklisted ["spam.example".toList] URL.zero 1 (fun _ => some "down")
     (newHit 0 " ".toList "http://spam.example/x".toList 0)
     { URL.zero with Scheme := "http".toList, Host := "spam.example".toList, Path := "/x".toList }
     (by decide) (by decide)⟩

/-! ## The path after `Defaults` (C10) -/

theorem dropWhile_head_not (p : Char → Bool) (l : Str) (c : Char)
    (h : (l.dropWhile p).head? = some c) : p c = false := by
  have := List.head?_dropWhile_not p l
  rw [h] at this
  exact this

theorem stringsTrimLeft_head (s cutset : Str) (c : Char)
    (h : (stringsTrimLeft s cutset).head? = some c) : cutset.contains c = false :=
  dropWhile_head_not _ _ _ h

theorem stringsTrimRight_getLast (s cutset : Str) (c : Char)
    (h : (stringsTrimRight s cutset).getLast? = some c) : cutset.contains c = false := by
  unfold stringsTrimRight at h
  rw [List.getLast?_reverse] at h
  exact dropWhile_head_not _ _ _ h

theorem stringsTrimRight_isPrefix (s cutset : Str) : stringsTrimRight s cutset <+: s := by
  unfold stringsTrimRight
  have hsuf : s.reverse.dropWhile (fun c => cutset.contains c) <:+ s.reverse :=
    List.dropWhile_suffix _
  have := List.reverse_prefix.mpr hsuf
  rwa [List.reverse_reverse] at this

theorem stringsTrimRight_head (s cutset : Str) (c : Char)
    (h : (stringsTrimRight s cutset).head? = some c) : s.head? = some c := by
  obtain ⟨t, ht⟩ := stringsTrimRight_isPrefix s cutset
  cases hT : stringsTrimRight s cutset with
  | nil => rw [hT] at h; cases h
  | cons a l =>
    rw [hT] at h ht
    rw [← ht]
    exact h

theorem stringsTrim_head (s cutset : Str) (c : Char)
    (h : (stringsTrim s cutset).head? = some c) : cutset.contains c = false :=
  stringsTrimLeft_head s cutset c (stringsTrimRight_head _ _ _ h)

theorem stringsTrim_getLast (s cutset : Str) (c : Char)
    (h : (stringsTrim s cutset).getLast? = some c) : cutset.contains c = false :=
  stringsTrimRight_getLast _ _ _ h

theorem requiredString_of_slash (t : Str) : requiredString ('/' :: t) = true := by
  have hl : stringsTrimLeft ('/' :: t)
      [Char.ofNat 9, Char.ofNat 10, Char.ofNat 11, Char.ofNat 12, Char.ofNat 13, ' '] = '/' :: t := by
    simp only [stringsTrimLeft, List.dropWhile]
    rfl
  have hne : stringsTrimSpace ('/' :: t) ≠ [] := by
    unfold stringsTrimSpace stringsTrim
    rw [hl]
    unfold stringsTrimRight
    intro h
    have h2 := List.reverse_eq_nil_iff.mp h
    have h3 := List.dropWhile_eq_nil_iff.mp h2 '/' (by simp)
    exact absurd h3 (by decide)
  simp only [requiredString, hne, ne_eq, not_false_eq_true, decide_True]

/-- C10: whatever the hit, the path `Defaults` leaves is `"/"` followed by the path trimmed
of all its leading and trailing slashes: it is not empty, begins with one slash and not two,
and ends in a slash only when it is `"/"`; `Validate` then never reports `path`.  `Defaults`
returns at least whenever there is no referrer to classify. -/
theorem Defaults_Path (pkgRefURL : URL) (now : Time) (h : Hit) :
    (∀ h', h.Defaults pkgRefURL now = some h' →
        h'.Path = '/' :: stringsTrim h.Path ['/']
        ∧ ∀ keys, h'.Validate = some keys → "path" ∉ keys)
    ∧ (h.Ref = [] → ∃ h', h.Defaults pkgRefURL now = some h')
    ∧ ('/' :: stringsTrim h.Path ['/']) ≠ []
    ∧ ('/' :: stringsTrim h.Path ['/']).head? = some '/'
    ∧ (('/' :: stringsTrim h.Path ['/']).drop 1).head? ≠ some '/'
    ∧ (('/' :: stringsTrim h.Path ['/']).getLast? = some '/' →
        '/' :: stringsTrim h.Path ['/'] = ['/']) := by
  have hpath : ∀ h', h.Defaults pkgRefURL now = some h' →
      h'.Path = '/' :: stringsTrim h.Path ['/'] := by
    intro h' hd
    rw [Hit.Defaults_eq] at hd
    cases hu : h.refURL with
    | none =>
      rw [hu] at hd
      simp only [Option.some.injEq] at hd
      rw [← hd]; rfl
    | some u =>
      rw [hu] at hd
      dsimp only at hd
      split_ifs at hd
      · simp only [Option.map_eq_some'] at hd
        obtain ⟨res, _, hd⟩ := hd
        rw [← hd]; rfl
      · simp only [Option.some.injEq] at hd
        rw [← hd]; rfl
  refine ⟨?_, ?_, List.cons_ne_nil _ _, rfl, ?_, ?_⟩
  · intro h' hd
    refine ⟨hpath h' hd, ?_⟩
    intro keys hv
    have hreq : requiredString h'.Path = true := by
      rw [hpath h' hd]; exact requiredString_of_slash _
    unfold Hit.Validate at hv
    rw [hreq] at hv
    simp only [if_true, List.append_nil] at hv
    split_ifs at hv with h1 h2
    · simp only [Option.some.injEq] at hv
      rw [← hv]; decide
    · simp only [Option.some.injEq] at hv
      rw [← hv]; decide
  · intro hr
    rw [Hit.Defaults_eq]
    cases h.refURL with
    | none => exact ⟨_, rfl⟩
    | some u =>
      dsimp only
      rw [if_neg (by simp [hr])]
      exact ⟨_, rfl⟩
  · intro hh
    simp only [List.drop_succ_cons, List.drop_zero] at hh
    exact absurd (stringsTrim_head _ _ _ hh) (by decide)
  · intro hl
    cases hT : stringsTrim h.Path ['/'] with
    | nil => rfl
    | cons a l =>
      rw [hT, List.getLast?_cons_cons, ← hT] at hl
      exact absurd (stringsTrim_getLast _ _ _ hl) (by decide)

/-- Witness of C10: the path `about/` becomes `/about`, the empty path and `///` become `/`. -/
theorem Defaults_Path_witness :
    ((newHit 1 "about/".toList [] 0).Defaults URL.zero 1).map Hit.Path = some "/about".toList
    ∧ ((newHit 1 [] [] 0).Defaults URL.zero 1).map Hit.Path = some "/".toList
    ∧ ((newHit 1 "///".toList [] 0).Defaults URL.zero 1).map Hit.Path = some "/".toList := by
  decide

/-! ## The query stage (C4) -/

theorem not_mem_trackingKeys (k : Str) :
    k ∉ trackingKeys ↔ (k ≠ "utm_term".toList ∧ k ≠ "utm_campaign".toList
      ∧ k ≠ "utm_medium".toList ∧ k ≠ "utm_source".toList) := by
  simp only [trackingKeys, List.mem_cons, List.mem_singleton, List.not_mem_nil, or_false, not_or]
  tauto

theorem delTracking_eq_filter (q : Values) :
    delTracking q = q.filter (fun e => !trackingKeys.contains e.1) := by
  simp only [delTracking, Values.Del, List.filter_filter]
  apply List.filter_congr
  intro e _
  rw [Bool.eq_iff_iff]
  simp only [Bool.and_eq_true, decide_eq_true_eq, Bool.not_eq_true']
  rw [← not_mem_trackingKeys]
  constructor
  · intro h
    cases hc : trackingKeys.contains e.1 with
    | false => rfl
    | true => exact absurd (List.elem_iff.mp hc) h
  · intro h hmem
    have := List.elem_iff.mpr hmem
    simp only [List.contains] at h
    rw [this] at h
    cases h

theorem delTracking_keys (q : Values) (e : Str × List Str) (he : e ∈ delTracking q) :
    e.1 ∉ trackingKeys := by
  rw [delTracking_eq_filter, List.mem_filter] at he
  intro hmem
  have := List.elem_iff.mpr hmem
  simp only [List.contains] at he
  rw [this] at he
  exact absurd he.2 (by decide)

theorem delTracking_length (q : Values) :
    (delTracking q).length ≠ q.length ↔ ∃ e ∈ q, e.1 ∈ trackingKeys := by
  rw [delTracking_eq_filter, Ne, List.filter_length_eq_length]
  constructor
  · intro h
    by_contra hne
    apply h
    intro a ha
    cases hc : trackingKeys.contains a.1 with
    | false => rfl
    | true => exact absurd ⟨a, ha, List.elem_iff.mp hc⟩ hne
  · rintro ⟨e, he, hk⟩ hall
    have h1 := hall e he
    have h2 : trackingKeys.contains e.1 = true := List.elem_iff.mpr hk
    rw [h2] at h1
    exact absurd h1 (by decide)

/-- The query stage on a referrer with a `?`, outside the `t.co` case, for a URL with a host
and without scheme, opaque part, userinfo, forced query and fragment. -/
theorem cleanQuery_generic (r : Str) (i : Nat) (u : URL) (changed : Bool)
    (hq : stringsIndex r ['?'] = some i)
    (hs : u.Scheme = []) (ho : u.Opaque = []) (hh : u.Host ≠ []) (hu : u.User = none)
    (hf : u.ForceQuery = false) (hfr : u.Fragment = [])
    (ht : ¬ (u.Host = "t.co".toList ∧ r.drop (i + 1) = "amp=1".toList)) :
    cleanQuery r u changed = some
      (escape u.Host encodeHost ++ pathPart u,
       if delTracking u.Query = [] then none else some (delTracking u.Query).Encode,
       changed || decide ((delTracking u.Query).length ≠ u.Query.length),
       false) := by
  have hstr := URL.String_of_host { u with RawQuery := [] } hs ho hh
  unfold cleanQuery
  rw [hq]
  dsimp only
  rw [if_neg ht, hstr, sliceFrom_two]
  simp only [hu, hf, hfr, pathPart_RawQuery, Bool.false_eq_true, ne_eq, not_true_eq_false,
    or_self, if_false, List.nil_append, List.append_nil]
  by_cases hl : (delTracking u.Query).length = 0
  · have hnil : delTracking u.Query = [] := List.length_eq_zero.mp hl
    rw [if_pos hl, if_pos hnil]
    rfl
  · have hnil : delTracking u.Query ≠ [] := fun h => hl (by rw [h]; rfl)
    rw [if_neg hl, if_neg hnil]
    rfl

/-- C4, as the code has it.  For a referrer with a `?` (`hq`) on which the scheme-stripping
slice is in range (`hs`), parsed to a URL with a host, without userinfo, fragment or opaque
part and with a query that is not empty (`hf`), which no group and no predicate rule takes
and which is not the `t.co` `amp=1` case, `cleanURL` returns:
the label made of the escaped aliased host and the escaped path, after the Reddit trimming;
the re-encoded query without the four tracking keys, nil when no key is left;
store = host aliased, or path trimmed, or a tracking key removed; generated=false. -/
theorem cleanURL_generic (pkgRefURL : URL) (ref r : Str) (i : Nat) (u : URL)
    (hs : stripScheme ref = some r) (hq : stringsIndex r ['?'] = some i)
    (hh : u.Host ≠ []) (hu : u.User = none) (hfr : u.Fragment = []) (ho : u.Opaque = [])
    (hf : u.ForceQuery = false)
    (hg : hostGroups.lookup (aliasOf u.Host) = none)
    (hp : pathGroups.lookup (pathJoin [aliasOf u.Host, u.Path]) = none)
    (hr : (groupings pkgRefURL).findSome? (fun grouping => grouping (aliased u)) = none)
    (ht : ¬ (aliasOf u.Host = "t.co".toList ∧ r.drop (i + 1) = "amp=1".toList)) :
    cleanURL pkgRefURL ref u = some
      (escape (aliasOf u.Host) encodeHost ++ pathPart (redditTrim (aliased u)).2,
       if delTracking u.Query = [] then none else some (delTracking u.Query).Encode,
       (hostAlias.lookup u.Host).isSome || (redditTrim (aliased u)).1
         || decide ((delTracking u.Query).length ≠ u.Query.length),
       false)
    ∧ (∀ e ∈ delTracking u.Query, e.1 ∉ trackingKeys)
    ∧ ((delTracking u.Query).length ≠ u.Query.length ↔ ∃ e ∈ u.Query, e.1 ∈ trackingKeys) := by
  refine ⟨?_, delTracking_keys u.Query, delTracking_length u.Query⟩
  have hg2 : hostGroups.lookup (aliased u).Host = none := by rw [aliased_Host]; exact hg
  have hp2 : pathGroups.lookup (pathJoin [(aliased u).Host, (aliased u).Path]) = none := by
    rw [aliased_Host, aliased_Path]; exact hp
  have hHost : (redditTrim (aliased u)).2.Host = aliasOf u.Host := by
    rw [redditTrim_Host, aliased_Host]
  have hQ : (redditTrim (aliased u)).2.Query = u.Query :=
    Query_congr _ _ (by rw [(redditTrim_rest _).2.2.2, (aliased_rest u).2.2.2])
  rw [cleanURL_of_no_group pkgRefURL u hs hg2 hp2 hr, normalizeHost_changed]
  rw [cleanQuery_generic r i (redditTrim (aliased u)).2 _ hq
    (by rw [redditTrim_Scheme, aliased_Scheme])
    (by rw [redditTrim_Opaque, aliased_Opaque, ho])
    (by rw [hHost]; exact aliasOf_ne_nil _ hh)
    (by rw [(redditTrim_rest _).1, (aliased_rest u).1, hu])
    (by rw [(redditTrim_rest _).2.1, (aliased_rest u).2.1, hf])
    (by rw [(redditTrim_rest _).2.2.1, (aliased_rest u).2.2.1, hfr])
    (by rw [hHost]; exact ht)]
  rw [hHost, hQ]

/-- Witness of C4: `https://example.com/page?utm_source=x&ref=1` gives the label
`example.com/page`, the params `ref=1` and store=true. -/
theorem cleanURL_generic_witness :
    Parse "https://example.com/page?utm_source=x&ref=1".toList
      = some { URL.zero with Scheme := "https".toList, Host := "example.com".toList,
                             Path := "/page".toList, RawQuery := "utm_source=x&ref=1".toList }
    ∧ cleanURL URL.zero "https://example.com/page?utm_source=x&ref=1".toList
        { URL.zero with Scheme := "https".toList, Host := "example.com".toList,
                        Path := "/page".toList, RawQuery := "utm_source=x&ref=1".toList }
      = some ("example.com/page".toList, some "ref=1".toList, true, false) :=
  ⟨by decide,
   (cleanURL_generic URL.zero "https://example.com/page?utm_source=x&ref=1".toList
      "example.com/page?utm_source=x&ref=1".toList 16
      { URL.zero with Scheme := "https".toList, Host := "example.com".toList,
                      Path := "/page".toList, RawQuery := "utm_source=x&ref=1".toList }
      (by decide) (by decide) (by decide) rfl rfl rfl rfl (by decide) (by decide) (by decide)
      (by decide)).1.trans (by decide)⟩

/-- C4 fails as stated: the label is not the host and path of the referrer with scheme and
query cut off, but the URL written out again.  `https://example.com/a b?x=1` has a host, no
userinfo and no fragment, no group or rule takes it, and its label is `example.com/a%20b`,
which is neither the text `example.com/a b` nor `Host` followed by `Path`. -/
theorem cleanURL_generic_label_escaped :
    Parse "https://example.com/a b?x=1".toList
      = some { URL.zero with Scheme := "https".toList, Host := "example.com".toList,
                             Path := "/a b".toList, RawPath := "/a b".toList,
                             RawQuery := "x=1".toList }
    ∧ hostGroups.lookup (aliasOf "example.com".toList) = none
    ∧ pathGroups.lookup (pathJoin [aliasOf "example.com".toList, "/a b".toList]) = none
    ∧ (groupings URL.zero).findSome? (fun grouping => grouping (aliased
        { URL.zero with Scheme := "https".toList, Host := "example.com".toList,
                        Path := "/a b".toList, RawPath := "/a b".toList,
                        RawQuery := "x=1".toList })) = none
    ∧ cleanURL URL.zero "https://example.com/a b?x=1".toList
        { URL.zero with Scheme := "https".toList, Host := "example.com".toList,
                        Path := "/a b".toList, RawPath := "/a b".toList,
                        RawQuery := "x=1".toList }
      = some ("example.com/a%20b".toList, some "x=1".toList, false, false)
    ∧ "example.com/a%20b".toList ≠ "example.com".toList ++ "/a b".toList := by
  decide

/-- A referrer with an empty query keeps its question mark: `https://example.com/page?`
is labelled `example.com/page?`, as `url.Parse` sets `ForceQuery` and `String` writes the
`?` again.  The hypothesis `hf` of `cleanURL_generic` leaves this case out. -/
theorem cleanURL_forced_query :
    Parse "https://example.com/page?".toList
      = some { URL.zero with Scheme := "https".toList, Host := "example.com".toList,
                             Path := "/page".toList, ForceQuery := true }
    ∧ cleanURL URL.zero "https://example.com/page?".toList
        { URL.zero with Scheme := "https".toList, Host := "example.com".toList,
                        Path := "/page".toList, ForceQuery := true }
      = some ("example.com/page?".toList, none, false, false) := by
  decide

/-! ## Stripping the tracking parameters twice (C5) -/

/-- C5 fails on the code: the two branches of the query stage do not agree on the label.
`/page?utm_source=x` parses (no host, path `/page`), its query holds a tracking parameter only,
and the branch for a referrer with a `?` returns `refURL.String()[2:]`, the label `age`;
the stripped referrer `/page` takes the branch `strings.TrimLeft(refURL.String(), "/")` and
is labelled `page`. -/
theorem cleanURL_strip_not_idempotent :
    Parse "/page?utm_source=x".toList
      = some { URL.zero with Path := "/page".toList, RawQuery := "utm_source=x".toList }
    ∧ Parse "/page".toList = some { URL.zero with Path := "/page".toList }
    ∧ delTracking (URL.Query { URL.zero with Path := "/page".toList,
                                             RawQuery := "utm_source=x".toList }) = []
    ∧ cleanURL { URL.zero with Path := "/page".toList, RawQuery := "utm_source=x".toList }
        "/page?utm_source=x".toList
        { URL.zero with Path := "/page".toList, RawQuery := "utm_source=x".toList }
      = some ("age".toList, none, true, false)
    ∧ cleanURL { URL.zero with Path := "/page".toList } "/page".toList
        { URL.zero with Path := "/page".toList }
      = some ("page".toList, none, false, false) := by
  decide

/-- Where the two branches of the query stage do agree: on a URL with a host and without
opaque part, userinfo, forced query and fragment, a referrer whose query holds tracking
parameters only and the same referrer without query get the same label, the escaped host
followed by the escaped path, and nil params. -/
theorem cleanQuery_branches_agree (r1 r2 : Str) (i : Nat) (u : URL) (changed : Bool)
    (hq1 : stringsIndex r1 ['?'] = some i) (hq2 : stringsIndex r2 ['?'] = none)
    (hs : u.Scheme = []) (ho : u.Opaque = []) (hh : u.Host ≠ []) (hu : u.User = none)
    (hf : u.ForceQuery = false) (hfr : u.Fragment = [])
    (ht : ¬ (u.Host = "t.co".toList ∧ r1.drop (i + 1) = "amp=1".toList))
    (hk : delTracking u.Query = []) :
    (∃ store, cleanQuery r1 u changed
        = some (escape u.Host encodeHost ++ pathPart u, none, store, false))
    ∧ cleanQuery r2 { u with RawQuery := [] } changed
        = some (escape u.Host encodeHost ++ pathPart u, none, changed, false) := by
  constructor
  · refine ⟨changed || decide ((delTracking u.Query).length ≠ u.Query.length), ?_⟩
    rw [cleanQuery_generic r1 i u changed hq1 hs ho hh hu hf hfr ht, if_pos hk]
  · have hstr : ({ u with RawQuery := [] } : URL).String
        = '/' :: '/' :: (escape u.Host encodeHost ++ pathPart u) :=
      URL.String_plain _ hs ho hh hu hf hfr rfl
    unfold cleanQuery
    rw [hq2]
    dsimp only
    rw [hstr]
    have hX : (escape u.Host encodeHost ++ pathPart u).head? ≠ some '/' := by
      cases hE : escape u.Host encodeHost with
      | nil =>
        exfalso
        cases hH : u.Host with
        | nil => exact hh hH
        | cons c t =>
          rw [hH] at hE
          simp only [escape, List.flatMap_cons] at hE
          have hm : ¬ (c = ' ' ∧ encodeHost = encodeQueryComponent) := fun h => by cases h.2
          rw [if_neg hm] at hE
          split_ifs at hE <;> simp at hE
      | cons a l =>
        have := escape_host_head u.Host
        rw [hE] at this
        simpa using this
    have hT : stringsTrimLeft ('/' :: '/' :: (escape u.Host encodeHost ++ pathPart u)) ['/']
        = escape u.Host encodeHost ++ pathPart u := by
      unfold stringsTrimLeft
      rw [List.dropWhile_cons_of_pos (by decide), List.dropWhile_cons_of_pos (by decide)]
      cases hL : escape u.Host encodeHost ++ pathPart u with
      | nil => rfl
      | cons a l =>
        rw [hL] at hX
        have ha : a ≠ '/' := fun h => hX (by rw [h]; rfl)
        rw [List.dropWhile_cons_of_neg]
        simp [ha]
    rw [hT]

/-! ## The original referrer (C11) -/

/-- What `Defaults` returns, by cases on whether the classifier ran and what it returned. -/
theorem Hit.Defaults_cases (pkgRefURL : URL) (now : Time) (h h' : Hit)
    (hd : h.Defaults pkgRefURL now = some h') :
    (h' = defaulted now h none ∧ (h.refURL = none ∨ h.Ref = []))
    ∨ ∃ u res, h.refURL = some u ∧ h.Ref ≠ [] ∧ cleanURL pkgRefURL h.Ref u = some res
        ∧ h' = defaulted now h (some res) := by
  rw [Hit.Defaults_eq] at hd
  cases hu : h.refURL with
  | none =>
    rw [hu] at hd
    simp only [Option.some.injEq] at hd
    exact Or.inl ⟨hd.symm, Or.inl rfl⟩
  | some u =>
    rw [hu] at hd
    dsimp only at hd
    by_cases hr : h.Ref = []
    · rw [if_neg (not_not.mpr hr)] at hd
      simp only [Option.some.injEq] at hd
      exact Or.inl ⟨hd.symm, Or.inr hr⟩
    · rw [if_pos hr] at hd
      simp only [Option.map_eq_some'] at hd
      obtain ⟨res, hres, hd⟩ := hd
      exact Or.inr ⟨u, res, rfl, hr, hres, hd.symm⟩

/-- C11, as the code has it: for a hit whose `RefOriginal` is nil on entry, `RefOriginal` is
set after `Defaults` if and only if the classifier ran (a URL and a non-empty `Ref`) and
returned store=true, and it then holds the referrer as it was on entry. -/
theorem Defaults_RefOriginal (pkgRefURL : URL) (now : Time) (h h' : Hit)
    (h0 : h.RefOriginal = none) (hd : h.Defaults pkgRefURL now = some h') :
    (h'.RefOriginal ≠ none ↔
      ∃ u label params generated, h.refURL = some u ∧ h.Ref ≠ []
        ∧ cleanURL pkgRefURL h.Ref u = some (label, params, true, generated))
    ∧ (h'.RefOriginal ≠ none → h'.RefOriginal = some h.Ref) := by
  rcases Hit.Defaults_cases pkgRefURL now h h' hd with ⟨rfl, hno⟩ | ⟨u, res, hu, hr, hres, rfl⟩
  · have hO : (defaulted now h none).RefOriginal = none := h0
    refine ⟨⟨fun hne => absurd hO hne, ?_⟩, fun hne => absurd hO hne⟩
    rintro ⟨u, _, _, _, hu, hr, _⟩
    rcases hno with hno | hno
    · rw [hno] at hu; cases hu
    · exact absurd hno hr
  · obtain ⟨label, params, store, generated⟩ := res
    cases store with
    | false =>
      have hO : (defaulted now h (some (label, params, false, generated))).RefOriginal = none := h0
      refine ⟨⟨fun hne => absurd hO hne, ?_⟩, fun hne => absurd hO hne⟩
      rintro ⟨u2, l2, p2, g2, hu2, _, hc2⟩
      rw [hu] at hu2
      cases hu2
      rw [hres] at hc2
      cases hc2
    | true =>
      have hO : (defaulted now h (some (label, params, true, generated))).RefOriginal
          = some h.Ref := rfl
      refine ⟨⟨fun _ => ⟨u, label, params, generated, hu, hr, hres⟩, fun _ => ?_⟩, fun _ => hO⟩
      rw [hO]
      exact Option.some_ne_none _

/-- Witness of C11: the hit with the referrer `https://m.habr.com/x` and its parse comes out
of `Defaults` with `RefOriginal` set to that referrer; the classifier returned store=true. -/
theorem Defaults_RefOriginal_witness :
    ((parsedHit 1 "/".toList "https://m.habr.com/x".toList 0).Defaults URL.zero 1).map
      (fun h : Hit => (h.Ref, h.RefOriginal))
      = some ("habr.com/x".toList, some "https://m.habr.com/x".toList)
    ∧ ∃ u label params generated,
        (parsedHit 1 "/".toList "https://m.habr.com/x".toList 0).refURL = some u
        ∧ (parsedHit 1 "/".toList "https://m.habr.com/x".toList 0).Ref ≠ []
        ∧ cleanURL URL.zero (parsedHit 1 "/".toList "https://m.habr.com/x".toList 0).Ref u
            = some (label, params, true, generated) :=
  ⟨by decide,
   (Defaults_RefOriginal URL.zero 1 (parsedHit 1 "/".toList "https://m.habr.com/x".toList 0)
      (defaulted 1 (parsedHit 1 "/".toList "https://m.habr.com/x".toList 0)
        (some ("habr.com/x".toList, none, true, false)))
      rfl (by decide)).1.mp (by decide)⟩

/-- C11 fails as stated: `Defaults` never clears a field.  A hit that comes in with
`RefOriginal` set and the referrer `https://example.com/page`, for which the classifier
returns store=false, leaves with the `RefOriginal` it came with, which is not the
referrer. -/
theorem Defaults_RefOriginal_kept :
    cleanURL URL.zero "https://example.com/page".toList
      { URL.zero with Scheme := "https".toList, Host := "example.com".toList,
                      Path := "/page".toList }
      = some ("example.com/page".toList, none, false, false)
    ∧ ({ newHit 1 "/".toList "https://example.com/page".toList 0 with
          RefOriginal := some "kept".toList,
          refURL := some { URL.zero with Scheme := "https".toList, Host := "example.com".toList,
                                         Path := "/page".toList } }.Defaults URL.zero 1).map
        Hit.RefOriginal
      = some (some "kept".toList) := by
  decide
/-! ## Generated labels (C12) -/

theorem generatedLabels_of_group (g : group) (hm : g ∈ (hostGroups ++ pathGroups).map Prod.snd)
    (hg : g.Generated = true) : g.URL ∈ generatedLabels := by
  unfold generatedLabels
  exact List.mem_map.mpr ⟨g, List.mem_filter.mpr ⟨hm, hg⟩, rfl⟩

theorem groupings_generated (pkgRefURL u : URL) (g : grouping)
    (h : (groupings pkgRefURL).findSome? (fun grouping => grouping u) = some g)
    (hg : g.generated = true) : g.ref = "Google".toList ∧ g.params = none := by
  rw [findSome_groupings] at h
  cases h1 : groupingOreilly u with
  | some g1 =>
    rw [h1] at h
    cases h
    unfold groupingOreilly at h1
    split_ifs at h1
    cases h1
    cases hg
  | none =>
    rw [h1] at h
    cases h2 : groupingGoogle u with
    | some g2 =>
      rw [h2] at h
      cases h
      unfold groupingGoogle at h2
      split_ifs at h2
      cases h2
      exact ⟨rfl, rfl⟩
    | none =>
      rw [h2] at h
      cases h3 : groupingLobsters pkgRefURL u with
      | some g3 =>
        rw [h3] at h
        cases h
        unfold groupingLobsters at h3
        split_ifs at h3
        cases h3
        cases hg
      | none =>
        rw [h3] at h
        have h4 : groupingFeedly u = some g := h
        unfold groupingFeedly at h4
        split_ifs at h4
        · cases h4
          cases hg
        · split at h4
          · cases h4
          · cases h4
            cases hg

theorem cleanQuery_not_generated (r : Str) (u : URL) (changed : Bool) (label : Str)
    (params : Option Str) (store generated : Bool)
    (h : cleanQuery r u changed = some (label, params, store, generated)) : generated = false := by
  unfold cleanQuery at h
  split at h
  · simp only [Option.some.injEq, Prod.mk.injEq] at h
    exact h.2.2.2.symm
  · dsimp only at h
    split_ifs at h
    · simp only [Option.some.injEq, Prod.mk.injEq] at h
      exact h.2.2.2.symm
    · simp only [Option.map_eq_some', Prod.mk.injEq] at h
      obtain ⟨_, _, _, _, _, hg⟩ := h
      exact hg.symm
    · simp only [Option.map_eq_some', Prod.mk.injEq] at h
      obtain ⟨_, _, _, _, _, hg⟩ := h
      exact hg.symm

/-- Every return of `cleanURL` with generated=true has nil params and the label of a group
marked generated. -/
theorem cleanURL_generated_label (pkgRefURL : URL) (ref : Str) (u : URL) (label : Str)
    (params : Option Str) (store : Bool)
    (h : cleanURL pkgRefURL ref u = some (label, params, store, true)) :
    params = none ∧ label ∈ generatedLabels := by
  cases hs : stripScheme ref with
  | none => rw [cleanURL_panics pkgRefURL u hs] at h; cases h
  | some r =>
    cases hg : hostGroups.lookup (aliased u).Host with
    | some g =>
      rw [cleanURL_of_hostGroup pkgRefURL u hs hg] at h
      simp only [Option.some.injEq, Prod.mk.injEq] at h
      obtain ⟨hl, hp, _, hgen⟩ := h
      refine ⟨hp.symm, ?_⟩
      rw [← hl]
      exact generatedLabels_of_group g
        (by rw [List.map_append]
            exact List.mem_append_left _ (lookup_mem_values hostGroups _ g hg)) hgen
    | none =>
      cases hp : pathGroups.lookup (pathJoin [(aliased u).Host, (aliased u).Path]) with
      | some g =>
        rw [cleanURL_of_pathGroup pkgRefURL u hs hg hp] at h
        simp only [Option.some.injEq, Prod.mk.injEq] at h
        obtain ⟨hl, hp2, _, hgen⟩ := h
        refine ⟨hp2.symm, ?_⟩
        rw [← hl]
        exact generatedLabels_of_group g
          (by rw [List.map_append]
              exact List.mem_append_right _ (lookup_mem_values pathGroups _ g hp)) hgen
      | none =>
        cases hr : (groupings pkgRefURL).findSome? (fun grouping => grouping (aliased u)) with
        | some g =>
          rw [cleanURL_of_grouping pkgRefURL u hs hg hp hr] at h
          simp only [Option.some.injEq, Prod.mk.injEq] at h
          obtain ⟨hl, hp2, _, hgen⟩ := h
          have := groupings_generated pkgRefURL _ g hr hgen
          refine ⟨by rw [← hp2]; exact this.2, ?_⟩
          rw [← hl, this.1]
          decide
        | none =>
          rw [cleanURL_of_no_group pkgRefURL u hs hg hp hr] at h
          have := cleanQuery_not_generated _ _ _ _ _ _ _ h
          cases this

theorem Defaults_generated_aux (now : Time) (h : Hit) (u : URL) (hu : h.refURL = some u)
    (label : Str) (params : Option Str) (store generated : Bool)
    (hg : (defaulted now h (some (label, params, store, generated))).RefScheme
      = RefSchemeGenerated) : generated = true := by
  cases generated with
  | true => rfl
  | false =>
    exfalso
    have hS : (defaulted now h (some (label, params, store, false))).RefScheme
        = if u.Scheme = "http".toList ∨ u.Scheme = "https".toList
          then RefSchemeHTTP else RefSchemeOther := by
      simp only [defaulted, hu]
    rw [hS] at hg
    split_ifs at hg <;> exact absurd hg (by decide)

/-- C12: for a hit with a non-empty referrer and a URL, when `RefScheme` is GENERATED after
`Defaults`, `cleanURL` returned generated=true, `RefParams` is nil and `Ref` is the label
of an entry of `hostGroups` or `pathGroups` marked generated: one of six names, none of
which holds a `/` or a `.`.  Likewise, every return of `cleanURL` with generated=true has
nil params and such a label. -/
theorem Defaults_generated (pkgRefURL : URL) :
    (∀ ref u label params store,
        cleanURL pkgRefURL ref u = some (label, params, store, true) →
          params = none ∧ label ∈ generatedLabels)
    ∧ (∀ (now : Time) (h h' : Hit) (u : URL), h.Ref ≠ [] → h.refURL = some u →
        h.Defaults pkgRefURL now = some h' → h'.RefScheme = RefSchemeGenerated →
          h'.RefParams = none ∧ h'.Ref ∈ generatedLabels
          ∧ ∃ store, cleanURL pkgRefURL h.Ref u = some (h'.Ref, none, store, true))
    ∧ (∀ l ∈ generatedLabels,
        l ∈ ["Hacker News".toList, "Email".toList, "Google".toList, "Slack Chat".toList,
             "RSS".toList, "Telegram Messenger".toList]
        ∧ '/' ∉ l ∧ '.' ∉ l) := by
  refine ⟨fun ref u label params store h => cleanURL_generated_label pkgRefURL ref u _ _ _ h,
    ?_, by decide⟩
  intro now h h' u hr hu hd hg
  rcases Hit.Defaults_cases pkgRefURL now h h' hd with ⟨_, hno⟩ | ⟨u2, res, hu2, _, hres, rfl⟩
  · rcases hno with hno | hno
    · rw [hno] at hu; cases hu
    · exact absurd hno hr
  · rw [hu] at hu2
    cases hu2
    obtain ⟨label, params, store, generated⟩ := res
    have hgen := Defaults_generated_aux now h u hu label params store generated hg
    subst hgen
    obtain ⟨hp, hl⟩ := cleanURL_generated_label pkgRefURL h.Ref u label params store hres
    subst hp
    have htrim : ∀ l ∈ generatedLabels, stringsTrimRight l ['/'] = l := by decide
    have hRef : (defaulted now h (some (label, none, store, true))).Ref = label :=
      htrim label hl
    refine ⟨rfl, ?_, store, ?_⟩
    · rw [hRef]; exact hl
    · rw [hRef]; exact hres

/-- Witness of C12: `https://www.google.co.uk/search?q=x` leaves `Defaults` with
`RefScheme` GENERATED, the label `Google` and nil params. -/
theorem Defaults_generated_witness :
    ((parsedHit 1 "/".toList "https://www.google.co.uk/search?q=x".toList 0).Defaults
        URL.zero 1).map (fun h : Hit => (h.Ref, h.RefParams, h.RefScheme))
      = some ("Google".toList, none, RefSchemeGenerated)
    ∧ "Google".toList ∈ generatedLabels :=
  ⟨by decide,
   ((Defaults_generated URL.zero).2.1 1
      (parsedHit 1 "/".toList "https://www.google.co.uk/search?q=x".toList 0)
      (defaulted 1 (parsedHit 1 "/".toList "https://www.google.co.uk/search?q=x".toList 0)
        (some ("Google".toList, none, true, true)))
      { URL.zero with Scheme := "https".toList, Host := "www.google.co.uk".toList,
                      Path := "/search".toList, RawQuery := "q=x".toList }
      (by decide) (by decide) (by decide) (by decide)).2.1⟩
/-! ## The trailing slashes of the label (C17) -/

theorem stringsTrimRight_append_slash (s : Str) :
    stringsTrimRight (s ++ ['/']) ['/'] = stringsTrimRight s ['/'] := by
  unfold stringsTrimRight
  rw [List.reverse_append]
  rfl

theorem stringsTrimRight_replicate (s : Str) (k : Nat) :
    stringsTrimRight (s ++ List.replicate k '/') ['/'] = stringsTrimRight s ['/'] := by
  induction k with
  | zero => simp
  | succ k ih =>
    rw [List.replicate_succ', ← List.append_assoc, stringsTrimRight_append_slash, ih]

theorem stringsTrimRight_decompose (s : Str) :
    ∃ k, s = stringsTrimRight s ['/'] ++ List.replicate k '/' := by
  have key : ∀ l : Str, ∃ k, l = List.replicate k '/' ++ l.dropWhile (fun c => ['/'].contains c) := by
    intro l
    induction l with
    | nil => exact ⟨0, rfl⟩
    | cons c t ih =>
      by_cases hc : c = '/'
      · subst hc
        obtain ⟨k, hk⟩ := ih
        refine ⟨k + 1, ?_⟩
        rw [List.dropWhile_cons_of_pos (by decide), List.replicate_succ, List.cons_append, ← hk]
      · refine ⟨0, ?_⟩
        rw [List.dropWhile_cons_of_neg (by simpa using hc)]
        rfl
  obtain ⟨k, hk⟩ := key s.reverse
  refine ⟨k, ?_⟩
  unfold stringsTrimRight
  have := congrArg List.reverse hk
  rw [List.reverse_reverse, List.reverse_append, List.reverse_replicate] at this
  exact this

/-- C17, as the code has it: the final `Ref` is the label (what `cleanURL` returned, or the
`Ref` on entry when the classifier was not run) without all of its trailing slashes: the
label is the final `Ref` followed by slashes only, and the final `Ref` does not end in a
slash. -/
theorem Defaults_Ref_trimmed (pkgRefURL : URL) (now : Time) (h h' : Hit)
    (hd : h.Defaults pkgRefURL now = some h') :
    ∃ label, ((h.refURL = none ∨ h.Ref = []) ∧ label = h.Ref
              ∨ ∃ u params store generated, h.refURL = some u ∧ h.Ref ≠ []
                  ∧ cleanURL pkgRefURL h.Ref u = some (label, params, store, generated))
      ∧ h'.Ref = stringsTrimRight label ['/']
      ∧ (∃ k, label = h'.Ref ++ List.replicate k '/')
      ∧ h'.Ref.getLast? ≠ some '/' := by
  have hlast : ∀ label : Str, (stringsTrimRight label ['/']).getLast? ≠ some '/' := by
    intro label hl
    exact absurd (stringsTrimRight_getLast _ _ _ hl) (by decide)
  rcases Hit.Defaults_cases pkgRefURL now h h' hd with ⟨rfl, hno⟩ | ⟨u, res, hu, hr, hres, rfl⟩
  · exact ⟨h.Ref, Or.inl ⟨hno, rfl⟩, rfl, stringsTrimRight_decompose h.Ref, hlast _⟩
  · obtain ⟨label, params, store, generated⟩ := res
    exact ⟨label, Or.inr ⟨u, params, store, generated, hu, hr, hres⟩, rfl,
      stringsTrimRight_decompose label, hlast _⟩

/-- Witness of C17: `https://example.com/a/` is labelled `example.com/a/` by `cleanURL` and
leaves `Defaults` as `example.com/a`. -/
theorem Defaults_Ref_trimmed_witness :
    ((parsedHit 1 "/".toList "https://example.com/a/".toList 0).Defaults URL.zero 1).map Hit.Ref
      = some "example.com/a".toList
    ∧ ∃ label, ((((parsedHit 1 "/".toList "https://example.com/a/".toList 0).refURL = none
        ∨ (parsedHit 1 "/".toList "https://example.com/a/".toList 0).Ref = []) ∧
          label = (parsedHit 1 "/".toList "https://example.com/a/".toList 0).Ref)
        ∨ ∃ u params store generated,
            (parsedHit 1 "/".toList "https://example.com/a/".toList 0).refURL = some u
            ∧ (parsedHit 1 "/".toList "https://example.com/a/".toList 0).Ref ≠ []
            ∧ cleanURL URL.zero (parsedHit 1 "/".toList "https://example.com/a/".toList 0).Ref u
                = some (label, params, store, generated))
      ∧ (defaulted 1 (parsedHit 1 "/".toList "https://example.com/a/".toList 0)
          (some ("example.com/a/".toList, none, false, false))).Ref
          = stringsTrimRight label ['/']
      ∧ (∃ k, label = (defaulted 1 (parsedHit 1 "/".toList "https://example.com/a/".toList 0)
          (some ("example.com/a/".toList, none, false, false))).Ref ++ List.replicate k '/')
      ∧ (defaulted 1 (parsedHit 1 "/".toList "https://example.com/a/".toList 0)
          (some ("example.com/a/".toList, none, false, false))).Ref.getLast? ≠ some '/' :=
  ⟨by decide,
   Defaults_Ref_trimmed URL.zero 1 (parsedHit 1 "/".toList "https://example.com/a/".toList 0)
     (defaulted 1 (parsedHit 1 "/".toList "https://example.com/a/".toList 0)
       (some ("example.com/a/".toList, none, false, false)))
     (by decide)⟩

/-- C17 fails as stated: `strings.TrimRight` removes every trailing slash, not one.
`https://example.com/a//` is labelled `example.com/a//` by `cleanURL`, and `Defaults`
leaves `example.com/a`, not `example.com/a/`. -/
theorem Defaults_Ref_trims_all :
    Parse "https://example.com/a//".toList
      = some { URL.zero with Scheme := "https".toList, Host := "example.com".toList,
                             Path := "/a//".toList }
    ∧ cleanURL URL.zero "https://example.com/a//".toList
        { URL.zero with Scheme := "https".toList, Host := "example.com".toList,
                        Path := "/a//".toList }
      = some ("example.com/a//".toList, none, false, false)
    ∧ ((parsedHit 1 "/".toList "https://example.com/a//".toList 0).Defaults URL.zero 1).map
        Hit.Ref = some "example.com/a".toList
    ∧ "example.com/a".toList ≠ "example.com/a/".toList := by
  decide
/-! ## Feedly subscriptions (C19) -/

/-- C19 fails on the code: the Feedly rule looks for `%2F` in `ref.Path`, which `url.Parse`
has already decoded.  The subscription referrer of the comment in `refgroups.go` parses to
the path `/i/subscription/feed/http://afreshcup.com/feed/`, the prefix test fails, the rule
returns nil, and `cleanURL` labels the referrer with the whole escaped URL instead of the
feed `http://afreshcup.com/feed/`.  The rule decodes only a doubly escaped `%252F`. -/
theorem groupingFeedly_subscription_not_decoded :
    Parse "https://feedly.com/i/subscription/feed%2Fhttp%3A%2F%2Fafreshcup.com%2Ffeed%2F".toList
      = some { URL.zero with
          Scheme := "https".toList, Host := "feedly.com".toList,
          Path := "/i/subscription/feed/http://afreshcup.com/feed/".toList,
          RawPath := "/i/subscription/feed%2Fhttp%3A%2F%2Fafreshcup.com%2Ffeed%2F".toList }
    ∧ groupingFeedly { URL.zero with
          Host := "feedly.com".toList,
          Path := "/i/subscription/feed/http://afreshcup.com/feed/".toList,
          RawPath := "/i/subscription/feed%2Fhttp%3A%2F%2Fafreshcup.com%2Ffeed%2F".toList } = none
    ∧ (∀ pkgRefURL : URL, pkgRefURL.Host ≠ "lobste.rs".toList →
        cleanURL pkgRefURL
          "https://feedly.com/i/subscription/feed%2Fhttp%3A%2F%2Fafreshcup.com%2Ffeed%2F".toList
          { URL.zero with
            Scheme := "https".toList, Host := "feedly.com".toList,
            Path := "/i/subscription/feed/http://afreshcup.com/feed/".toList,
            RawPath := "/i/subscription/feed%2Fhttp%3A%2F%2Fafreshcup.com%2Ffeed%2F".toList }
        = some ("feedly.com/i/subscription/feed%2Fhttp%3A%2F%2Fafreshcup.com%2Ffeed%2F".toList,
                none, false, false))
    ∧ "feedly.com/i/subscription/feed%2Fhttp%3A%2F%2Fafreshcup.com%2Ffeed%2F".toList
        ≠ "http://afreshcup.com/feed/".toList
    ∧ (Parse
        "https://feedly.com/i/subscription/feed%252Fhttp%3A%2F%2Fafreshcup.com%2Ffeed%2F".toList).bind
        (fun u => cleanURL u
          "https://feedly.com/i/subscription/feed%252Fhttp%3A%2F%2Fafreshcup.com%2Ffeed%2F".toList
          u)
      = some ("http://afreshcup.com/feed/".toList, none, false, false) := by
  refine ⟨by decide, by decide, ?_, by decide, by decide⟩
  intro pkgRefURL hl
  have h3 : ∀ u, groupingLobsters pkgRefURL u = none := by
    intro u
    unfold groupingLobsters
    rw [if_neg (fun h => hl h.1)]
  rw [cleanURL_of_no_group (r := "feedly.com/i/subscription/feed%2Fhttp%3A%2F%2Fafreshcup.com%2Ffeed%2F".toList)
    pkgRefURL _ (by decide) (by decide) (by decide)
    (by rw [findSome_groupings, h3]; decide)]
  decide
/-! ## The Lobsters rule (C18) -/

/-- The query stage on a referrer without `?`, for a URL with a host and without scheme,
opaque part, userinfo, query and fragment. -/
theorem cleanQuery_plain (r : Str) (u : URL) (changed : Bool)
    (hq : stringsIndex r ['?'] = none)
    (hs : u.Scheme = []) (ho : u.Opaque = []) (hh : u.Host ≠ []) (hu : u.User = none)
    (hf : u.ForceQuery = false) (hfr : u.Fragment = []) (hrq : u.RawQuery = []) :
    cleanQuery r u changed = some (escape u.Host encodeHost ++ pathPart u, none, changed, false) := by
  have hstr := URL.String_plain u hs ho hh hu hf hfr hrq
  unfold cleanQuery
  rw [hq]
  dsimp only
  rw [hstr]
  have hX : (escape u.Host encodeHost ++ pathPart u).head? ≠ some '/' := by
    cases hE : escape u.Host encodeHost with
    | nil =>
      exfalso
      cases hH : u.Host with
      | nil => exact hh hH
      | cons c t =>
        rw [hH] at hE
        simp only [escape, List.flatMap_cons] at hE
        have hm : ¬ (c = ' ' ∧ encodeHost = encodeQueryComponent) := fun h => by cases h.2
        rw [if_neg hm] at hE
        split_ifs at hE <;> simp at hE
    | cons a l =>
      have := escape_host_head u.Host
      rw [hE] at this
      simpa using this
  have hT : stringsTrimLeft ('/' :: '/' :: (escape u.Host encodeHost ++ pathPart u)) ['/']
      = escape u.Host encodeHost ++ pathPart u := by
    unfold stringsTrimLeft
    rw [List.dropWhile_cons_of_pos (by decide), List.dropWhile_cons_of_pos (by decide)]
    cases hL : escape u.Host encodeHost ++ pathPart u with
    | nil => rfl
    | cons a l =>
      rw [hL] at hX
      have ha : a ≠ '/' := fun h => hX (by rw [h]; rfl)
      rw [List.dropWhile_cons_of_neg]
      simp [ha]
  rw [hT]

theorem pathPart_of_plain_path (u : URL) (hr : u.RawPath = [])
    (he : escape u.Path encodePath = u.Path) (hp : u.Path.head? = some '/') :
    pathPart u = u.Path := by
  have hE : u.EscapedPath = u.Path := by
    unfold URL.EscapedPath
    rw [if_neg (fun h => h.1 hr)]
    split_ifs with h1
    · exact h1.symm
    · exact he
  unfold pathPart
  rw [hE, if_neg (fun h => h.2 hp)]
  rfl

/-- C18, as the code has it once the Lobsters rule reads its own argument.  For a referrer
with the host `lobste.rs` that no path group takes:
when the path does not begin with `/s/`, `cleanURL` returns the label `lobste.rs`, nil
params, store=true, generated=false;
when it does, the rule does not match, and for a referrer without `?`, parsed to a URL
without opaque part, userinfo, query and fragment, `cleanURL` returns the label `lobste.rs`
followed by the escaped path (the path itself when nothing in it needs escaping), nil
params, store=false. -/
theorem cleanURL_lobsters (ref : Str) (u : URL)
    (hs : stripScheme ref ≠ none ∨ Parse ref = some u)
    (hh : u.Host = "lobste.rs".toList)
    (hp : pathGroups.lookup (pathJoin [u.Host, u.Path]) = none) :
    ("/s/".toList.isPrefixOf u.Path = false →
        cleanURLBound ref u = some ("lobste.rs".toList, none, true, false))
    ∧ ("/s/".toList.isPrefixOf u.Path = true →
        groupingLobsters (aliased u) (aliased u) = none
        ∧ ∀ r, stripScheme ref = some r → stringsIndex r ['?'] = none →
            u.Opaque = [] → u.User = none → u.Fragment = [] → u.ForceQuery = false →
            u.RawQuery = [] →
            cleanURLBound ref u = some ("lobste.rs".toList ++ pathPart u, none, false, false)
            ∧ (u.RawPath = [] → escape u.Path encodePath = u.Path → pathPart u = u.Path)) := by
  have hs2 : stripScheme ref ≠ none :=
    stripScheme_of_either ref u hs (by rw [hh]; decide)
  obtain ⟨r0, hr0⟩ := stripScheme_some hs2
  have ha : (aliased u).Host = "lobste.rs".toList := by
    rw [aliased_Host, hh]; rfl
  have hg : hostGroups.lookup (aliased u).Host = none := by rw [ha]; decide
  have hp2 : pathGroups.lookup (pathJoin [(aliased u).Host, (aliased u).Path]) = none := by
    rw [ha, aliased_Path, ← hh]; exact hp
  have h1 : groupingOreilly (aliased u) = none := by
    unfold groupingOreilly
    rw [ha, if_pos (by decide)]
  have h2 : groupingGoogle (aliased u) = none := by
    unfold groupingGoogle
    rw [ha, if_pos (by decide)]
  constructor
  · intro hpre
    have h3 : groupingLobsters (aliased u) (aliased u)
        = some { ref := "lobste.rs".toList, params := none, store := true, generated := false } := by
      unfold groupingLobsters
      rw [if_pos ⟨ha, by rw [aliased_Path, hpre]; exact Bool.false_ne_true⟩]
    have hf : (groupings (aliased u)).findSome? (fun grouping => grouping (aliased u))
        = some { ref := "lobste.rs".toList, params := none, store := true, generated := false } := by
      rw [findSome_groupings, h1, h2, h3]; rfl
    exact cleanURL_of_grouping (aliased u) u hr0 hg hp2 hf
  · intro hpre
    have h3 : groupingLobsters (aliased u) (aliased u) = none := by
      unfold groupingLobsters
      rw [if_neg (fun h => h.2 (by rw [aliased_Path]; exact hpre))]
    refine ⟨h3, ?_⟩
    intro r hr hq ho hu hfr hf hrq
    have h4 : groupingFeedly (aliased u) = none :=
      groupingFeedly_none _ (by rw [ha]; decide)
    have hf0 : (groupings (aliased u)).findSome? (fun grouping => grouping (aliased u)) = none := by
      rw [findSome_groupings, h1, h2, h3, h4]; rfl
    have hnr : redditTrim (aliased u) = (false, aliased u) := by
      unfold redditTrim
      rw [if_neg (by rw [ha]; decide)]
    have hch : (normalizeHost { u with Scheme := [] }).1 = false := by
      rw [normalizeHost_changed, hh]; decide
    have hPP : pathPart (aliased u) = pathPart u := by
      simp only [aliased, normalizeHost]
      cases hostAlias.lookup u.Host <;> rfl
    refine ⟨?_, fun hraw he => pathPart_of_plain_path u hraw he ?_⟩
    · unfold cleanURLBound
      rw [cleanURL_of_no_group (aliased u) u hr hg hp2 hf0, hnr, hch]
      rw [cleanQuery_plain r (aliased u) _ hq (aliased_Scheme u)
        (by rw [aliased_Opaque, ho]) (by rw [ha]; decide)
        (by rw [(aliased_rest u).1, hu]) (by rw [(aliased_rest u).2.1, hf])
        (by rw [(aliased_rest u).2.2.1, hfr]) (by rw [(aliased_rest u).2.2.2, hrq])]
      rw [ha, hPP]
      rfl
    · obtain ⟨t, ht⟩ := List.isPrefixOf_iff_prefix.mp hpre
      rw [← ht]
      rfl

/-- Witness of C18: the listing page `https://lobste.rs/newest/page/8` is labelled
`lobste.rs` and stored; the story `https://lobste.rs/s/tslw6k/why_i_m_still_using_jquery_2019`
keeps its path and is not stored. -/
theorem cleanURL_lobsters_witness :
    cleanURLBound "https://lobste.rs/newest/page/8".toList
        { URL.zero with Scheme := "https".toList, Host := "lobste.rs".toList,
                        Path := "/newest/page/8".toList }
      = some ("lobste.rs".toList, none, true, false)
    ∧ cleanURLBound "https://lobste.rs/s/tslw6k/why_i_m_still_using_jquery_2019".toList
        { URL.zero with Scheme := "https".toList, Host := "lobste.rs".toList,
                        Path := "/s/tslw6k/why_i_m_still_using_jquery_2019".toList }
      = some ("lobste.rs/s/tslw6k/why_i_m_still_using_jquery_2019".toList, none, false, false) :=
  ⟨(cleanURL_lobsters "https://lobste.rs/newest/page/8".toList
      { URL.zero with Scheme := "https".toList, Host := "lobste.rs".toList,
                      Path := "/newest/page/8".toList }
      (Or.inr (by decide)) rfl (by decide)).1 (by decide),
   (((cleanURL_lobsters "https://lobste.rs/s/tslw6k/why_i_m_still_using_jquery_2019".toList
      { URL.zero with Scheme := "https".toList, Host := "lobste.rs".toList,
                      Path := "/s/tslw6k/why_i_m_still_using_jquery_2019".toList }
      (Or.inr (by decide)) rfl (by decide)).2 (by decide)).2
      "lobste.rs/s/tslw6k/why_i_m_still_using_jquery_2019".toList
      (by decide) (by decide) rfl rfl rfl rfl rfl).1.trans (by decide)⟩

/-- C18 fails as stated, also with the rule bound to its argument.  The path of
`https://lobste.rs/../www.linkedin.com/feed` does not begin with `/s/`, but `path.Join`
makes the key `www.linkedin.com/feed` of `pathGroups` of it, and that entry is returned
before the rule is asked.  The story `https://lobste.rs/s/a b` is labelled
`lobste.rs/s/a%20b`, the URL written out again, not `lobste.rs` followed by its path. -/
theorem cleanURL_lobsters_counterexample :
    Parse "https://lobste.rs/../www.linkedin.com/feed".toList
      = some { URL.zero with Scheme := "https".toList, Host := "lobste.rs".toList,
                             Path := "/../www.linkedin.com/feed".toList }
    ∧ "/s/".toList.isPrefixOf "/../www.linkedin.com/feed".toList = false
    ∧ cleanURLBound "https://lobste.rs/../www.linkedin.com/feed".toList
        { URL.zero with Scheme := "https".toList, Host := "lobste.rs".toList,
                        Path := "/../www.linkedin.com/feed".toList }
      = some ("www.linkedin.com".toList, none, true, false)
    ∧ Parse "https://lobste.rs/s/a b".toList
      = some { URL.zero with Scheme := "https".toList, Host := "lobste.rs".toList,
                             Path := "/s/a b".toList, RawPath := "/s/a b".toList }
    ∧ cleanURLBound "https://lobste.rs/s/a b".toList
        { URL.zero with Scheme := "https".toList, Host := "lobste.rs".toList,
                        Path := "/s/a b".toList, RawPath := "/s/a b".toList }
      = some ("lobste.rs/s/a%20b".toList, none, false, false)
    ∧ "lobste.rs/s/a%20b".toList ≠ "lobste.rs".toList ++ "/s/a b".toList := by
  decide

/-! ## `path.Clean` keeps the last element -/

theorem endsWithElem_tail (e : Str) (c : Char) (t : Str) (h : endsWithElem e (c :: t))
    (hne : c :: t ≠ e) : endsWithElem e t := by
  rcases h with h | ⟨a, ha⟩
  · exact absurd h hne
  · cases a with
    | nil =>
      simp only [List.nil_append, List.cons.injEq] at ha
      exact Or.inl ha.2
    | cons x a' =>
      simp only [List.cons_append, List.cons.injEq] at ha
      exact Or.inr ⟨a', ha.2⟩

theorem endsWithElem_dropWhile (e : Str) (a : Str) :
    ∃ a', (a ++ '/' :: e).dropWhile (fun x => decide (x ≠ '/')) = a' ++ '/' :: e := by
  induction a with
  | nil =>
    refine ⟨[], ?_⟩
    rw [List.nil_append, List.dropWhile_cons_of_neg (by simp)]
  | cons x a ih =>
    by_cases hx : x = '/'
    · refine ⟨x :: a, ?_⟩
      rw [List.cons_append, List.dropWhile_cons_of_neg (by simp [hx])]
    · obtain ⟨a', ha'⟩ := ih
      refine ⟨a', ?_⟩
      rw [List.cons_append, List.dropWhile_cons_of_pos (by simpa using hx)]
      exact ha'

theorem takeWhile_no_slash (e : Str) (he : '/' ∉ e) :
    e.takeWhile (fun x => decide (x ≠ '/')) = e ∧ e.dropWhile (fun x => decide (x ≠ '/')) = [] := by
  induction e with
  | nil => exact ⟨rfl, rfl⟩
  | cons x e ih =>
    have hx : x ≠ '/' := fun h => he (by rw [h]; exact List.mem_cons_self _ _)
    have he' : '/' ∉ e := fun h => he (List.mem_cons_of_mem _ h)
    rw [List.takeWhile_cons_of_pos (by simpa using hx),
      List.dropWhile_cons_of_pos (by simpa using hx)]
    exact ⟨by rw [(ih he').1], (ih he').2⟩

theorem cleanLoop_nil (rooted : Bool) (fuel : Nat) (st : CleanState) :
    cleanLoop rooted fuel [] st = st := by
  cases fuel <;> rfl

/-- When the last element of `rest` is a real element `e` (not empty, without slash, neither
`.` nor `..`), the buffer of `path.Clean` ends in `e`. -/
theorem cleanLoop_suffix (rooted : Bool) (e : Str) (he0 : e ≠ []) (he1 : '/' ∉ e)
    (he2 : e ≠ ['.']) (he3 : e ≠ ['.', '.']) (fuel : Nat) :
    ∀ (rest : Str) (st : CleanState), rest.length ≤ fuel → endsWithElem e rest →
      e <:+ (cleanLoop rooted fuel rest st).out := by
  induction fuel with
  | zero =>
    intro rest st hl hf
    have hr : rest = [] := List.length_eq_zero.mp (Nat.le_zero.mp hl)
    rcases hf with h | ⟨a, ha⟩
    · exact absurd (h.symm.trans hr) he0
    · rw [hr] at ha
      simp at ha
  | succ fuel ih =>
    intro rest st hl hf
    cases rest with
    | nil =>
      rcases hf with h | ⟨a, ha⟩
      · exact absurd h.symm he0
      · simp at ha
    | cons c t =>
      simp only [List.length_cons, Nat.add_le_add_iff_right] at hl
      unfold cleanLoop
      by_cases h1 : c = '/'
      · rw [if_pos h1]
        have hne : c :: t ≠ e := fun h => he1 (by rw [← h, h1]; exact List.mem_cons_self _ _)
        exact ih t st hl (endsWithElem_tail e c t hf hne)
      · rw [if_neg h1]
        by_cases h2 : c = '.' ∧ (t = [] ∨ t.head? = some '/')
        · rw [if_pos h2]
          have hne : c :: t ≠ e := by
            intro h
            rcases h2.2 with ht | ht
            · exact he2 (by rw [← h, h2.1, ht])
            · cases t with
              | nil => simp at ht
              | cons x t' =>
                simp only [List.head?_cons, Option.some.injEq] at ht
                exact he1 (by rw [← h, ht]; simp)
          exact ih t st hl (endsWithElem_tail e c t hf hne)
        · rw [if_neg h2]
          by_cases h3 : c = '.' ∧ t.head? = some '.'
              ∧ (t.drop 1 = [] ∨ (t.drop 1).head? = some '/')
          · rw [if_pos h3]
            cases t with
            | nil => simp at h3
            | cons x t2 =>
              simp only [List.head?_cons, Option.some.injEq, List.drop_succ_cons,
                List.drop_zero] at h3
              obtain ⟨hc, hx, h32⟩ := h3
              have hne2 : x :: t2 ≠ e := by
                intro h
                rcases h32 with ht | ht
                · exact he2 (by rw [← h, hx, ht])
                · cases t2 with
                  | nil => simp at ht
                  | cons y t3 =>
                    simp only [List.head?_cons, Option.some.injEq] at ht
                    exact he1 (by rw [← h, ht]; simp)
              have hne : c :: x :: t2 ≠ e := by
                intro h
                rcases h32 with ht | ht
                · exact he3 (by rw [← h, hc, hx, ht])
                · cases t2 with
                  | nil => simp at ht
                  | cons y t3 =>
                    simp only [List.head?_cons, Option.some.injEq] at ht
                    exact he1 (by rw [← h, ht]; simp)
              simp only [List.length_cons] at hl
              exact ih t2 _ (by omega)
                (endsWithElem_tail e x t2 (endsWithElem_tail e c (x :: t2) hf hne) hne2)
          · rw [if_neg h3]
            rcases hf with h | ⟨a, ha⟩
            · rw [h, (takeWhile_no_slash e he1).1, (takeWhile_no_slash e he1).2, cleanLoop_nil]
              unfold cleanElem
              exact List.suffix_append _ _
            · obtain ⟨a', ha'⟩ := endsWithElem_dropWhile e a
              have hd : (c :: t).dropWhile (fun x => decide (x ≠ '/'))
                  = t.dropWhile (fun x => decide (x ≠ '/')) :=
                List.dropWhile_cons_of_pos (by simpa using h1)
              have hlen : ((c :: t).dropWhile (fun x => decide (x ≠ '/'))).length ≤ fuel := by
                rw [hd]
                exact Nat.le_trans (List.dropWhile_suffix _).length_le hl
              refine ih _ _ hlen (Or.inr ⟨a', ?_⟩)
              rw [ha, ha']

theorem pathClean_suffix (e : Str) (he0 : e ≠ []) (he1 : '/' ∉ e)
    (he2 : e ≠ ['.']) (he3 : e ≠ ['.', '.']) (s : Str) (hs : endsWithElem e s) :
    e <:+ pathClean s := by
  cases s with
  | nil =>
    rcases hs with h | ⟨a, ha⟩
    · exact absurd h.symm he0
    · simp at ha
  | cons c t =>
    have hne : e.length ≠ 0 := fun h => he0 (List.length_eq_zero.mp h)
    by_cases hr : c = '/'
    · have hne2 : c :: t ≠ e := fun h => he1 (by rw [← h, hr]; exact List.mem_cons_self _ _)
      have := cleanLoop_suffix true e he0 he1 he2 he3 ((c :: t).length + 1) t
        { out := ['/'], dotdot := 1 } (by simp only [List.length_cons]; omega)
        (endsWithElem_tail e c t hs hne2)
      simp only [pathClean, hr, decide_True, if_true]
      simp only [hr] at this
      rw [if_neg]
      · exact this
      · intro h0
        have := List.IsSuffix.length_le this
        omega
    · have := cleanLoop_suffix false e he0 he1 he2 he3 ((c :: t).length + 1) (c :: t)
        { out := [], dotdot := 0 } (by omega) hs
      simp only [pathClean, hr, decide_False, Bool.false_eq_true, if_false]
      rw [if_neg]
      · exact this
      · intro h0
        have := List.IsSuffix.length_le this
        omega

theorem endsWithElem_decompose (l : Str) :
    ∃ e, '/' ∉ e ∧ ∀ s : Str, endsWithElem (e ++ s) (l ++ s) := by
  induction l with
  | nil => exact ⟨[], by simp, fun s => Or.inl rfl⟩
  | cons c t ih =>
    obtain ⟨e, he, hs⟩ := ih
    by_cases hc : '/' ∈ c :: t
    · refine ⟨e, he, fun s => ?_⟩
      rcases hs s with h | ⟨a, ha⟩
      · have ht : t = e := List.append_cancel_right h
        have hc2 : c = '/' := by
          rcases List.mem_cons.mp hc with h1 | h1
          · exact h1.symm
          · exact absurd (ht ▸ h1) he
        refine Or.inr ⟨[], ?_⟩
        rw [List.cons_append, h, hc2]
        rfl
      · refine Or.inr ⟨c :: a, ?_⟩
        rw [List.cons_append, ha]
        rfl
    · exact ⟨c :: t, hc, fun s => Or.inl rfl⟩

theorem endsWithElem_join (e x s : Str) (h : endsWithElem e s) :
    endsWithElem e (x ++ '/' :: s) := by
  rcases h with h | ⟨a, ha⟩
  · exact Or.inr ⟨x, by rw [h]⟩
  · refine Or.inr ⟨x ++ '/' :: a, ?_⟩
    rw [ha]
    simp

theorem pathGroups_none_of_suffix (sfx k : Str)
    (hs : sfx ∈ ["top".toList, "new".toList, ".compact".toList]) (h : sfx <:+ k) :
    pathGroups.lookup k = none := by
  cases hk : pathGroups.lookup k with
  | none => rfl
  | some g =>
    exfalso
    have hall : ∀ k ∈ pathGroups.map Prod.fst,
        ∀ sfx ∈ ["top".toList, "new".toList, ".compact".toList], sfx.isSuffixOf k = false := by
      decide
    have hf := hall k (lookup_mem_keys pathGroups k g hk) sfx hs
    have ht : sfx.isSuffixOf k = true := List.isSuffixOf_iff_suffix.mpr h
    rw [hf] at ht
    exact Bool.false_ne_true ht

/-- No path group takes one of the four Reddit shapes: `path.Clean` keeps the last element
of the path, and no key of `pathGroups` ends in `top`, `new` or `.compact`. -/
theorem pathGroups_reddit (host P shape : Str) (hh : host ≠ [])
    (hshape : shape ∈ redditShapes P) :
    pathGroups.lookup (pathJoin [host, shape]) = none := by
  have hj : pathJoin [host, shape] = pathClean (host ++ '/' :: shape) := by
    simp only [pathJoin, joinSlash]
    rw [if_pos hh]
  rw [hj]
  have key : ∀ (e sfx : Str), sfx ∈ ["top".toList, "new".toList, ".compact".toList] →
      sfx <:+ e → '/' ∉ e → endsWithElem e shape →
      pathGroups.lookup (pathClean (host ++ '/' :: shape)) = none := by
    intro e sfx hsfx hse he hends
    have he0 : e ≠ [] := by
      intro h0
      rw [h0] at hse
      have := List.IsSuffix.length_le hse
      simp only [List.mem_cons, List.mem_singleton, List.not_mem_nil, or_false] at hsfx
      rcases hsfx with h | h | h <;> rw [h] at this <;> simp at this
    have he2 : e ≠ ['.'] := by
      intro h0
      rw [h0] at hse
      have := List.IsSuffix.length_le hse
      simp only [List.mem_cons, List.mem_singleton, List.not_mem_nil, or_false] at hsfx
      rcases hsfx with h | h | h <;> rw [h] at this <;> simp at this
    have he3 : e ≠ ['.', '.'] := by
      intro h0
      rw [h0] at hse
      have := List.IsSuffix.length_le hse
      simp only [List.mem_cons, List.mem_singleton, List.not_mem_nil, or_false] at hsfx
      rcases hsfx with h | h | h <;> rw [h] at this <;> simp at this
    exact pathGroups_none_of_suffix sfx _ hsfx
      (hse.trans (pathClean_suffix e he0 he he2 he3 _ (endsWithElem_join e host shape hends)))
  simp only [redditShapes, List.mem_cons, List.mem_singleton, List.not_mem_nil, or_false] at hshape
  rcases hshape with h | h | h | h
  · exact key "top".toList "top".toList (by simp) (List.suffix_refl _) (by decide)
      (Or.inr ⟨P, by rw [h]; rfl⟩)
  · exact key "new".toList "new".toList (by simp) (List.suffix_refl _) (by decide)
      (Or.inr ⟨P, by rw [h]; rfl⟩)
  · exact key ".compact".toList ".compact".toList (by simp) (List.suffix_refl _) (by decide)
      (Or.inr ⟨P, by rw [h]; rfl⟩)
  · obtain ⟨e, he, hs⟩ := endsWithElem_decompose P
    refine key (e ++ ".compact".toList) ".compact".toList (by simp) (List.suffix_append _ _) ?_
      (by rw [h]; exact hs _)
    intro hm
    rcases List.mem_append.mp hm with h1 | h1
    · exact he h1
    · exact absurd h1 (by decide)

/-! ## The Reddit shapes (C16) -/

theorem escape_of_no_escape (s : Str) (h : ∀ c ∈ s, shouldEscape c encodePath = false) :
    escape s encodePath = s := by
  induction s with
  | nil => rfl
  | cons c t ih =>
    have hc := h c (List.mem_cons_self _ _)
    have ht := ih (fun x hx => h x (List.mem_cons_of_mem _ hx))
    unfold escape at ht ⊢
    rw [List.flatMap_cons, ht]
    have hm : ¬ (c = ' ' ∧ encodePath = encodeQueryComponent) := fun h => by cases h.2
    rw [if_neg hm, hc]
    rfl

theorem stringsIndex_of_not_mem (c : Char) (s : Str) (h : c ∉ s) : stringsIndex s [c] = none := by
  induction s with
  | nil => rfl
  | cons x t ih =>
    have hx : c ≠ x := fun e => h (by rw [e]; exact List.mem_cons_self _ _)
    have ht := ih (fun m => h (List.mem_cons_of_mem _ m))
    unfold stringsIndex
    rw [ht]
    have hp : [c].isPrefixOf (x :: t) = false := by
      simp [List.isPrefixOf, hx]
    rw [hp]
    rfl

theorem stripScheme_not_mem (c : Char) (ref r : Str) (hs : stripScheme ref = some r)
    (h : c ∉ ref) : c ∉ r := by
  unfold stripScheme at hs
  have hd : ∀ n, c ∉ ref.drop n := fun n m => h (List.mem_of_mem_drop m)
  cases hi : stringsIndex ref [':'] with
  | none =>
    rw [hi] at hs
    cases hs
    exact h
  | some p =>
    rw [hi] at hs
    dsimp only at hs
    by_cases hp : p < 7
    · rw [if_pos hp] at hs
      unfold sliceFrom at hs
      by_cases hle : p + 3 ≤ ref.length
      · rw [if_pos hle] at hs
        cases hs
        exact hd _
      · rw [if_neg hle] at hs
        cases hs
    · rw [if_neg hp] at hs
      cases hs
      exact h

/-- What the Reddit rule makes of the four shapes: the path `P`, or `P/` for `P/.compact`. -/
theorem redditTrim_shapes (u : URL) (P : Str) (hh : u.Host = "www.reddit.com".toList)
    (hshape : u.Path ∈ redditShapes P) :
    redditTrim u = (true, { u with Path := if u.Path = P ++ "/.compact".toList then P ++ ['/'] else P }) := by
  simp only [redditShapes, List.mem_cons, List.mem_singleton, List.not_mem_nil, or_false] at hshape
  unfold redditTrim
  rw [if_pos hh]
  rcases hshape with h | h | h | h
  · have h1 : "/top".toList.isSuffixOf u.Path = true := by
      rw [h]; exact List.isSuffixOf_iff_suffix.mpr (List.suffix_append _ _)
    have hne : u.Path ≠ P ++ "/.compact".toList := by
      rw [h]; intro e; have := List.append_cancel_left e; revert this; decide
    rw [if_pos (Or.inl h1), if_neg hne, h]
    simp
  · have h1 : "/new".toList.isSuffixOf u.Path = true := by
      rw [h]; exact List.isSuffixOf_iff_suffix.mpr (List.suffix_append _ _)
    have hne : u.Path ≠ P ++ "/.compact".toList := by
      rw [h]; intro e; have := List.append_cancel_left e; revert this; decide
    rw [if_pos (Or.inr h1), if_neg hne, h]
    simp
  · have h1 : ¬ ("/top".toList.isSuffixOf u.Path = true ∨ "/new".toList.isSuffixOf u.Path = true) := by
      rw [h]
      simp [List.isSuffixOf, List.reverse_append, List.isPrefixOf]
    have h2 : ".compact".toList.isSuffixOf u.Path = true := by
      rw [h]
      exact List.isSuffixOf_iff_suffix.mpr
        ⟨P ++ ['/'], by simp⟩
    have ht : (P ++ "/.compact".toList).take ((P ++ "/.compact".toList).length - 8) = P ++ ['/'] := by
      have e : P ++ "/.compact".toList = (P ++ ['/']) ++ ".compact".toList := by simp
      rw [e]
      exact List.take_left' (by simp)
    rw [if_neg h1, if_pos h2, if_pos h, h, ht]
  · have h1 : ¬ ("/top".toList.isSuffixOf u.Path = true ∨ "/new".toList.isSuffixOf u.Path = true) := by
      rw [h]
      simp [List.isSuffixOf, List.reverse_append, List.isPrefixOf]
    have h2 : ".compact".toList.isSuffixOf u.Path = true := by
      rw [h]; exact List.isSuffixOf_iff_suffix.mpr (List.suffix_append _ _)
    have hne : u.Path ≠ P ++ "/.compact".toList := by
      rw [h]; intro e; have := List.append_cancel_left e; revert this; decide
    rw [if_neg h1, if_pos h2, if_neg hne, h]
    simp

theorem stringsTrimRight_of_getLast (s : Str) (h : s.getLast? ≠ some '/') :
    stringsTrimRight s ['/'] = s := by
  obtain ⟨k, hk⟩ := stringsTrimRight_decompose s
  cases k with
  | zero =>
    rw [List.replicate_zero, List.append_nil] at hk
    exact hk.symm
  | succ k =>
    exfalso
    apply h
    rw [hk, List.replicate_succ', ← List.append_assoc, List.getLast?_append]
    rfl

theorem aliased_RawPath (u : URL) : (aliased u).RawPath = u.RawPath := by
  simp only [aliased, normalizeHost]
  cases hostAlias.lookup u.Host <;> rfl

theorem aliasOf_reddit_length (host : Str) (h : aliasOf host = "www.reddit.com".toList) :
    7 ≤ host.length := by
  unfold aliasOf at h
  cases ha : hostAlias.lookup host with
  | none =>
    rw [ha] at h
    simp only [Option.getD_none] at h
    rw [h]
    decide
  | some a =>
    have := hostAlias_keys_length host a ha
    omega

/-- What `cleanURL` returns on the four Reddit shapes. -/
theorem cleanURL_reddit (pkgRefURL : URL) (ref r : Str) (u : URL) (P : Str)
    (hP : P.head? = some '/')
    (hesc : ∀ c ∈ P, shouldEscape c encodePath = false)
    (hs : stripScheme ref = some r) (hq : '?' ∉ ref)
    (hhost : aliasOf u.Host = "www.reddit.com".toList)
    (hshape : u.Path ∈ redditShapes P) (hraw : u.RawPath = [])
    (ho : u.Opaque = []) (huser : u.User = none) (hfrag : u.Fragment = [])
    (hfq : u.ForceQuery = false) (hrq : u.RawQuery = [])
    (hl : pkgRefURL.Host ≠ "lobste.rs".toList ∨ "/s/".toList.isPrefixOf pkgRefURL.Path = true) :
    redditTrim (aliased u)
        = (true, { aliased u with
            Path := if u.Path = P ++ "/.compact".toList then P ++ ['/'] else P })
    ∧ cleanURL pkgRefURL ref u = cleanQuery r (redditTrim (aliased u)).2 true
    ∧ cleanURL pkgRefURL ref u
        = some ("www.reddit.com".toList ++
            (if u.Path = P ++ "/.compact".toList then P ++ ['/'] else P), none, true, false) := by
  have ha : (aliased u).Host = "www.reddit.com".toList := by rw [aliased_Host, hhost]
  have hg : hostGroups.lookup (aliased u).Host = none := by rw [ha]; decide
  have hp : pathGroups.lookup (pathJoin [(aliased u).Host, (aliased u).Path]) = none := by
    rw [ha, aliased_Path]
    exact pathGroups_reddit _ P u.Path (by decide) hshape
  have h1 : groupingOreilly (aliased u) = none := by
    unfold groupingOreilly
    rw [ha, if_pos (by decide)]
  have h2 : groupingGoogle (aliased u) = none := by
    unfold groupingGoogle
    rw [ha, if_pos (by decide)]
  have h3 : groupingLobsters pkgRefURL (aliased u) = none := by
    unfold groupingLobsters
    rw [if_neg]
    rintro ⟨hx, hy⟩
    rcases hl with hl | hl
    · exact hl hx
    · exact hy hl
  have h4 : groupingFeedly (aliased u) = none :=
    groupingFeedly_none _ (by rw [ha]; decide)
  have hf0 : (groupings pkgRefURL).findSome? (fun grouping => grouping (aliased u)) = none := by
    rw [findSome_groupings, h1, h2, h3, h4]; rfl
  have hT := redditTrim_shapes (aliased u) P ha (by rw [aliased_Path]; exact hshape)
  rw [aliased_Path] at hT
  have hcl := cleanURL_of_no_group pkgRefURL u hs hg hp hf0
  have h1t : (redditTrim (aliased u)).1 = true := by rw [hT]
  rw [h1t, Bool.or_true] at hcl
  refine ⟨hT, hcl, ?_⟩
  rw [hcl, hT]
  have hqr : stringsIndex r ['?'] = none :=
    stringsIndex_of_not_mem _ _ (stripScheme_not_mem _ _ _ hs hq)
  have hesc2 : ∀ c ∈ (if u.Path = P ++ "/.compact".toList then P ++ ['/'] else P),
      shouldEscape c encodePath = false := by
    intro c hc
    split_ifs at hc
    · rcases List.mem_append.mp hc with h | h
      · exact hesc c h
      · rw [List.mem_singleton.mp h]; decide
    · exact hesc c hc
  have hhead : (if u.Path = P ++ "/.compact".toList then P ++ ['/'] else P).head? = some '/' := by
    split_ifs
    · cases P with
      | nil => simp at hP
      | cons c t => exact hP
    · exact hP
  have hv : ∀ v : URL, v.Scheme = [] → v.Opaque = [] → v.Host = "www.reddit.com".toList →
      v.User = none → v.ForceQuery = false → v.Fragment = [] → v.RawQuery = [] →
      v.RawPath = [] →
      v.Path = (if u.Path = P ++ "/.compact".toList then P ++ ['/'] else P) →
      cleanQuery r v true = some ("www.reddit.com".toList ++
        (if u.Path = P ++ "/.compact".toList then P ++ ['/'] else P), none, true, false) := by
    intro v hvs hvo hvh hvu hvf hvfr hvq hvr hvp
    rw [cleanQuery_plain r v true hqr hvs hvo (by rw [hvh]; decide) hvu hvf hvfr hvq,
      pathPart_of_plain_path v hvr (by rw [hvp]; exact escape_of_no_escape _ hesc2)
        (by rw [hvp]; exact hhead), hvh, hvp]
    rfl
  exact hv _ (aliased_Scheme u) ((aliased_Opaque u).trans ho) ha
    ((aliased_rest u).1.trans huser) ((aliased_rest u).2.1.trans hfq)
    ((aliased_rest u).2.2.1.trans hfrag) ((aliased_rest u).2.2.2.trans hrq)
    ((aliased_RawPath u).trans hraw) rfl

/-- C16: for a subreddit path `P` that begins with a slash, does not end in one and needs no
escaping, and a host that is or aliases to `www.reddit.com`, each of the four shapes
`P/top`, `P/new`, `P/.compact` and `P.compact` of a referrer without `?` (parsed to a URL
without opaque part, userinfo, query and fragment) is cut by the Reddit rule, which does not
return: `cleanURL` goes on into the query stage with the cut path and returns the label
`www.reddit.com` followed by `P` (by `P/` for `P/.compact`), nil params, store=true and
generated=false.  `Defaults` returns, and leaves `Ref` = `www.reddit.com` followed by `P`
for all four, `RefOriginal` the referrer on entry and a scheme other than generated.
The Lobsters rule is assumed not to fire on what its free name `refURL` denotes; it does
not when that name denotes the URL classified, whose host is `www.reddit.com`. -/
theorem Defaults_reddit (pkgRefURL : URL) (now : Time) (h : Hit) (u : URL) (P : Str)
    (hP : P.head? = some '/') (hPl : P.getLast? ≠ some '/')
    (hesc : ∀ c ∈ P, shouldEscape c encodePath = false)
    (hu : h.refURL = some u) (href : h.Ref ≠ [])
    (hs : stripScheme h.Ref ≠ none ∨ Parse h.Ref = some u)
    (hq : '?' ∉ h.Ref)
    (hhost : aliasOf u.Host = "www.reddit.com".toList)
    (hshape : u.Path ∈ redditShapes P) (hraw : u.RawPath = [])
    (ho : u.Opaque = []) (huser : u.User = none) (hfrag : u.Fragment = [])
    (hfq : u.ForceQuery = false) (hrq : u.RawQuery = [])
    (hl : pkgRefURL.Host ≠ "lobste.rs".toList ∨ "/s/".toList.isPrefixOf pkgRefURL.Path = true) :
    (∃ r, stripScheme h.Ref = some r
        ∧ redditTrim (aliased u)
            = (true, { aliased u with
                Path := if u.Path = P ++ "/.compact".toList then P ++ ['/'] else P })
        ∧ cleanURL pkgRefURL h.Ref u = cleanQuery r (redditTrim (aliased u)).2 true
        ∧ cleanURL pkgRefURL h.Ref u
            = some ("www.reddit.com".toList ++
                (if u.Path = P ++ "/.compact".toList then P ++ ['/'] else P), none, true, false))
    ∧ ∃ h', h.Defaults pkgRefURL now = some h'
        ∧ h'.Ref = "www.reddit.com".toList ++ P
        ∧ h'.RefParams = none
        ∧ h'.RefOriginal = some h.Ref
        ∧ h'.RefScheme ≠ RefSchemeGenerated := by
  have hs2 : stripScheme h.Ref ≠ none :=
    stripScheme_of_either h.Ref u hs (aliasOf_reddit_length _ hhost)
  obtain ⟨r, hr⟩ := stripScheme_some hs2
  obtain ⟨hT, hcq, hcl⟩ := cleanURL_reddit pkgRefURL h.Ref r u P hP hesc hr hq hhost hshape hraw
    ho huser hfrag hfq hrq hl
  refine ⟨⟨r, hr, hT, hcq, hcl⟩, ?_⟩
  have hlast : ("www.reddit.com".toList ++ P).getLast? ≠ some '/' := by
    rw [List.getLast?_append]
    cases hg : P.getLast? with
    | none =>
      cases P with
      | nil => simp at hP
      | cons c t => simp at hg
    | some c =>
      rw [hg] at hPl
      simpa using hPl
  have htrim : stringsTrimRight ("www.reddit.com".toList ++
      (if u.Path = P ++ "/.compact".toList then P ++ ['/'] else P)) ['/']
      = "www.reddit.com".toList ++ P := by
    split_ifs
    · rw [← List.append_assoc, stringsTrimRight_append_slash]
      exact stringsTrimRight_of_getLast _ hlast
    · exact stringsTrimRight_of_getLast _ hlast
  rw [Hit.Defaults_eq, hu]
  dsimp only
  rw [if_pos href, hcl]
  refine ⟨_, rfl, ?_, rfl, ?_, ?_⟩
  · exact htrim
  · show (defaulted now h _).RefOriginal = some h.Ref
    rfl
  · show (defaulted now h _).RefScheme ≠ RefSchemeGenerated
    simp only [defaulted, hu]
    split_ifs <;> decide

/-- Witness of C16: `https://old.reddit.com/r/programming/.compact` parses to a URL of the
shape `P/.compact` for `P` = `/r/programming`, and leaves `Defaults` with the label
`www.reddit.com/r/programming`; so do the other three shapes of the comment. -/
theorem Defaults_reddit_witness :
    Parse "https://old.reddit.com/r/programming/.compact".toList
      = some { URL.zero with Scheme := "https".toList, Host := "old.reddit.com".toList,
                             Path := "/r/programming/.compact".toList }
    ∧ (["https://www.reddit.com/r/programming/top".toList,
        "https://www.reddit.com/r/programming/new".toList,
        "https://www.reddit.com/r/programming/.compact".toList,
        "https://www.reddit.com/r/programming.compact".toList].map
        (fun ref => ((parsedHit 1 "/".toList ref 0).Defaults URL.zero 1).map
          (fun h : Hit => (h.Ref, h.RefOriginal, h.RefScheme))))
      = ["https://www.reddit.com/r/programming/top".toList,
         "https://www.reddit.com/r/programming/new".toList,
         "https://www.reddit.com/r/programming/.compact".toList,
         "https://www.reddit.com/r/programming.compact".toList].map
        (fun ref => some ("www.reddit.com/r/programming".toList, some ref, RefSchemeHTTP))
    ∧ ∃ h', (parsedHit 1 "/".toList "https://old.reddit.com/r/programming/.compact".toList
          0).Defaults URL.zero 1 = some h'
        ∧ h'.Ref = "www.reddit.com".toList ++ "/r/programming".toList
        ∧ h'.RefParams = none
        ∧ h'.RefOriginal
            = some (parsedHit 1 "/".toList "https://old.reddit.com/r/programming/.compact".toList
                0).Ref
        ∧ h'.RefScheme ≠ RefSchemeGenerated :=
  ⟨by decide, by decide,
   (Defaults_reddit URL.zero 1
      (parsedHit 1 "/".toList "https://old.reddit.com/r/programming/.compact".toList 0)
      { URL.zero with Scheme := "https".toList, Host := "old.reddit.com".toList,
                      Path := "/r/programming/.compact".toList }
      "/r/programming".toList (by decide) (by decide) (by decide) (by decide) (by decide)
      (Or.inr (by decide)) (by decide) (by decide) (by decide) rfl rfl rfl rfl rfl rfl
      (Or.inl (by decide))).2⟩

/-! ## The merge step of `HitStats.List` -/

theorem int64wrap_add_left (a b : Int) : int64wrap (int64wrap a + b) = int64wrap (a + b) := by
  unfold int64wrap
  omega

theorem int64wrap_of_range (a : Int) (h1 : -9223372036854775808 ≤ a)
    (h2 : a < 9223372036854775808) : int64wrap a = a := by
  unfold int64wrap
  omega

theorem foldl_int64wrap (l : List Int) :
    ∀ a : Int, l.foldl (fun t v => int64wrap (t + v)) (int64wrap a) = int64wrap (a + l.sum) := by
  induction l with
  | nil => intro a; simp
  | cons v l ih =>
    intro a
    rw [List.foldl_cons, int64wrap_add_left, ih, List.sum_cons, Int.add_assoc]

theorem foldl_max_floor (l : List Int) :
    ∀ a : Int, max 10 (l.foldl max a) = l.foldl max (max 10 a) := by
  induction l with
  | nil => intro a; rfl
  | cons v l ih =>
    intro a
    rw [List.foldl_cons, List.foldl_cons, ih, max_assoc]

theorem foldl_max_le (l : List Int) : ∀ a : Int, a ≤ l.foldl max a := by
  induction l with
  | nil => intro a; exact le_refl a
  | cons v l ih =>
    intro a
    rw [List.foldl_cons]
    exact le_trans (le_max_left a v) (ih _)

theorem foldl_max_mem_le (l : List Int) : ∀ a : Int, ∀ v ∈ l, v ≤ l.foldl max a := by
  induction l with
  | nil => intro a v hv; cases hv
  | cons w l ih =>
    intro a v hv
    rw [List.foldl_cons]
    rcases List.mem_cons.mp hv with h | h
    · rw [h]
      exact le_trans (le_max_right a w) (foldl_max_le l _)
    · exact ih _ v h

theorem foldl_max_mem (l : List Int) : ∀ a : Int, l.foldl max a = a ∨ l.foldl max a ∈ l := by
  induction l with
  | nil => intro a; exact Or.inl rfl
  | cons w l ih =>
    intro a
    rw [List.foldl_cons]
    rcases ih (max a w) with h | h
    · rw [h]
      rcases max_choice a w with h2 | h2
      · exact Or.inl h2
      · exact Or.inr (by rw [h2]; exact List.mem_cons_self _ _)
    · exact Or.inr (List.mem_cons_of_mem _ h)

theorem bucketLoop_eq (x : List (List Int)) (hx : ∀ b ∈ x, 2 ≤ b.length) :
    ∀ td mx : Int, bucketLoop x (td, mx)
      = some ((x.map (fun b => (b[1]?).getD 0)).foldl (fun t v => int64wrap (t + v)) td,
              (x.map (fun b => (b[1]?).getD 0)).foldl max mx) := by
  induction x with
  | nil => intro td mx; rfl
  | cons b x ih =>
    intro td mx
    have hb : 1 < b.length := hx b (List.mem_cons_self _ _)
    have hg : b[1]? = some b[1] := List.getElem?_eq_getElem hb
    unfold bucketLoop
    rw [hg]
    dsimp only
    rw [ih (fun c hc => hx c (List.mem_cons_of_mem _ hc))]
    have hm : (if b[1] > mx then b[1] else mx) = max mx b[1] := by
      rw [max_def]
      split_ifs <;> omega
    rw [hm, List.map_cons, List.foldl_cons, List.foldl_cons, hg]
    rfl

theorem wellFormed_tail (unmarshal : Str → Option (List (List Int))) (s : stats)
    (st : List stats) (p : Str) (h : wellFormed unmarshal (s :: st) p) :
    wellFormed unmarshal st p :=
  fun t ht hp => h t (List.mem_cons_of_mem _ ht) hp

theorem statsLoop_eq (unmarshal : Str → Option (List (List Int))) (formatDay : Time → Str)
    (st : List stats) :
    ∀ (td : Int) (row : hs), wellFormed unmarshal st row.Path →
      statsLoop unmarshal formatDay st (td, row)
        = some ((attachedCounts unmarshal st row.Path).foldl (fun t v => int64wrap (t + v)) td,
                { row with
                  Stats := row.Stats ++ attachedStats unmarshal formatDay st row.Path
                  Max := (attachedCounts unmarshal st row.Path).foldl max row.Max }) := by
  induction st with
  | nil =>
    intro td row _
    simp [statsLoop, attachedCounts, attachedStats]
  | cons s st ih =>
    intro td row hwf
    have hwf2 := wellFormed_tail unmarshal s st row.Path hwf
    unfold statsLoop
    by_cases hp : s.Path = row.Path
    · obtain ⟨x, hx, hb⟩ := hwf s (List.mem_cons_self _ _) hp
      rw [if_pos hp, hx]
      dsimp only
      rw [bucketLoop_eq x hb]
      dsimp only
      rw [ih _ { row with
          Stats := row.Stats ++ [HitStat.mk (formatDay s.Day) x]
          Max := (x.map (fun b => (b[1]?).getD 0)).foldl max row.Max } hwf2]
      have hc : attachedCounts unmarshal (s :: st) row.Path
          = x.map (fun b => (b[1]?).getD 0) ++ attachedCounts unmarshal st row.Path := by
        simp [attachedCounts, hp, hx]
      have hs : attachedStats unmarshal formatDay (s :: st) row.Path
          = HitStat.mk (formatDay s.Day) x :: attachedStats unmarshal formatDay st row.Path := by
        simp [attachedStats, hp, hx]
      rw [hc, hs, List.foldl_append, List.foldl_append]
      simp
    · rw [if_neg hp, ih _ _ hwf2]
      have hc : attachedCounts unmarshal (s :: st) row.Path
          = attachedCounts unmarshal st row.Path := by
        simp [attachedCounts, hp]
      have hs : attachedStats unmarshal formatDay (s :: st) row.Path
          = attachedStats unmarshal formatDay st row.Path := by
        simp [attachedStats, hp]
      rw [hc, hs]
theorem mergeLoop_eq (unmarshal : Str → Option (List (List Int))) (formatDay : Time → Str)
    (st : List stats) (hh : List hs) (hwf : ∀ row ∈ hh, wellFormed unmarshal st row.Path) :
    ∀ a : Int, mergeLoop unmarshal formatDay st hh (int64wrap a)
      = some (int64wrap (a + (hh.map (fun row => (attachedCounts unmarshal st row.Path).sum)).sum),
              hh.map (fun row => { row with
                Stats := row.Stats ++ attachedStats unmarshal formatDay st row.Path
                Max := max 10 ((attachedCounts unmarshal st row.Path).foldl max row.Max) })) := by
  induction hh with
  | nil => intro a; simp [mergeLoop]
  | cons row hh ih =>
    intro a
    unfold mergeLoop
    rw [statsLoop_eq unmarshal formatDay st _ row (hwf row (List.mem_cons_self _ _))]
    dsimp only
    rw [foldl_int64wrap, ih (fun r hr => hwf r (List.mem_cons_of_mem _ hr))]
    simp only [Option.map_some', List.map_cons, List.sum_cons, Int.add_assoc]
    congr 3
    by_cases hm : (attachedCounts unmarshal st row.Path).foldl max row.Max < 10
    · rw [if_pos hm, max_eq_left (le_of_lt hm)]
    · rw [if_neg hm, max_eq_right (not_lt.mp hm)]

theorem mergeLoop_scan (unmarshal : Str → Option (List (List Int))) (formatDay : Time → Str)
    (st : List stats) (rows : List (Str × Int))
    (hwf : ∀ r ∈ rows, wellFormed unmarshal st r.1) :
    mergeLoop unmarshal formatDay st (rows.map scanHit) 0
      = some (int64wrap (displaySum unmarshal st rows),
              rows.map (mergedRow unmarshal formatDay st)) := by
  have h0 : (0 : Int) = int64wrap 0 := by decide
  have hwf2 : ∀ row ∈ rows.map scanHit, wellFormed unmarshal st row.Path := by
    intro row hrow
    obtain ⟨r, hr, rfl⟩ := List.mem_map.mp hrow
    exact hwf r hr
  rw [h0, mergeLoop_eq unmarshal formatDay st _ hwf2 0, Int.zero_add, List.map_map, List.map_map]
  unfold displaySum
  congr 2
  apply List.map_congr_left
  intro r _
  simp only [Function.comp, scanHit, mergedRow, List.nil_append]
  rw [foldl_max_floor]
  rfl
theorem queryLimit_ne_zero (page : Int) (exclude : List Str) (hpage : 0 ≤ page)
    (hint : page < 9223372036854775808) : queryLimit page exclude ≠ 0 := by
  unfold queryLimit pageSize int64wrap
  split_ifs <;> omega

theorem queryLimit_excluding (page : Int) (exclude : List Str) (n : Nat) (hpage : 0 ≤ page)
    (hint : page < 9223372036854775808) (he : exclude.length > 0)
    (hlen : (n : Int) ≤ queryLimit page exclude) :
    queryLimit page exclude = pageSize page + 1 := by
  unfold queryLimit pageSize int64wrap at *
  rw [if_pos he] at hlen ⊢
  split_ifs at hlen ⊢ <;> omega

/-- What `HitStats.List` returns when no query fails and the records of the kept paths are
well formed. -/
theorem List_eq (page : Int) (exclude : List Str)
    (selectHits : List Str → Int → List (Str × Int) × Option String)
    (selectStats : Except String (List stats))
    (unmarshal : Str → Option (List (List Int))) (formatDay : Time → Str)
    (getTotal : Int × Option String) (rows : List (Str × Int)) (st : List stats)
    (hpage : 0 ≤ page) (hint : page < 9223372036854775808)
    (hq : selectHits exclude (queryLimit page exclude) = (rows, none))
    (hst : selectStats = Except.ok st)
    (hwf : ∀ r ∈ keptRows page exclude rows, wellFormed unmarshal st r.1) :
    HitStats.List page exclude selectHits selectStats unmarshal formatDay getTotal
      = some { total := getTotal.1
               totalDisplay := int64wrap (displaySum unmarshal st (keptRows page exclude rows))
               more := decide (exclude.length > 0 ∧ (rows.length : Int) = queryLimit page exclude)
               err := wrapErr getTotal.2
               rows := (keptRows page exclude rows).map (mergedRow unmarshal formatDay st) } := by
  unfold HitStats.List
  simp only [hq, hst, List.length_map]
  by_cases he : exclude.length > 0
  · by_cases hl : (rows.length : Int) = queryLimit page exclude
    · have h0 : rows.length ≠ 0 := by
        intro h
        rw [h] at hl
        exact queryLimit_ne_zero page exclude hpage hint hl.symm
      have hk : keptRows page exclude rows = rows.dropLast := by
        unfold keptRows
        rw [if_pos ⟨he, hl⟩]
      rw [hk] at hwf ⊢
      simp only [he, hl, decide_True, if_true, h0, if_false, and_self]
      rw [← List.map_take, ← List.dropLast_eq_take, mergeLoop_scan unmarshal formatDay st _ hwf]
    · have hk : keptRows page exclude rows = rows := by
        unfold keptRows
        rw [if_neg (fun h => hl h.2)]
      rw [hk] at hwf ⊢
      simp only [he, hl, decide_True, if_true, if_false, and_false, decide_False]
      rw [mergeLoop_scan unmarshal formatDay st _ hwf]
  · have hk : keptRows page exclude rows = rows := by
      unfold keptRows
      rw [if_neg (fun h => he h.1)]
    rw [hk] at hwf ⊢
    simp only [he, decide_False, Bool.false_eq_true, if_false, false_and]
    rw [mergeLoop_scan unmarshal formatDay st _ hwf]
theorem keptRows_sublist (page : Int) (exclude : List Str) (rows : List (Str × Int)) :
    ∀ r ∈ keptRows page exclude rows, r ∈ rows := by
  intro r hr
  unfold keptRows at hr
  split_ifs at hr
  · exact List.mem_of_mem_dropLast hr
  · exact hr

theorem mergedRow_key (unmarshal : Str → Option (List (List Int))) (formatDay : Time → Str)
    (st : List stats) (l : List (Str × Int)) :
    (l.map (mergedRow unmarshal formatDay st)).map (fun r => (r.Path, r.Count)) = l := by
  rw [List.map_map]
  exact List.map_id'' (fun r => rfl) l

/-! ## Paging (C13) -/

/-- C13: `page` is the configured page limit, a non-negative `int`, and the page size is
`page`, or 20 when `page` is 0.  When the per-path query returned `rows`, no more of them
than the limit it was given, and the rollup query returned well-formed records,
`HitStats.List` returns, with at most page-size rows; `more` is true if and only if the
query returned exactly page size + 1 rows; the rows left are then the rows of the query
without the last, in their order, and all the rows of the query otherwise. -/
theorem List_page (page : Int) (exclude : List Str)
    (selectHits : List Str → Int → List (Str × Int) × Option String)
    (selectStats : Except String (List stats))
    (unmarshal : Str → Option (List (List Int))) (formatDay : Time → Str)
    (getTotal : Int × Option String) (rows : List (Str × Int)) (st : List stats)
    (hpage : 0 ≤ page) (hint : page < 9223372036854775808)
    (hq : selectHits exclude (queryLimit page exclude) = (rows, none))
    (hlen : (rows.length : Int) ≤ queryLimit page exclude)
    (hst : selectStats = Except.ok st)
    (hwf : ∀ r ∈ rows, wellFormed unmarshal st r.1) :
    ∃ res, HitStats.List page exclude selectHits selectStats unmarshal formatDay getTotal
        = some res
      ∧ (res.rows.length : Int) ≤ pageSize page
      ∧ (res.more = true ↔ (rows.length : Int) = pageSize page + 1)
      ∧ res.rows.map (fun r => (r.Path, r.Count))
          = (if (rows.length : Int) = pageSize page + 1 then rows.dropLast else rows) := by
  refine ⟨_, List_eq page exclude selectHits selectStats unmarshal formatDay getTotal rows st
    hpage hint hq hst (fun r hr => hwf r (keptRows_sublist page exclude rows r hr)), ?_⟩
  dsimp only
  rw [mergedRow_key, List.length_map]
  have hps : 1 ≤ pageSize page := by
    unfold pageSize
    split_ifs <;> omega
  by_cases he : exclude.length > 0
  · have hql := queryLimit_excluding page exclude rows.length hpage hint he hlen
    rw [hql] at hlen
    unfold keptRows
    rw [hql]
    by_cases hl : (rows.length : Int) = pageSize page + 1
    · rw [if_pos ⟨he, hl⟩, if_pos hl, List.length_dropLast]
      refine ⟨?_, ?_, rfl⟩
      · generalize pageSize page = ps at hl hps ⊢
        omega
      · simp [he, hl]
    · rw [if_neg (fun h => hl h.2), if_neg hl]
      refine ⟨?_, ?_, rfl⟩
      · generalize pageSize page = ps at hl hlen hps ⊢
        omega
      · simp [hl]
  · have hql : queryLimit page exclude = pageSize page := by
      unfold queryLimit
      rw [if_neg he]
    rw [hql] at hlen
    have hl : ¬ (rows.length : Int) = pageSize page + 1 := by
      generalize pageSize page = ps at hlen hps ⊢
      omega
    unfold keptRows
    rw [if_neg (fun h => he h.1), if_neg hl]
    refine ⟨hlen, ?_, rfl⟩
    simp [he, hl]

/-- Witness of C13: with a page limit of 2 and one path excluded the query is given the
limit 3 and returns three rows; `more` is true and the rows `/x` and `/y` are left.
Without an excluded path the limit is 2, and `more` is false. -/
theorem List_page_witness :
    (HitStats.List 2 ["/z".toList] sampleSelect (Except.ok sampleStats) sampleUnmarshal
        (fun _ => []) (100, none)).map (fun res => (res.more, res.rows.map (fun r => r.Path)))
      = some (true, ["/x".toList, "/y".toList])
    ∧ (HitStats.List 2 [] sampleSelect (Except.ok sampleStats) sampleUnmarshal
        (fun _ => []) (100, none)).map (fun res => (res.more, res.rows.map (fun r => r.Path)))
      = some (false, ["/x".toList, "/y".toList])
    ∧ ∃ res, HitStats.List 2 ["/z".toList] sampleSelect (Except.ok sampleStats) sampleUnmarshal
          (fun _ => []) (100, none) = some res
        ∧ (res.rows.length : Int) ≤ pageSize 2
        ∧ (res.more = true
            ↔ (([("/x".toList, (5 : Int)), ("/y".toList, 4), ("/w".toList, 1)].length : Nat) : Int)
                = pageSize 2 + 1)
        ∧ res.rows.map (fun r => (r.Path, r.Count))
            = (if (([("/x".toList, (5 : Int)), ("/y".toList, 4), ("/w".toList, 1)].length : Nat)
                    : Int) = pageSize 2 + 1
               then [("/x".toList, (5 : Int)), ("/y".toList, 4), ("/w".toList, 1)].dropLast
               else [("/x".toList, (5 : Int)), ("/y".toList, 4), ("/w".toList, 1)]) :=
  ⟨by decide, by decide,
   List_page 2 ["/z".toList] sampleSelect (Except.ok sampleStats) sampleUnmarshal (fun _ => [])
     (100, none) [("/x".toList, (5 : Int)), ("/y".toList, 4), ("/w".toList, 1)] sampleStats
     (by decide) (by decide) (by decide) (by decide) rfl (by unfold wellFormed; decide)⟩

/-! ## The floor of `Max` (C14) -/

/-- C14: for every list of rows of the per-path query and every list of rollup records that
are well formed for the paths of the rows, the merge step of `HitStats.List` returns, with
one row per row of the query, and the `Max` of each row is the greatest of 10 and the
bucket counts attached to its path: it is at least 10 and at least every such count, and it
is 10 or one of the counts; it is 10 for a row without rollup records. -/
theorem mergeLoop_Max (unmarshal : Str → Option (List (List Int))) (formatDay : Time → Str)
    (st : List stats) (rows : List (Str × Int))
    (hwf : ∀ r ∈ rows, wellFormed unmarshal st r.1) :
    ∃ totalDisplay hh,
      mergeLoop unmarshal formatDay st (rows.map scanHit) 0 = some (totalDisplay, hh)
      ∧ hh.map (fun r => (r.Path, r.Count)) = rows
      ∧ ∀ r ∈ hh,
          r.Max = (attachedCounts unmarshal st r.Path).foldl max 10
          ∧ 10 ≤ r.Max
          ∧ (∀ v ∈ attachedCounts unmarshal st r.Path, v ≤ r.Max)
          ∧ (r.Max = 10 ∨ r.Max ∈ attachedCounts unmarshal st r.Path)
          ∧ ((∀ s ∈ st, s.Path ≠ r.Path) → r.Max = 10) := by
  refine ⟨_, _, mergeLoop_scan unmarshal formatDay st rows hwf, mergedRow_key _ _ _ _, ?_⟩
  intro r hr
  obtain ⟨q, _, rfl⟩ := List.mem_map.mp hr
  refine ⟨rfl, foldl_max_le _ 10, foldl_max_mem_le _ 10, foldl_max_mem _ 10, ?_⟩
  intro hno
  have hnil : attachedCounts unmarshal st (mergedRow unmarshal formatDay st q).Path = [] := by
    unfold attachedCounts
    rw [List.filter_eq_nil_iff.mpr (fun s hs => by simpa using hno s hs)]
    rfl
  show List.foldl max 10 (attachedCounts unmarshal st q.1) = 10
  have hq : (mergedRow unmarshal formatDay st q).Path = q.1 := rfl
  rw [hq] at hnil
  rw [hnil]
  rfl

/-- Witness of C14: `/x` has the counts 3, 12, 1 and 2 and gets `Max` = 12; `/y` has the
counts 1 and 2 and `/w` has none, and both get `Max` = 10. -/
theorem mergeLoop_Max_witness :
    (mergeLoop sampleUnmarshal (fun _ => []) sampleStats
        ([("/x".toList, (5 : Int)), ("/y".toList, 4), ("/w".toList, 1)].map scanHit) 0).map
        (fun res => res.2.map (fun r => r.Max)) = some [12, 10, 10]
    ∧ ∃ totalDisplay hh,
      mergeLoop sampleUnmarshal (fun _ => []) sampleStats
        ([("/x".toList, (5 : Int)), ("/y".toList, 4), ("/w".toList, 1)].map scanHit) 0
        = some (totalDisplay, hh)
      ∧ hh.map (fun r => (r.Path, r.Count))
          = [("/x".toList, (5 : Int)), ("/y".toList, 4), ("/w".toList, 1)]
      ∧ ∀ r ∈ hh,
          r.Max = (attachedCounts sampleUnmarshal sampleStats r.Path).foldl max 10
          ∧ 10 ≤ r.Max
          ∧ (∀ v ∈ attachedCounts sampleUnmarshal sampleStats r.Path, v ≤ r.Max)
          ∧ (r.Max = 10 ∨ r.Max ∈ attachedCounts sampleUnmarshal sampleStats r.Path)
          ∧ ((∀ s ∈ sampleStats, s.Path ≠ r.Path) → r.Max = 10) :=
  ⟨by decide,
   mergeLoop_Max sampleUnmarshal (fun _ => []) sampleStats
     [("/x".toList, (5 : Int)), ("/y".toList, 4), ("/w".toList, 1)]
     (by unfold wellFormed; decide)⟩
/-! ## `totalDisplay` (C15) -/

theorem attachedCounts_of_no_record (unmarshal : Str → Option (List (List Int)))
    (st : List stats) (p : Str) (hno : ∀ s ∈ st, s.Path ≠ p) :
    attachedCounts unmarshal st p = [] := by
  unfold attachedCounts
  rw [List.filter_eq_nil_iff.mpr (fun s hs => by simpa using hno s hs)]
  rfl

theorem displaySum_rows (unmarshal : Str → Option (List (List Int))) (formatDay : Time → Str)
    (st : List stats) (l : List (Str × Int)) :
    ((l.map (mergedRow unmarshal formatDay st)).map
        (fun r => (attachedCounts unmarshal st r.Path).sum)).sum
      = displaySum unmarshal st l := by
  rw [List.map_map]
  rfl

/-- C15: when no query fails and the rollup records of the returned paths are well formed,
`HitStats.List` returns, and `totalDisplay` is the sum, over the rows it leaves (the
overflow row dropped) and over the rollup records with the path of the row, of the counts
of all buckets of the record, as an `int`: the sum wrapped around, which is the sum itself
when it is in the range of `int`.  It is 0 when no rollup record has the path of a row left.
`total` is what the last query counted: with another answer of that query `totalDisplay`,
`more` and the rows are the same, and `total` is that other answer. -/
theorem List_totalDisplay (page : Int) (exclude : List Str)
    (selectHits : List Str → Int → List (Str × Int) × Option String)
    (selectStats : Except String (List stats))
    (unmarshal : Str → Option (List (List Int))) (formatDay : Time → Str)
    (getTotal : Int × Option String) (rows : List (Str × Int)) (st : List stats)
    (hpage : 0 ≤ page) (hint : page < 9223372036854775808)
    (hq : selectHits exclude (queryLimit page exclude) = (rows, none))
    (hst : selectStats = Except.ok st)
    (hwf : ∀ r ∈ rows, wellFormed unmarshal st r.1) :
    ∃ res, HitStats.List page exclude selectHits selectStats unmarshal formatDay getTotal
        = some res
      ∧ res.rows.map (fun r => (r.Path, r.Count)) = keptRows page exclude rows
      ∧ res.totalDisplay
          = int64wrap ((res.rows.map (fun r => (attachedCounts unmarshal st r.Path).sum)).sum)
      ∧ (-9223372036854775808
            ≤ (res.rows.map (fun r => (attachedCounts unmarshal st r.Path).sum)).sum →
          (res.rows.map (fun r => (attachedCounts unmarshal st r.Path).sum)).sum
            < 9223372036854775808 →
          res.totalDisplay
            = (res.rows.map (fun r => (attachedCounts unmarshal st r.Path).sum)).sum)
      ∧ ((∀ r ∈ res.rows, ∀ s ∈ st, s.Path ≠ r.Path) → res.totalDisplay = 0)
      ∧ res.total = getTotal.1
      ∧ ∀ getTotal2 : Int × Option String,
          ∃ res2, HitStats.List page exclude selectHits selectStats unmarshal formatDay getTotal2
              = some res2
            ∧ res2.totalDisplay = res.totalDisplay ∧ res2.more = res.more
            ∧ res2.rows = res.rows ∧ res2.total = getTotal2.1 := by
  have hwf2 : ∀ r ∈ keptRows page exclude rows, wellFormed unmarshal st r.1 :=
    fun r hr => hwf r (keptRows_sublist page exclude rows r hr)
  refine ⟨_, List_eq page exclude selectHits selectStats unmarshal formatDay getTotal rows st
    hpage hint hq hst hwf2, ?_⟩
  dsimp only
  rw [displaySum_rows]
  refine ⟨mergedRow_key _ _ _ _, rfl, fun h1 h2 => int64wrap_of_range _ h1 h2, ?_, rfl, ?_⟩
  · intro hno
    have hz : displaySum unmarshal st (keptRows page exclude rows) = 0 := by
      rw [← displaySum_rows unmarshal formatDay]
      apply List.sum_eq_zero
      intro x hx
      obtain ⟨r, hr, rfl⟩ := List.mem_map.mp hx
      rw [attachedCounts_of_no_record unmarshal st r.Path (hno r hr)]
      rfl
    rw [hz]
    rfl
  · intro getTotal2
    exact ⟨_, List_eq page exclude selectHits selectStats unmarshal formatDay getTotal2 rows st
      hpage hint hq hst hwf2, rfl, rfl, rfl, rfl⟩

/-- Witness of C15: with a page limit of 2 and one path excluded, the rows `/x` and `/y`
are left and `totalDisplay` is 3 + 12 + 1 + 2 for `/x` plus 1 + 2 for `/y`, 21, while
`total` is the 100 the last query counted.  Without rollup records `totalDisplay` is 0 and
`total` still 100. -/
theorem List_totalDisplay_witness :
    (HitStats.List 2 ["/z".toList] sampleSelect (Except.ok sampleStats) sampleUnmarshal
        (fun _ => []) (100, none)).map (fun res => (res.total, res.totalDisplay))
      = some (100, 21)
    ∧ (HitStats.List 2 ["/z".toList] sampleSelect (Except.ok []) sampleUnmarshal
        (fun _ => []) (100, none)).map (fun res => (res.total, res.totalDisplay))
      = some (100, 0)
    ∧ ∃ res, HitStats.List 2 ["/z".toList] sampleSelect (Except.ok sampleStats) sampleUnmarshal
          (fun _ => []) (100, none) = some res
      ∧ res.rows.map (fun r => (r.Path, r.Count))
          = keptRows 2 ["/z".toList] [("/x".toList, (5 : Int)), ("/y".toList, 4), ("/w".toList, 1)]
      ∧ res.totalDisplay
          = int64wrap ((res.rows.map
              (fun r => (attachedCounts sampleUnmarshal sampleStats r.Path).sum)).sum)
      ∧ (-9223372036854775808
            ≤ (res.rows.map (fun r => (attachedCounts sampleUnmarshal sampleStats r.Path).sum)).sum →
          (res.rows.map (fun r => (attachedCounts sampleUnmarshal sampleStats r.Path).sum)).sum
            < 9223372036854775808 →
          res.totalDisplay
            = (res.rows.map (fun r => (attachedCounts sampleUnmarshal sampleStats r.Path).sum)).sum)
      ∧ ((∀ r ∈ res.rows, ∀ s ∈ sampleStats, s.Path ≠ r.Path) → res.totalDisplay = 0)
      ∧ res.total = (((100 : Int), (none : Option String))).1
      ∧ ∀ getTotal2 : Int × Option String,
          ∃ res2, HitStats.List 2 ["/z".toList] sampleSelect (Except.ok sampleStats)
              sampleUnmarshal (fun _ => []) getTotal2 = some res2
            ∧ res2.totalDisplay = res.totalDisplay ∧ res2.more = res.more
            ∧ res2.rows = res.rows ∧ res2.total = getTotal2.1 :=
  ⟨by decide, by decide,
   List_totalDisplay 2 ["/z".toList] sampleSelect (Except.ok sampleStats) sampleUnmarshal
     (fun _ => []) (100, none) [("/x".toList, (5 : Int)), ("/y".toList, 4), ("/w".toList, 1)]
     sampleStats (by decide) (by decide) (by decide) rfl (by unfold wellFormed; decide)⟩

end GoatCounter
